import Mathlib

/-! Verification of the recursive-descent JSON parser (parser.go).

Shallow embedding of `parser.go`.  A Go `string` is a sequence of bytes and is
modelled by `List Nat` (each byte below 256); a `rune` is a `Nat`.  The cursor
`JSONParser` keeps the four fields of the Go struct.  Go `int` counters
(`pos`, `line`, `col`) never exceed the input length plus one, so they are
modelled by `Nat` without wrap-around.  Unbounded `for` loops are modelled by
structural recursion on a step budget; a budget that is used up is reported
by the distinguished result `outOfFuel`, never silently.
-/

namespace JSONParserGo

/-! ## Standard library: `unicode/utf8`, `unicode`, `strconv`, `fmt` -/

/-- The rune `utf8.RuneError` (U+FFFD). -/
def RuneError : Nat := 0xFFFD

/-- Go `utf8.DecodeRuneInString`: the first rune of `s` and its width in bytes.
The masks and shifts of the Go code are written with `%` and `*`; the table
`first` and the accept ranges are the comparisons on the leading byte. -/
def decodeRuneInString (s : List Nat) : Nat × Nat :=
  match s with
  | [] => (RuneError, 0)
  | s0 :: t =>
    if s0 < 0x80 then (s0, 1)
    else if s0 < 0xC2 then (RuneError, 1)
    else if s0 < 0xE0 then
      match t with
      | s1 :: _ =>
        if s1 < 0x80 ∨ 0xBF < s1 then (RuneError, 1)
        else ((s0 % 32) * 64 + s1 % 64, 2)
      | [] => (RuneError, 1)
    else if s0 < 0xF0 then
      match t with
      | s1 :: s2 :: _ =>
        if s1 < (if s0 = 0xE0 then 0xA0 else 0x80) ∨ (if s0 = 0xED then 0x9F else 0xBF) < s1 then
          (RuneError, 1)
        else if s2 < 0x80 ∨ 0xBF < s2 then (RuneError, 1)
        else ((s0 % 16) * 4096 + (s1 % 64) * 64 + s2 % 64, 3)
      | _ => (RuneError, 1)
    else if s0 < 0xF5 then
      match t with
      | s1 :: s2 :: s3 :: _ =>
        if s1 < (if s0 = 0xF0 then 0x90 else 0x80) ∨ (if s0 = 0xF4 then 0x8F else 0xBF) < s1 then
          (RuneError, 1)
        else if s2 < 0x80 ∨ 0xBF < s2 then (RuneError, 1)
        else if s3 < 0x80 ∨ 0xBF < s3 then (RuneError, 1)
        else ((s0 % 8) * 262144 + (s1 % 64) * 4096 + (s2 % 64) * 64 + s3 % 64, 4)
      | _ => (RuneError, 1)
    else (RuneError, 1)

/-- Go `utf8.AppendRune` on one rune: its UTF-8 encoding; surrogates and
values above U+10FFFF are encoded as `RuneError`. -/
def encodeRune (r : Nat) : List Nat :=
  if r < 0x80 then [r]
  else if r < 0x800 then [0xC0 + r / 64, 0x80 + r % 64]
  else if 0x10FFFF < r ∨ (0xD800 ≤ r ∧ r ≤ 0xDFFF) then [0xEF, 0xBF, 0xBD]
  else if r < 0x10000 then [0xE0 + r / 4096, 0x80 + (r / 64) % 64, 0x80 + r % 64]
  else [0xF0 + r / 262144, 0x80 + (r / 4096) % 64, 0x80 + (r / 64) % 64, 0x80 + r % 64]

/-- Go conversion `string(rs)` of a `[]rune` to a string. -/
def encodeRunes (rs : List Nat) : List Nat :=
  rs.flatMap encodeRune

/-- UTF-8 bytes of a list of characters. -/
def utf8 (cs : List Char) : List Nat :=
  encodeRunes (cs.map Char.toNat)

/-- UTF-8 bytes of a string literal. -/
def bytes (s : String) : List Nat :=
  utf8 s.data

/-- The ranges of the table `unicode.Nd` (decimal digits, Unicode 15.0.0)
above Latin-1. -/
def digitRanges : List (Nat × Nat) :=
  [(0x0660, 0x0669), (0x06f0, 0x06f9), (0x07c0, 0x07c9), (0x0966, 0x096f),
   (0x09e6, 0x09ef), (0x0a66, 0x0a6f), (0x0ae6, 0x0aef), (0x0b66, 0x0b6f),
   (0x0be6, 0x0bef), (0x0c66, 0x0c6f), (0x0ce6, 0x0cef), (0x0d66, 0x0d6f),
   (0x0de6, 0x0def), (0x0e50, 0x0e59), (0x0ed0, 0x0ed9), (0x0f20, 0x0f29),
   (0x1040, 0x1049), (0x1090, 0x1099), (0x17e0, 0x17e9), (0x1810, 0x1819),
   (0x1946, 0x194f), (0x19d0, 0x19d9), (0x1a80, 0x1a89), (0x1a90, 0x1a99),
   (0x1b50, 0x1b59), (0x1bb0, 0x1bb9), (0x1c40, 0x1c49), (0x1c50, 0x1c59),
   (0xa620, 0xa629), (0xa8d0, 0xa8d9), (0xa900, 0xa909), (0xa9d0, 0xa9d9),
   (0xa9f0, 0xa9f9), (0xaa50, 0xaa59), (0xabf0, 0xabf9), (0xff10, 0xff19),
   (0x104a0, 0x104a9), (0x10d30, 0x10d39), (0x11066, 0x1106f), (0x110f0, 0x110f9),
   (0x11136, 0x1113f), (0x111d0, 0x111d9), (0x112f0, 0x112f9), (0x11450, 0x11459),
   (0x114d0, 0x114d9), (0x11650, 0x11659), (0x116c0, 0x116c9), (0x11730, 0x11739),
   (0x118e0, 0x118e9), (0x11950, 0x11959), (0x11c50, 0x11c59), (0x11d50, 0x11d59),
   (0x11da0, 0x11da9), (0x11f50, 0x11f59), (0x16a60, 0x16a69), (0x16ac0, 0x16ac9),
   (0x16b50, 0x16b59), (0x1d7ce, 0x1d7ff), (0x1e140, 0x1e149), (0x1e2f0, 0x1e2f9),
   (0x1e4f0, 0x1e4f9), (0x1e950, 0x1e959), (0x1fbf0, 0x1fbf9)]

/-- Go `unicode.IsDigit`: below U+0100 exactly the ASCII digits, above it the
table `unicode.Nd`. -/
def unicodeIsDigit (r : Nat) : Bool :=
  if r ≤ 0xFF then decide (0x30 ≤ r ∧ r ≤ 0x39)
  else digitRanges.any (fun lh => decide (lh.1 ≤ r ∧ r ≤ lh.2))

/-- A finite `float64`, kept as the reduced dyadic `(-1)^neg * mant * 2^exp`:
`mant` is odd, or `mant = 0` and `exp = 0`. -/
structure Float64 where
  neg : Bool
  mant : Nat
  exp : Int
  deriving DecidableEq, Repr

/-- Number of binary digits of `n` (`bitLenAux n n`). -/
def bitLenAux : Nat → Nat → Nat
  | 0, _ => 0
  | fuel + 1, n => if n = 0 then 0 else 1 + bitLenAux fuel (n / 2)

/-- Number of binary digits of `n`. -/
def bitLen (n : Nat) : Nat :=
  bitLenAux n n

/-- Strip the factors of two of a mantissa, raising the exponent. -/
def stripTwos : Nat → Nat → Int → Nat × Int
  | 0, m, e => (m, e)
  | fuel + 1, m, e => if m % 2 = 0 ∧ m ≠ 0 then stripTwos fuel (m / 2) (e + 1) else (m, e)

/-- The reduced dyadic with value `(-1)^neg * m * 2^e`. -/
def Float64.normalize (neg : Bool) (m : Nat) (e : Int) : Float64 :=
  if m = 0 then ⟨neg, 0, 0⟩
  else let me := stripTwos m m e; ⟨neg, me.1, me.2⟩

/-- The `float64` nearest to `(-1)^neg * m * 10^e10` (IEEE 754 round to
nearest, ties to even); `none` when the result overflows (`strconv.ErrRange`). -/
def roundFloat64 (neg : Bool) (m : Nat) (e10 : Int) : Option Float64 :=
  if m = 0 then some ⟨neg, 0, 0⟩
  else
    let n := if 0 ≤ e10 then m * 10 ^ e10.toNat else m
    let d := if 0 ≤ e10 then 1 else 10 ^ (-e10).toNat
    let e : Int := (bitLen n : Int) - (bitLen d : Int)
    let ge : Bool := if 0 ≤ e then decide (d * 2 ^ e.toNat ≤ n) else decide (d ≤ n * 2 ^ (-e).toNat)
    let lg : Int := if ge then e else e - 1
    let k : Int := max (lg - 52) (-1074)
    let n1 := if 0 ≤ k then n else n * 2 ^ (-k).toNat
    let d1 := if 0 ≤ k then d * 2 ^ k.toNat else d
    let q := n1 / d1
    let r := n1 % d1
    let mr := if d1 < 2 * r ∨ (2 * r = d1 ∧ q % 2 = 1) then q + 1 else q
    if (bitLen mr : Int) + k > 1024 then none
    else some (Float64.normalize neg mr k)

/-- Value of a run of ASCII digits. -/
def readDigits (ds : List Nat) : Nat :=
  ds.foldl (fun n d => 10 * n + (d - 0x30)) 0

/-- ASCII digit test on a byte. -/
def isAsciiDigit (b : Nat) : Bool :=
  decide (0x30 ≤ b ∧ b ≤ 0x39)

/-- The decimal exponent as `strconv` reads it (the exponent loops of
`readFloat` and `decimal.set` add a digit only while `e < 10000`): once the
value has reached 10000 the further digits are skipped. -/
def readExponent (ds : List Nat) : Nat :=
  ds.foldl (fun e d => if e < 10000 then 10 * e + (d - 0x30) else e) 0

/-- The exponent and the end of a decimal literal, for `strconvParseFloat`:
`mant` holds the digits read so far, `fracLen` of them behind the point. -/
def floatExponent (neg : Bool) (mant : List Nat) (fracLen : Nat) (s : List Nat) : Option Float64 :=
  match s with
  | [] => roundFloat64 neg (readDigits mant) (-(fracLen : Int))
  | c :: t =>
    if c = 0x65 ∨ c = 0x45 then
      let eneg : Bool := t.head? = some 0x2D
      let t1 := if t.head? = some 0x2D ∨ t.head? = some 0x2B then t.tail else t
      let ep := t1.takeWhile isAsciiDigit
      if ep = [] ∨ t1.dropWhile isAsciiDigit ≠ [] then none
      else
        roundFloat64 neg (readDigits mant)
          ((if eneg then -(readExponent ep : Int) else (readExponent ep : Int)) - (fracLen : Int))
    else none

/-- The fraction of a decimal literal, for `strconvParseFloat`. -/
def floatFraction (neg : Bool) (ip : List Nat) (s : List Nat) : Option Float64 :=
  match s with
  | [] => floatExponent neg ip 0 []
  | c :: t =>
    if c = 0x2E then
      if t.takeWhile isAsciiDigit = [] then none
      else
        floatExponent neg (ip ++ t.takeWhile isAsciiDigit) (t.takeWhile isAsciiDigit).length
          (t.dropWhile isAsciiDigit)
    else floatExponent neg ip 0 (c :: t)

/-- The digits of a decimal literal after its sign, for `strconvParseFloat`. -/
def floatDigits (neg : Bool) (s : List Nat) : Option Float64 :=
  if s.takeWhile isAsciiDigit = [] then none
  else floatFraction neg (s.takeWhile isAsciiDigit) (s.dropWhile isAsciiDigit)

/-- Go `strconv.ParseFloat(s, 64)` on the strings the scanner of `parseNumber`
can hand over: an optional `-`, digits, an optional `.` with digits, an
optional exponent.  `none` is a non-nil `err`: a syntax error (any other byte,
in particular a byte of a non-ASCII digit) or a range error (overflow).  The
value is the nearest `float64` of the decimal with the exponent as `strconv`
reads it (`readExponent`).  The digit buffer of `strconv` holds 800 digits:
for an integer part of more than 800 digits the two agree when there is no
exponent (both overflow), and the results on the value of the conversion are
stated for integer parts of at most 800 digits. -/
def strconvParseFloat (s : List Nat) : Option Float64 :=
  match s with
  | [] => none
  | c :: t => if c = 0x2D then floatDigits true t else floatDigits false (c :: t)

/-- Decimal digits of `n` as ASCII bytes, most significant first. -/
def decimalAux : Nat → Nat → List Nat → List Nat
  | 0, _, acc => acc
  | fuel + 1, n, acc =>
    if n < 10 then (0x30 + n) :: acc
    else decimalAux fuel (n / 10) ((0x30 + n % 10) :: acc)

/-- Decimal digits of `n` as ASCII bytes. -/
def decimal (n : Nat) : List Nat :=
  decimalAux (n + 1) n []

/-- Go `fmt.Sprintf("%.0f", f)`: the value rounded to an integer (ties to
even), in decimal, with the sign of `f` (also for a zero). -/
def formatF0 (f : Float64) : List Nat :=
  let q :=
    if 0 ≤ f.exp then f.mant * 2 ^ f.exp.toNat
    else
      let d := 2 ^ (-f.exp).toNat
      let q0 := f.mant / d
      let r := f.mant % d
      if d < 2 * r ∨ (2 * r = d ∧ q0 % 2 = 1) then q0 + 1 else q0
  (if f.neg then [0x2D] else []) ++ decimal q

/-! ## Data model -/

/-- The dynamically typed result (`interface{}`) of the parser: `nil`, `bool`,
`float64`, `string`, `[]interface{}` and `map[string]interface{}`.  A slice is
kept as its element sequence (a nil and an empty slice are both `[]`); a map
is kept as a list of bindings with pairwise distinct keys. -/
inductive JSONValue where
  | null
  | bool (b : Bool)
  | number (f : Float64)
  | string (s : List Nat)
  | array (xs : List JSONValue)
  | object (m : List (List Nat × JSONValue))

/-- Go map assignment `obj[key] = value`: overwrite the binding of `key` if
there is one, otherwise add it. -/
def mapInsert (m : List (List Nat × JSONValue)) (key : List Nat) (value : JSONValue) :
    List (List Nat × JSONValue) :=
  match m with
  | [] => [(key, value)]
  | (k, v) :: rest => if k = key then (key, value) :: rest else (k, v) :: mapInsert rest key value

/-- Go map read `obj[key]` with the comma-ok form. -/
def mapLookup (m : List (List Nat × JSONValue)) (key : List Nat) : Option JSONValue :=
  match m with
  | [] => none
  | (k, v) :: rest => if k = key then some v else mapLookup rest key

/-- The struct `JSONError`. -/
structure JSONError where
  Message : String
  Line : Nat
  Column : Nat
  deriving DecidableEq, Repr

/-- The method `(*JSONError).Error`. -/
def JSONError.Error (e : JSONError) : String :=
  "JSON parsing error at line " ++ Nat.repr e.Line ++ ", column " ++ Nat.repr e.Column ++ ": "
    ++ e.Message

/-- The struct `JSONParser`. -/
structure JSONParser where
  input : List Nat
  pos : Nat
  line : Nat
  col : Nat
  deriving DecidableEq, Repr

/-- Result of a grammar rule: the value with the cursor after it, the error,
or an exhausted step budget. -/
inductive Result (α : Type) where
  | ok (a : α) (p : JSONParser)
  | error (e : JSONError)
  | outOfFuel

/-- Result of `ParseJSON`: `(result, nil)`, `(nil, err)`, or an exhausted step
budget. -/
inductive Outcome where
  | value (v : JSONValue)
  | failure (e : JSONError)
  | outOfFuel

/-! ## The cursor -/

/-- The constructor `NewJSONParser`. -/
def NewJSONParser (input : List Nat) : JSONParser :=
  { input := input, pos := 0, line := 1, col := 1 }

/-- The method `peek`. -/
def peek (p : JSONParser) : Nat :=
  if p.pos ≥ p.input.length then 0
  else (decodeRuneInString (p.input.drop p.pos)).1

/-- The method `advance`: the rune read and the cursor after it. -/
def advance (p : JSONParser) : Nat × JSONParser :=
  if p.pos ≥ p.input.length then (0, p)
  else
    let d := decodeRuneInString (p.input.drop p.pos)
    if d.1 = 0x0A then (d.1, { p with pos := p.pos + d.2, line := p.line + 1, col := 1 })
    else (d.1, { p with pos := p.pos + d.2, col := p.col + 1 })

/-- The whitespace test of `skipWhitespace`. -/
def isSpace (r : Nat) : Bool :=
  r = 0x20 || r = 0x09 || r = 0x0A || r = 0x0D

/-- The loop of `skipWhitespace`. -/
def skipWhitespaceLoop : Nat → JSONParser → JSONParser
  | 0, p => p
  | fuel + 1, p => if isSpace (peek p) then skipWhitespaceLoop fuel (advance p).2 else p

/-- The method `skipWhitespace`; every turn of the loop consumes a byte, so
`len(input)` turns are enough. -/
def skipWhitespace (p : JSONParser) : JSONParser :=
  skipWhitespaceLoop p.input.length p

/-- The method `newError`. -/
def newError (p : JSONParser) (msg : String) : JSONError :=
  { Message := msg, Line := p.line, Column := p.col }

/-! ## The grammar rules -/

/-- Carry a result through a conversion of its value (the implicit conversion
to `interface{}` in `return p.parseObject()` and its siblings). -/
def Result.map {α β : Type} (f : α → β) : Result α → Result β
  | .ok a p => .ok (f a) p
  | .error e => .error e
  | .outOfFuel => .outOfFuel

/-- The slice expression `s[i:j]`. -/
def slice (s : List Nat) (i j : Nat) : List Nat :=
  (s.drop i).take (j - i)

/-- The loop of `parseString`; `result` is the rune slice built so far. -/
def parseStringLoop : Nat → JSONParser → List Nat → Result (List Nat)
  | 0, _, _ => .outOfFuel
  | fuel + 1, p, result =>
    if p.pos ≥ p.input.length then .error (newError p "cadena no terminada")
    else
      let r := (advance p).1
      let p1 := (advance p).2
      if r = 0x22 then .ok (encodeRunes result) p1
      else if r = 0x5C then
        let esc := (advance p1).1
        let p2 := (advance p1).2
        if esc = 0x22 then parseStringLoop fuel p2 (result ++ [0x22])
        else if esc = 0x5C then parseStringLoop fuel p2 (result ++ [0x5C])
        else if esc = 0x2F then parseStringLoop fuel p2 (result ++ [0x2F])
        else if esc = 0x62 then parseStringLoop fuel p2 (result ++ [0x08])
        else if esc = 0x66 then parseStringLoop fuel p2 (result ++ [0x0C])
        else if esc = 0x6E then parseStringLoop fuel p2 (result ++ [0x0A])
        else if esc = 0x72 then parseStringLoop fuel p2 (result ++ [0x0D])
        else if esc = 0x74 then parseStringLoop fuel p2 (result ++ [0x09])
        else .error (newError p2 "escape inválido en string")
      else parseStringLoop fuel p1 (result ++ [r])

/-- The method `parseString`; every turn of the loop consumes a byte or
returns, so `len(input) + 1` turns are enough. -/
def parseString (p : JSONParser) : Result (List Nat) :=
  parseStringLoop (p.input.length + 1) (advance p).2 []

/-- The loops `for unicode.IsDigit(p.peek())` with body `p.advance()` of
`parseNumber`. -/
def digitsLoop : Nat → JSONParser → JSONParser
  | 0, p => p
  | fuel + 1, p => if unicodeIsDigit (peek p) then digitsLoop fuel (advance p).2 else p

/-- The end of `parseNumber`: conversion of the scanned text and the check of
integral literals against their `%.0f` rendering. -/
def numberFinish (start : Nat) (hasDot hasExp : Bool) (p : JSONParser) : Result Float64 :=
  let numStr := slice p.input start p.pos
  match strconvParseFloat numStr with
  | none => .error (newError p "número inválido")
  | some num =>
    if !hasDot && !hasExp && numStr != formatF0 num then .error (newError p "número inválido")
    else .ok num p

/-- The exponent block of `parseNumber`. -/
def numberExponent (start : Nat) (hasDot : Bool) (p : JSONParser) : Result Float64 :=
  if peek p = 0x65 ∨ peek p = 0x45 then
    let p1 := (advance p).2
    let p2 := if peek p1 = 0x2B ∨ peek p1 = 0x2D then (advance p1).2 else p1
    if !unicodeIsDigit (peek p2) then
      .error (newError p2 "se esperaba dígito después del exponente")
    else numberFinish start hasDot true (digitsLoop p2.input.length p2)
  else numberFinish start hasDot false p

/-- The fraction block of `parseNumber`. -/
def numberFraction (start : Nat) (p : JSONParser) : Result Float64 :=
  if peek p = 0x2E then
    let p1 := (advance p).2
    if !unicodeIsDigit (peek p1) then
      .error (newError p1 "se esperaba dígito después del punto decimal")
    else numberExponent start true (digitsLoop p1.input.length p1)
  else numberExponent start false p

/-- The method `parseNumber`. -/
def parseNumber (p : JSONParser) : Result Float64 :=
  let start := p.pos
  let p1 := if peek p = 0x2D then (advance p).2 else p
  if peek p1 = 0x30 then
    let p2 := (advance p1).2
    if unicodeIsDigit (peek p2) then .error (newError p2 "número inválido con cero inicial")
    else numberFraction start p2
  else if unicodeIsDigit (peek p1) then
    numberFraction start (digitsLoop p1.input.length p1)
  else .error (newError p1 "número mal formado")

/-- The method `parseBoolean`. -/
def parseBoolean (p : JSONParser) : Result Bool :=
  if p.pos + 4 ≤ p.input.length ∧ slice p.input p.pos (p.pos + 4) = [0x74, 0x72, 0x75, 0x65] then
    .ok true { p with pos := p.pos + 4, col := p.col + 4 }
  else if p.pos + 5 ≤ p.input.length
      ∧ slice p.input p.pos (p.pos + 5) = [0x66, 0x61, 0x6C, 0x73, 0x65] then
    .ok false { p with pos := p.pos + 5, col := p.col + 5 }
  else .error (newError p "booleano inválido")

/-- The method `parseNull`. -/
def parseNull (p : JSONParser) : Result JSONValue :=
  if p.pos + 4 ≤ p.input.length ∧ slice p.input p.pos (p.pos + 4) = [0x6E, 0x75, 0x6C, 0x6C] then
    .ok .null { p with pos := p.pos + 4, col := p.col + 4 }
  else .error (newError p "se esperaba \x27null\x27")

/-- The loop of `parseObject`, with the method `parse` as the parameter `pv`. -/
def parseObjectLoop (pv : JSONParser → Result JSONValue) :
    Nat → JSONParser → List (List Nat × JSONValue) → Result (List (List Nat × JSONValue))
  | 0, _, _ => .outOfFuel
  | fuel + 1, p, obj =>
    let p1 := skipWhitespace p
    if peek p1 ≠ 0x22 then .error (newError p1 "se esperaba una clave string")
    else
      match parseString p1 with
      | .outOfFuel => .outOfFuel
      | .error e => .error e
      | .ok key p2 =>
        let p3 := skipWhitespace p2
        if peek p3 ≠ 0x3A then .error (newError p3 "se esperaba \x27:\x27 después de la clave")
        else
          let p4 := skipWhitespace (advance p3).2
          match pv p4 with
          | .outOfFuel => .outOfFuel
          | .error e => .error e
          | .ok value p5 =>
            let p6 := skipWhitespace p5
            if peek p6 = 0x7D then .ok (mapInsert obj key value) (advance p6).2
            else if peek p6 ≠ 0x2C then
              .error (newError p6 "se esperaba \x27,\x27 entre pares clave-valor")
            else parseObjectLoop pv fuel (advance p6).2 (mapInsert obj key value)

/-- The method `parseObject`. -/
def parseObject (pv : JSONParser → Result JSONValue) (fuel : Nat) (p : JSONParser) :
    Result (List (List Nat × JSONValue)) :=
  let p1 := skipWhitespace (advance p).2
  if peek p1 = 0x7D then .ok [] (advance p1).2
  else parseObjectLoop pv fuel p1 []

/-- The loop of `parseArray`, with the method `parse` as the parameter `pv`. -/
def parseArrayLoop (pv : JSONParser → Result JSONValue) :
    Nat → JSONParser → List JSONValue → Result (List JSONValue)
  | 0, _, _ => .outOfFuel
  | fuel + 1, p, arr =>
    let p1 := skipWhitespace p
    match pv p1 with
    | .outOfFuel => .outOfFuel
    | .error e => .error e
    | .ok val p2 =>
      let p3 := skipWhitespace p2
      if peek p3 = 0x5D then .ok (arr ++ [val]) (advance p3).2
      else if peek p3 ≠ 0x2C then
        .error (newError p3 "se esperaba \x27,\x27 entre elementos del arreglo")
      else parseArrayLoop pv fuel (advance p3).2 (arr ++ [val])

/-- The method `parseArray`. -/
def parseArray (pv : JSONParser → Result JSONValue) (fuel : Nat) (p : JSONParser) :
    Result (List JSONValue) :=
  let p1 := skipWhitespace (advance p).2
  if peek p1 = 0x5D then .ok [] (advance p1).2
  else parseArrayLoop pv fuel p1 []

/-- The text `fmt.Sprintf("carácter inesperado \x27%c\x27", r)`. -/
def unexpectedMessage (r : Nat) : String :=
  "carácter inesperado \x27" ++ String.singleton (Char.ofNat r) ++ "\x27"

/-- The method `parse`; `fuel` bounds the nesting depth and the number of
members of a container. -/
def parse : Nat → JSONParser → Result JSONValue
  | 0, _ => .outOfFuel
  | fuel + 1, p =>
    let p1 := skipWhitespace p
    if p1.pos ≥ p1.input.length then
      .error (newError p1 "entrada vacía o solo espacios en blanco")
    else
      let r := peek p1
      if r = 0x7B then (parseObject (parse fuel) fuel p1).map JSONValue.object
      else if r = 0x5B then (parseArray (parse fuel) fuel p1).map JSONValue.array
      else if r = 0x22 then (parseString p1).map JSONValue.string
      else if r = 0x74 ∨ r = 0x66 then (parseBoolean p1).map JSONValue.bool
      else if r = 0x6E then parseNull p1
      else if r = 0x2D ∨ unicodeIsDigit r then (parseNumber p1).map JSONValue.number
      else .error (newError p1 (unexpectedMessage r))

/-- The function `ParseJSON`.  A value consumes at least one byte before a
nested `parse` is called and every member consumes a byte, so
`len(input) + 1` is enough fuel. -/
def ParseJSON (input : List Nat) : Outcome :=
  match parse (input.length + 1) (NewJSONParser input) with
  | .outOfFuel => .outOfFuel
  | .error e => .failure e
  | .ok result parser =>
    let parser1 := skipWhitespace parser
    if parser1.pos < parser1.input.length then
      .failure (newError parser1 "caracter inesperado después del valor JSON")
    else .value result

/-! ## Positions -/

/-- The scan behind `lineColAt`: count line feeds and scalar characters. -/
def lineColLoop (input : List Nat) (k : Nat) : Nat → Nat → Nat → Nat → Nat × Nat
  | 0, _, line, col => (line, col)
  | fuel + 1, pos, line, col =>
    if pos < k ∧ pos < input.length then
      let d := decodeRuneInString (input.drop pos)
      if d.1 = 0x0A then lineColLoop input k fuel (pos + d.2) (line + 1) 1
      else lineColLoop input k fuel (pos + d.2) line (col + 1)
    else (line, col)

/-- The 1-based line and column of the character at byte offset `k` of
`input` (of the end of input when `k = len(input)`): the line is one more than
the number of line feeds before `k`, the column one more than the number of
scalar characters after the last of them. -/
def lineColAt (input : List Nat) (k : Nat) : Nat × Nat :=
  lineColLoop input k k 0 1 1

/-! ## Vocabulary of the proofs -/

/-- The unread part of the input. -/
def rest (p : JSONParser) : List Nat := p.input.drop p.pos

/-- The cursor `q` is reached from `p` by calls of `advance`. -/
inductive Reach : JSONParser → JSONParser → Prop where
  | refl (p : JSONParser) : Reach p p
  | head (p q : JSONParser) : p.pos < p.input.length → Reach (advance p).2 q → Reach p q

/-- The lookahead at byte offset `k` of `input`. -/
def peekAt (input : List Nat) (k : Nat) : Nat := peek ⟨input, k, 1, 1⟩

/-- The lookahead characters on which `parse` dispatches to a grammar rule. -/
def isValueStart (c : Nat) : Bool :=
  c = 0x7B || c = 0x5B || c = 0x22 || c = 0x74 || c = 0x66 || c = 0x6E || c = 0x2D
    || unicodeIsDigit c

/-- The loop of `parseString` with the step budget of `parseString`. -/
def strBody (p : JSONParser) (result : List Nat) : Result (List Nat) :=
  parseStringLoop (p.input.length + 1) p result

/-- The escape table of `parseString`: the character after the backslash and
the character it stands for. -/
def escapeTable : List (Nat × Nat) :=
  [(0x22, 0x22), (0x5C, 0x5C), (0x2F, 0x2F), (0x62, 0x08), (0x66, 0x0C), (0x6E, 0x0A),
   (0x72, 0x0D), (0x74, 0x09)]

/-- An item of the body of a string literal: a plain character or a
two-character escape `\e` standing for the character `d`. -/
inductive StrItem where
  | plain (c : Char)
  | escape (e d : Nat)

/-- A plain item is neither the quote nor the backslash; an escape is in the
escape table. -/
def StrItem.wellFormed : StrItem → Prop
  | .plain c => c.toNat ≠ 0x22 ∧ c.toNat ≠ 0x5C
  | .escape e d => (e, d) ∈ escapeTable

instance (i : StrItem) : Decidable i.wellFormed := by
  cases i <;> simp only [StrItem.wellFormed] <;> infer_instance

/-- The source text of an item. -/
def StrItem.text : StrItem → List Nat
  | .plain c => encodeRune c.toNat
  | .escape e _ => [0x5C, e]

/-- The character an item stands for. -/
def StrItem.char : StrItem → Nat
  | .plain c => c.toNat
  | .escape _ d => d

/-- The source text of a sequence of items. -/
def itemsText (items : List StrItem) : List Nat :=
  items.flatMap StrItem.text

/-- The characters that may follow a backslash in a string literal. -/
def isEscapeChar (c : Nat) : Bool :=
  c = 0x22 || c = 0x5C || c = 0x2F || c = 0x62 || c = 0x66 || c = 0x6E || c = 0x72 || c = 0x74

/-- The lookahead on the unread input `r`. -/
def peekOf (r : List Nat) : Nat :=
  if r = [] then 0 else (decodeRuneInString r).1

/-- The loops `skipWhitespace` and `digitsLoop` in one form: advance while
the lookahead satisfies `c`. -/
def advWhile (c : Nat → Bool) : Nat → JSONParser → JSONParser
  | 0, p => p
  | fuel + 1, p => if c (peek p) then advWhile c fuel (advance p).2 else p

/-- The loop `advWhile` with the step budget `len(input)`. -/
def advRun (c : Nat → Bool) (p : JSONParser) : JSONParser :=
  advWhile c p.input.length p

/-- The cursor `q` is reached from `p` by reading exactly the text `w`. -/
def Span (p q : JSONParser) (w : List Nat) : Prop :=
  Reach p q ∧ q.pos = p.pos + w.length ∧ rest p = w ++ rest q

/-- A text of whitespace bytes. -/
def Spaces (ws : List Nat) : Prop :=
  ∀ b ∈ ws, isSpace b = true

/-- A text of ASCII digits. -/
def DigitText (ds : List Nat) : Prop :=
  ∀ b ∈ ds, isAsciiDigit b = true

/-- The integer part of a JSON number: a single `0`, or digits not starting
with `0`. -/
def IntPart (ip : List Nat) : Prop :=
  ip = [0x30] ∨ (ip ≠ [] ∧ ip.head? ≠ some 0x30 ∧ DigitText ip)

/-- The optional fraction of a JSON number. -/
def FracPart (fr : List Nat) : Prop :=
  fr = [] ∨ ∃ ds, fr = 0x2E :: ds ∧ ds ≠ [] ∧ DigitText ds

/-- The optional exponent of a JSON number. -/
def ExpPart (ex : List Nat) : Prop :=
  ex = [] ∨ ∃ e sg ds, ex = e :: (sg ++ ds) ∧ (e = 0x65 ∨ e = 0x45)
    ∧ (sg = [] ∨ sg = [0x2B] ∨ sg = [0x2D]) ∧ ds ≠ [] ∧ DigitText ds

/-- The JSON number grammar over ASCII characters. -/
def NumGrammar (w : List Nat) : Prop :=
  ∃ sg ip fr ex, w = sg ++ ip ++ fr ++ ex ∧ (sg = [] ∨ sg = [0x2D]) ∧ IntPart ip ∧ FracPart fr
    ∧ ExpPart ex

/-- A number literal accepted by `parseNumber`, with its value: the text
follows the number grammar, converts without error, and, when it has neither
fraction nor exponent, is its own `%.0f` rendering. -/
def NumLit (w : List Nat) (f : Float64) : Prop :=
  ∃ sg ip fr ex, w = sg ++ ip ++ fr ++ ex ∧ (sg = [] ∨ sg = [0x2D]) ∧ IntPart ip ∧ FracPart fr
    ∧ ExpPart ex ∧ strconvParseFloat w = some f ∧ (fr = [] → ex = [] → w = formatF0 f)

/-- The body of a string literal (the text between the quotes) and the runes
it denotes; a character is decoded in front of the closing quote. -/
inductive StrScan : List Nat → List Nat → Prop where
  | nil : StrScan [] []
  | plain (body rs : List Nat) : body ≠ [] →
      (decodeRuneInString (body ++ [0x22])).1 ≠ 0x22 →
      (decodeRuneInString (body ++ [0x22])).1 ≠ 0x5C →
      (decodeRuneInString (body ++ [0x22])).2 ≤ body.length →
      StrScan (body.drop (decodeRuneInString (body ++ [0x22])).2) rs →
      StrScan body ((decodeRuneInString (body ++ [0x22])).1 :: rs)
  | escape (e d : Nat) (body rs : List Nat) : (e, d) ∈ escapeTable → StrScan body rs →
      StrScan (0x5C :: e :: body) (d :: rs)

/-- A string literal accepted by `parseString`, with its value. -/
def StrLit (w : List Nat) (s : List Nat) : Prop :=
  ∃ body rs, w = 0x22 :: (body ++ [0x22]) ∧ StrScan body rs ∧ s = encodeRunes rs

/-- The text of the elements of a non-empty array (between the brackets),
over the value grammar `V`. -/
inductive Elems (V : List Nat → JSONValue → Prop) : List Nat → List JSONValue → Prop where
  | last (ws1 e ws2 : List Nat) (x : JSONValue) : Spaces ws1 → V e x → Spaces ws2 →
      Elems V (ws1 ++ e ++ ws2) [x]
  | cons (ws1 e ws2 more : List Nat) (x : JSONValue) (xs : List JSONValue) : Spaces ws1 →
      V e x → Spaces ws2 → Elems V more xs →
      Elems V (ws1 ++ e ++ ws2 ++ 0x2C :: more) (x :: xs)

/-- The text of the members of a non-empty object (between the braces), over
the value grammar `V`, with the key and value of each member in source
order. -/
inductive Members (V : List Nat → JSONValue → Prop) :
    List Nat → List (List Nat × JSONValue) → Prop where
  | last (ws1 k ws2 ws3 e ws4 : List Nat) (key : List Nat) (x : JSONValue) : Spaces ws1 →
      StrLit k key → Spaces ws2 → Spaces ws3 → V e x → Spaces ws4 →
      Members V (ws1 ++ k ++ ws2 ++ 0x3A :: (ws3 ++ e ++ ws4)) [(key, x)]
  | cons (ws1 k ws2 ws3 e ws4 more : List Nat) (key : List Nat) (x : JSONValue)
      (kvs : List (List Nat × JSONValue)) : Spaces ws1 → StrLit k key → Spaces ws2 →
      Spaces ws3 → V e x → Spaces ws4 → Members V more kvs →
      Members V (ws1 ++ k ++ ws2 ++ 0x3A :: (ws3 ++ e ++ ws4 ++ 0x2C :: more)) ((key, x) :: kvs)

/-- The map built by assigning the members in order, starting from `m`. -/
def insertAll (m : List (List Nat × JSONValue)) (kvs : List (List Nat × JSONValue)) :
    List (List Nat × JSONValue) :=
  kvs.foldl (fun acc kv => mapInsert acc kv.1 kv.2) m

/-- The value grammar of the parser, by nesting depth: `ValN n w v` says that
the text `w` (without surrounding whitespace) is a JSON value of nesting depth
at most `n` denoting `v`. -/
def ValN : Nat → List Nat → JSONValue → Prop
  | 0, _, _ => False
  | n + 1, w, v =>
    (w = [0x6E, 0x75, 0x6C, 0x6C] ∧ v = .null)
    ∨ (w = [0x74, 0x72, 0x75, 0x65] ∧ v = .bool true)
    ∨ (w = [0x66, 0x61, 0x6C, 0x73, 0x65] ∧ v = .bool false)
    ∨ (∃ f, NumLit w f ∧ v = .number f)
    ∨ (∃ s, StrLit w s ∧ v = .string s)
    ∨ (∃ ws, Spaces ws ∧ w = 0x5B :: (ws ++ [0x5D]) ∧ v = .array [])
    ∨ (∃ body xs, Elems (ValN n) body xs ∧ w = 0x5B :: (body ++ [0x5D]) ∧ v = .array xs)
    ∨ (∃ ws, Spaces ws ∧ w = 0x7B :: (ws ++ [0x7D]) ∧ v = .object [])
    ∨ (∃ body kvs, Members (ValN n) body kvs ∧ w = 0x7B :: (body ++ [0x7D])
        ∧ v = .object (insertAll [] kvs))

/-- The value is a `float64`. -/
def JSONValue.isNumber : JSONValue → Bool
  | .number _ => true
  | _ => false

/-- A lookahead that ends a number literal: no digit, `.`, `e` or `E`. -/
def isNumberStop (r : Nat) : Bool :=
  !unicodeIsDigit r && r != 0x2E && r != 0x65 && r != 0x45

/-- The condition on the text `y` that follows a value `v`: after a number the
next character must end the literal. -/
def Look (v : JSONValue) (y : List Nat) : Prop :=
  v.isNumber = true → isNumberStop (peekOf y) = true

/-- The rest of a turn of the loop of `parseArray` once the element is read
and the whitespace after it skipped. -/
def arrayTail (pv : JSONParser → Result JSONValue) (fuel : Nat) (p : JSONParser)
    (arr : List JSONValue) : Result (List JSONValue) :=
  if peek p = 0x5D then .ok arr (advance p).2
  else if peek p ≠ 0x2C then
    .error (newError p "se esperaba \x27,\x27 entre elementos del arreglo")
  else parseArrayLoop pv fuel (advance p).2 arr

/-- The rest of a turn of the loop of `parseObject` once the member is read
and the whitespace after it skipped. -/
def objectTail (pv : JSONParser → Result JSONValue) (fuel : Nat) (p : JSONParser)
    (obj : List (List Nat × JSONValue)) : Result (List (List Nat × JSONValue)) :=
  if peek p = 0x7D then .ok obj (advance p).2
  else if peek p ≠ 0x2C then
    .error (newError p "se esperaba \x27,\x27 entre pares clave-valor")
  else parseObjectLoop pv fuel (advance p).2 obj

/-- The escape table of `parseString` as a function of the character after the
backslash. -/
def unescape (e : Nat) : Option Nat :=
  if e = 0x22 then some 0x22
  else if e = 0x5C then some 0x5C
  else if e = 0x2F then some 0x2F
  else if e = 0x62 then some 0x08
  else if e = 0x66 then some 0x0C
  else if e = 0x6E then some 0x0A
  else if e = 0x72 then some 0x0D
  else if e = 0x74 then some 0x09
  else none

/-- All bytes of the text are ASCII. -/
def AllAscii (l : List Nat) : Prop :=
  ∀ b ∈ l, b < 0x80

/-- A non-empty text read by a digit loop: once known to be ASCII it is a text
of ASCII digits. -/
def PreDigits (ds : List Nat) : Prop :=
  ds ≠ [] ∧ (AllAscii ds → DigitText ds)

/-- The fraction read by `parseNumber`, before its digits are known to be
ASCII. -/
def PreFrac (fr : List Nat) : Prop :=
  fr = [] ∨ ∃ ds, fr = 0x2E :: ds ∧ PreDigits ds

/-- The exponent read by `parseNumber`, before its digits are known to be
ASCII. -/
def PreExp (ex : List Nat) : Prop :=
  ex = [] ∨ ∃ e sg ds, ex = e :: (sg ++ ds) ∧ (e = 0x65 ∨ e = 0x45)
    ∧ (sg = [] ∨ sg = [0x2B] ∨ sg = [0x2D]) ∧ PreDigits ds

/-- The texts `v_1`, ..., `v_n` joined by commas. -/
def commaSep : List (List Nat) → List Nat
  | [] => []
  | v :: vs =>
    match vs with
    | [] => v
    | _ :: _ => v ++ 0x2C :: commaSep vs

/-- The text `k ++ ":" ++ v` of a member with key text `k` and value text `v`. -/
def memberText (kv : List Nat × List Nat) : List Nat :=
  kv.1 ++ 0x3A :: kv.2

/-- The value of the last pair of `kvs` that carries the key `key`. -/
def lastValue (kvs : List (List Nat × JSONValue)) (key : List Nat) : Option JSONValue :=
  (kvs.reverse.find? (fun kv => kv.1 = key)).map (fun kv => kv.2)

/-- The value is an array or an object. -/
def JSONValue.isContainer : JSONValue → Bool
  | .array _ => true
  | .object _ => true
  | _ => false

/-- What a grammar rule started at the cursor `p` returns within its step
budget: a value with a cursor reached from `p`, or an error that carries the
line and column of a cursor reached from `p`. -/
def Landed {α : Type} (p : JSONParser) : Result α → Prop
  | .ok _ p' => Reach p p'
  | .error e => ∃ q, Reach p q ∧ e.Line = q.line ∧ e.Column = q.col
  | .outOfFuel => False

/-- The 1-based line after the characters `pre`: one more than the number of
line feeds among them. -/
def lineOf (pre : List Char) : Nat :=
  1 + pre.count (Char.ofNat 0x0A)

/-- The 1-based column after the characters `pre`: one more than the number
of characters after the last line feed. -/
def colOf (pre : List Char) : Nat :=
  1 + (pre.reverse.takeWhile (fun c => c != Char.ofNat 0x0A)).length

/-- The text without its trailing whitespace. -/
def trimRight (s : List Nat) : List Nat :=
  (s.reverse.dropWhile isSpace).reverse

/-- The decimal rendering of `n` as a string: the digits `decimal n`. -/
def decimalText (n : Nat) : String :=
  String.mk ((decimal n).map Char.ofNat)

/-! ## UTF-8 decoding -/

theorem decode_nil : decodeRuneInString [] = (RuneError, 0) := rfl

theorem decode_cases (b : Nat) (t : List Nat) :
    (b < 0x80 ∧ decodeRuneInString (b :: t) = (b, 1))
    ∨ (0x80 ≤ b ∧ decodeRuneInString (b :: t) = (RuneError, 1))
    ∨ (0x80 ≤ b ∧ ∃ s1 t1 r, t = s1 :: t1 ∧ 0x80 ≤ s1 ∧ 0x80 ≤ r
        ∧ decodeRuneInString (b :: t) = (r, 2))
    ∨ (0x80 ≤ b ∧ ∃ s1 s2 t1 r, t = s1 :: s2 :: t1 ∧ 0x80 ≤ s1 ∧ 0x80 ≤ s2 ∧ 0x80 ≤ r
        ∧ decodeRuneInString (b :: t) = (r, 3))
    ∨ (0x80 ≤ b ∧ ∃ s1 s2 s3 t1 r, t = s1 :: s2 :: s3 :: t1 ∧ 0x80 ≤ s1 ∧ 0x80 ≤ s2
        ∧ 0x80 ≤ s3 ∧ 0x80 ≤ r ∧ decodeRuneInString (b :: t) = (r, 4)) := by
  by_cases h1 : b < 0x80
  · left; simp [decodeRuneInString, h1]
  by_cases h2 : b < 0xC2
  · right; left; simp [decodeRuneInString, h1, h2]; omega
  by_cases h3 : b < 0xE0
  · rcases t with _ | ⟨s1, t1⟩
    · right; left; simp [decodeRuneInString, h1, h2, h3]; omega
    · by_cases h4 : s1 < 0x80 ∨ 0xBF < s1
      · right; left; simp [decodeRuneInString, h1, h2, h3, h4]; omega
      · right; right; left
        refine ⟨by omega, s1, t1, b % 32 * 64 + s1 % 64, rfl, by omega, ?_,
          by simp [decodeRuneInString, h1, h2, h3, h4]⟩
        omega
  by_cases h5 : b < 0xF0
  · rcases t with _ | ⟨s1, _ | ⟨s2, t1⟩⟩
    · right; left; simp [decodeRuneInString, h1, h2, h3, h5]; omega
    · right; left; simp [decodeRuneInString, h1, h2, h3, h5]; omega
    · by_cases h4 : s1 < (if b = 0xE0 then 0xA0 else 0x80) ∨ (if b = 0xED then 0x9F else 0xBF) < s1
      · right; left; simp [decodeRuneInString, h1, h2, h3, h5, h4]; omega
      by_cases h6 : s2 < 0x80 ∨ 0xBF < s2
      · right; left; simp [decodeRuneInString, h1, h2, h3, h5, h4, h6]; omega
      · right; right; right; left
        refine ⟨by omega, s1, s2, t1, b % 16 * 4096 + s1 % 64 * 64 + s2 % 64, rfl, ?_, by omega, ?_,
          by simp [decodeRuneInString, h1, h2, h3, h5, h4, h6]⟩
        · split_ifs at h4 <;> omega
        · split_ifs at h4 <;> omega
  by_cases h7 : b < 0xF5
  · rcases t with _ | ⟨s1, _ | ⟨s2, _ | ⟨s3, t1⟩⟩⟩
    · right; left; simp [decodeRuneInString, h1, h2, h3, h5, h7]; omega
    · right; left; simp [decodeRuneInString, h1, h2, h3, h5, h7]; omega
    · right; left; simp [decodeRuneInString, h1, h2, h3, h5, h7]; omega
    · by_cases h4 : s1 < (if b = 0xF0 then 0x90 else 0x80) ∨ (if b = 0xF4 then 0x8F else 0xBF) < s1
      · right; left; simp [decodeRuneInString, h1, h2, h3, h5, h7, h4]; omega
      by_cases h6 : s2 < 0x80 ∨ 0xBF < s2
      · right; left; simp [decodeRuneInString, h1, h2, h3, h5, h7, h4, h6]; omega
      by_cases h8 : s3 < 0x80 ∨ 0xBF < s3
      · right; left; simp [decodeRuneInString, h1, h2, h3, h5, h7, h4, h6, h8]; omega
      · right; right; right; right
        refine ⟨by omega, s1, s2, s3, t1,
          b % 8 * 262144 + s1 % 64 * 4096 + s2 % 64 * 64 + s3 % 64, rfl, ?_, by omega, by omega, ?_,
          by simp [decodeRuneInString, h1, h2, h3, h5, h7, h4, h6, h8]⟩
        · split_ifs at h4 <;> omega
        · split_ifs at h4 <;> omega
  · right; left; simp [decodeRuneInString, h1, h2, h3, h5, h7]; omega

theorem decode_ascii (b : Nat) (t : List Nat) (h : b < 0x80) :
    decodeRuneInString (b :: t) = (b, 1) := by
  simp [decodeRuneInString, h]

theorem decode_size_pos (b : Nat) (t : List Nat) : 1 ≤ (decodeRuneInString (b :: t)).2 := by
  rcases decode_cases b t with h | h | ⟨_, _, _, _, _, _, _, h⟩ | ⟨_, _, _, _, _, _, _, _, _, h⟩
    | ⟨_, _, _, _, _, _, _, _, _, _, _, h⟩ <;> simp [h]

theorem decode_size_le (s : List Nat) : (decodeRuneInString s).2 ≤ s.length := by
  rcases s with _ | ⟨b, t⟩
  · simp [decodeRuneInString]
  rcases decode_cases b t with h | h | ⟨_, _, _, _, ht, _, _, h⟩ | ⟨_, _, _, _, _, ht, _, _, _, h⟩
    | ⟨_, _, _, _, _, _, ht, _, _, _, _, h⟩ <;> simp [h] <;> subst ht <;> simp

theorem decode_high (b : Nat) (t : List Nat) (h : 0x80 ≤ b) :
    0x80 ≤ (decodeRuneInString (b :: t)).1 := by
  rcases decode_cases b t with h | h | ⟨_, _, _, _, _, _, _, h⟩ | ⟨_, _, _, _, _, _, _, _, _, h⟩
    | ⟨_, _, _, _, _, _, _, _, _, _, _, h⟩ <;> simp [h, RuneError] <;> omega


theorem decode_append_ascii (u : List Nat) (a : Nat) (t : List Nat) (h : a < 0x80) :
    decodeRuneInString (u ++ a :: t) = decodeRuneInString (u ++ [a]) := by
  have ha1 : ¬ (0x80 ≤ a) := by omega
  rcases u with _ | ⟨s0, u⟩
  · simp [decodeRuneInString, h]
  by_cases h1 : s0 < 0x80
  · simp [decodeRuneInString, h1]
  by_cases h2 : s0 < 0xC2
  · simp [decodeRuneInString, h1, h2]
  by_cases h3 : s0 < 0xE0
  · rcases u with _ | ⟨s1, u⟩ <;> simp [decodeRuneInString, h1, h2, h3]
  by_cases h5 : s0 < 0xF0
  · rcases u with _ | ⟨s1, _ | ⟨s2, u⟩⟩
    · rcases t with _ | ⟨t0, t⟩
      · simp [decodeRuneInString, h1, h2, h3, h5]
      · have : a < (if s0 = 0xE0 then 0xA0 else 0x80) := by split_ifs <;> omega
        simp [decodeRuneInString, h1, h2, h3, h5, this]
    · simp [decodeRuneInString, h1, h2, h3, h5]
    · simp [decodeRuneInString, h1, h2, h3, h5]
  by_cases h7 : s0 < 0xF5
  · rcases u with _ | ⟨s1, _ | ⟨s2, _ | ⟨s3, u⟩⟩⟩
    · rcases t with _ | ⟨t0, _ | ⟨t1, t⟩⟩
      · simp [decodeRuneInString, h1, h2, h3, h5, h7]
      · simp [decodeRuneInString, h1, h2, h3, h5, h7]
      · have : a < (if s0 = 0xF0 then 0x90 else 0x80) := by split_ifs <;> omega
        simp [decodeRuneInString, h1, h2, h3, h5, h7, this]
    · rcases t with _ | ⟨t0, t⟩
      · simp [decodeRuneInString, h1, h2, h3, h5, h7]
      · simp [decodeRuneInString, h1, h2, h3, h5, h7, h]
    · simp [decodeRuneInString, h1, h2, h3, h5, h7]
    · simp [decodeRuneInString, h1, h2, h3, h5, h7]
  · simp [decodeRuneInString, h1, h2, h3, h5, h7]

/-- Two texts with a common beginning that ends in an ASCII byte decode alike. -/
theorem decode_agree (w x y : List Nat) (hw : w ≠ []) (hl : ∀ a ∈ w.getLast?, a < 0x80) :
    decodeRuneInString (w ++ x) = decodeRuneInString (w ++ y) := by
  obtain ⟨u, a, rfl⟩ : ∃ u a, w = u ++ [a] := ⟨w.dropLast, w.getLast hw, (List.dropLast_append_getLast hw).symm⟩
  have ha : a < 0x80 := hl a (by simp)
  simp only [List.append_assoc, List.singleton_append]
  rw [decode_append_ascii u a x ha, decode_append_ascii u a y ha]


/-! ## The cursor -/

theorem rest_eq_nil_iff (p : JSONParser) : rest p = [] ↔ p.input.length ≤ p.pos := by
  simp [rest]

theorem rest_cons_of_lt (p : JSONParser) (h : p.pos < p.input.length) :
    rest p = p.input[p.pos] :: p.input.drop (p.pos + 1) := by
  simp [rest]

theorem peek_eq (p : JSONParser) :
    peek p = if p.input.length ≤ p.pos then 0 else (decodeRuneInString (rest p)).1 := by
  simp [peek, rest]

theorem advance_input (p : JSONParser) : (advance p).2.input = p.input := by
  simp only [advance]; split_ifs <;> rfl

theorem advance_fst (p : JSONParser) : (advance p).1 = peek p := by
  simp only [advance, peek]; split_ifs <;> rfl

theorem advance_eof (p : JSONParser) (h : p.input.length ≤ p.pos) : advance p = (0, p) := by
  simp [advance, h]

theorem peek_eof (p : JSONParser) (h : p.input.length ≤ p.pos) : peek p = 0 := by
  simp [peek, h]

theorem advance_pos (p : JSONParser) (h : p.pos < p.input.length) :
    (advance p).2.pos = p.pos + (decodeRuneInString (rest p)).2 := by
  have : ¬ p.pos ≥ p.input.length := by omega
  simp only [advance, rest, this, if_false]; split_ifs <;> rfl

theorem advance_pos_lt (p : JSONParser) (h : p.pos < p.input.length) :
    p.pos < (advance p).2.pos := by
  rw [advance_pos p h, rest_cons_of_lt p h]
  have := decode_size_pos p.input[p.pos] (p.input.drop (p.pos + 1))
  omega

theorem advance_pos_le_len (p : JSONParser) (h : p.pos ≤ p.input.length) :
    (advance p).2.pos ≤ p.input.length := by
  by_cases h1 : p.pos < p.input.length
  · rw [advance_pos p h1]
    have := decode_size_le (rest p)
    simp [rest] at this ⊢; omega
  · rw [advance_eof p (by omega)]; exact h

theorem advance_pos_ge (p : JSONParser) : p.pos ≤ (advance p).2.pos := by
  by_cases h1 : p.pos < p.input.length
  · exact Nat.le_of_lt (advance_pos_lt p h1)
  · rw [advance_eof p (by omega)]

/-- A lookahead equal to a non-zero ASCII character is the byte under the
cursor. -/
theorem peek_ascii (p : JSONParser) (c : Nat) (hc : c < 0x80) (h0 : c ≠ 0) (h : peek p = c) :
    p.pos < p.input.length ∧ p.input[p.pos]? = some c ∧ (advance p).2.pos = p.pos + 1 := by
  have hlt : p.pos < p.input.length := by
    by_contra hn
    rw [peek_eof p (by omega)] at h; exact h0 h.symm
  have hr := rest_cons_of_lt p hlt
  have hb : p.input[p.pos] < 0x80 := by
    by_contra hn
    have := decode_high p.input[p.pos] (p.input.drop (p.pos + 1)) (by omega)
    rw [peek_eq, if_neg (by omega), hr] at h
    omega
  have hd := decode_ascii p.input[p.pos] (p.input.drop (p.pos + 1)) hb
  refine ⟨hlt, ?_, ?_⟩
  · rw [peek_eq, if_neg (by omega), hr, hd] at h
    simp [List.getElem?_eq_getElem hlt, ← h]
  · rw [advance_pos p hlt, hr, hd]

/-- An ASCII byte under the cursor is the lookahead. -/
theorem peek_of_byte (p : JSONParser) (c : Nat) (hc : c < 0x80) (h : p.input[p.pos]? = some c) :
    peek p = c ∧ (advance p).2.pos = p.pos + 1 := by
  have hlt : p.pos < p.input.length := by
    by_contra hn
    rw [List.getElem?_eq_none (by omega)] at h; cases h
  have hr := rest_cons_of_lt p hlt
  have hb : p.input[p.pos] = c := by
    rw [List.getElem?_eq_getElem hlt] at h; exact Option.some.inj h
  have hd := decode_ascii p.input[p.pos] (p.input.drop (p.pos + 1)) (by omega)
  refine ⟨?_, ?_⟩
  · rw [peek_eq, if_neg (by omega), hr, hd]; exact hb
  · rw [advance_pos p hlt, hr, hd]

/-- A non-ASCII byte under the cursor gives a lookahead of at least `0x80`. -/
theorem peek_high (p : JSONParser) (h : p.pos < p.input.length) (hb : 0x80 ≤ p.input[p.pos]) :
    0x80 ≤ peek p := by
  rw [peek_eq, if_neg (by omega), rest_cons_of_lt p h]
  exact decode_high _ _ hb


theorem Reach.trans {p q r : JSONParser} (h1 : Reach p q) (h2 : Reach q r) : Reach p r := by
  induction h1 with
  | refl => exact h2
  | head p q hlt _ ih => exact Reach.head p r hlt (ih h2)

theorem Reach.single (p : JSONParser) : Reach p (advance p).2 := by
  by_cases h : p.pos < p.input.length
  · exact Reach.head p _ h (Reach.refl _)
  · rw [advance_eof p (by omega)]; exact Reach.refl p

theorem Reach.input_eq {p q : JSONParser} (h : Reach p q) : q.input = p.input := by
  induction h with
  | refl => rfl
  | head p q _ _ ih => rw [ih, advance_input]

theorem Reach.pos_le {p q : JSONParser} (h : Reach p q) : p.pos ≤ q.pos := by
  induction h with
  | refl => exact Nat.le_refl _
  | head p q _ _ ih => exact Nat.le_trans (advance_pos_ge p) ih

theorem Reach.pos_le_len {p q : JSONParser} (h : Reach p q) (hp : p.pos ≤ p.input.length) :
    q.pos ≤ q.input.length := by
  induction h with
  | refl => exact hp
  | head p q _ _ ih => exact ih (by rw [advance_input]; exact advance_pos_le_len p hp)

theorem isSpace_zero : isSpace 0 = false := by decide

theorem isSpace_lt (r : Nat) (h : isSpace r = true) : r < 0x80 ∧ r ≠ 0 := by
  simp [isSpace] at h; omega

theorem peek_ne_zero_lt (p : JSONParser) (h : peek p ≠ 0) : p.pos < p.input.length := by
  by_contra hn; exact h (peek_eof p (by omega))

theorem skipWhitespaceLoop_succ (f : Nat) (p : JSONParser) :
    skipWhitespaceLoop (f + 1) p
      = if isSpace (peek p) then skipWhitespaceLoop f (advance p).2 else p := rfl

theorem skipWhitespaceLoop_stable (f : Nat) : ∀ p : JSONParser, p.input.length ≤ p.pos + f →
    skipWhitespaceLoop (f + 1) p = skipWhitespaceLoop f p := by
  induction f with
  | zero =>
    intro p h
    simp [skipWhitespaceLoop, peek_eof p (by omega), isSpace_zero]
  | succ f ih =>
    intro p h
    rw [skipWhitespaceLoop_succ (f + 1) p, skipWhitespaceLoop_succ f p]
    by_cases hs : isSpace (peek p) = true
    · rw [if_pos hs, if_pos hs]
      have hlt := peek_ne_zero_lt p (isSpace_lt _ hs).2
      have := advance_pos_lt p hlt
      exact ih _ (by rw [advance_input]; omega)
    · rw [if_neg hs, if_neg hs]

theorem skipWhitespaceLoop_stable_le (f g : Nat) (p : JSONParser) (h : p.input.length ≤ p.pos + f)
    (hfg : f ≤ g) : skipWhitespaceLoop g p = skipWhitespaceLoop f p := by
  induction g with
  | zero => have : f = 0 := by omega
            subst this; rfl
  | succ g ih =>
    by_cases hg : f = g + 1
    · subst hg; rfl
    · rw [skipWhitespaceLoop_stable g p (by omega)]; exact ih (by omega)

/-- The loop equation of `skipWhitespace`. -/
theorem skipWhitespace_eq (p : JSONParser) :
    skipWhitespace p = if isSpace (peek p) then skipWhitespace (advance p).2 else p := by
  unfold skipWhitespace
  by_cases hs : isSpace (peek p) = true
  · rw [if_pos hs]
    have hlt := peek_ne_zero_lt p (isSpace_lt _ hs).2
    have h1 := advance_pos_lt p hlt
    obtain ⟨n, hn⟩ : ∃ n, p.input.length = n + 1 := ⟨p.input.length - 1, by omega⟩
    rw [advance_input, hn, skipWhitespaceLoop, if_pos hs]
    exact (skipWhitespaceLoop_stable n _ (by rw [advance_input]; omega)).symm
  · rw [if_neg hs]
    cases hl : p.input.length with
    | zero => rfl
    | succ n => rw [skipWhitespaceLoop, if_neg hs]

theorem skipWhitespace_not_space (p : JSONParser) (hs : isSpace (peek p) = false) :
    skipWhitespace p = p := by
  rw [skipWhitespace_eq, hs]; rfl

theorem skipWhitespaceLoop_reach (f : Nat) : ∀ p : JSONParser, Reach p (skipWhitespaceLoop f p) := by
  induction f with
  | zero => intro p; exact Reach.refl p
  | succ f ih =>
    intro p
    rw [skipWhitespaceLoop]
    split_ifs
    · exact (Reach.single p).trans (ih _)
    · exact Reach.refl p

theorem skipWhitespace_reach (p : JSONParser) : Reach p (skipWhitespace p) :=
  skipWhitespaceLoop_reach _ p

theorem skipWhitespaceLoop_peek (f : Nat) : ∀ p : JSONParser, p.input.length ≤ p.pos + f →
    isSpace (peek (skipWhitespaceLoop f p)) = false := by
  induction f with
  | zero =>
    intro p h
    simp [skipWhitespaceLoop, peek_eof p (by omega), isSpace_zero]
  | succ f ih =>
    intro p h
    rw [skipWhitespaceLoop]
    by_cases hs : isSpace (peek p) = true
    · rw [if_pos hs]
      have hlt := peek_ne_zero_lt p (isSpace_lt _ hs).2
      have := advance_pos_lt p hlt
      exact ih _ (by rw [advance_input]; omega)
    · rw [if_neg hs]; simpa using hs

/-- After `skipWhitespace` the lookahead is not a whitespace character. -/
theorem skipWhitespace_peek (p : JSONParser) : isSpace (peek (skipWhitespace p)) = false :=
  skipWhitespaceLoop_peek _ p (by omega)

theorem skipWhitespace_idem (p : JSONParser) : skipWhitespace (skipWhitespace p) = skipWhitespace p :=
  skipWhitespace_not_space _ (skipWhitespace_peek p)

theorem skipWhitespace_input (p : JSONParser) : (skipWhitespace p).input = p.input :=
  (skipWhitespace_reach p).input_eq

theorem skipWhitespace_pos_ge (p : JSONParser) : p.pos ≤ (skipWhitespace p).pos :=
  (skipWhitespace_reach p).pos_le

theorem advance_of_lt (p : JSONParser) (h : p.pos < p.input.length) :
    (advance p).2 = (if (decodeRuneInString (p.input.drop p.pos)).1 = 0x0A then
        { p with pos := p.pos + (decodeRuneInString (p.input.drop p.pos)).2, line := p.line + 1, col := 1 }
      else { p with pos := p.pos + (decodeRuneInString (p.input.drop p.pos)).2, col := p.col + 1 }) := by
  have : ¬ p.pos ≥ p.input.length := by omega
  simp only [advance, this, if_false]; split_ifs <;> rfl

theorem lineColLoop_reach {p q : JSONParser} (h : Reach p q) :
    ∀ f, q.pos ≤ p.pos + f → lineColLoop p.input q.pos f p.pos p.line p.col = (q.line, q.col) := by
  induction h with
  | refl p =>
    intro f _
    cases f with
    | zero => rfl
    | succ f => rw [lineColLoop]; simp
  | head p q hlt hr ih =>
    intro f hf
    have h1 := advance_pos_lt p hlt
    have h2 := hr.pos_le
    cases f with
    | zero => omega
    | succ f =>
      rw [lineColLoop, if_pos ⟨by omega, hlt⟩]
      have ih' := ih f
      rw [advance_input] at ih'
      rw [advance_of_lt p hlt] at ih' h1
      split_ifs at ih' h1 with hd
      · simp only [hd, if_true]
        exact ih' (by simp at h1 ⊢; omega)
      · simp only [hd, if_false]
        exact ih' (by simp at h1 ⊢; omega)

/-- The cursor counters are the line and column of the cursor offset. -/
theorem reach_lineColAt {input : List Nat} {q : JSONParser} (h : Reach (NewJSONParser input) q) :
    lineColAt input q.pos = (q.line, q.col) := by
  have := lineColLoop_reach h q.pos (by simp [NewJSONParser])
  simpa [lineColAt, NewJSONParser] using this

theorem peek_eq_peekAt (p : JSONParser) : peek p = peekAt p.input p.pos := rfl

theorem peekAt_append_left (w r : List Nat) (hr : r ≠ []) :
    peekAt (w ++ r) w.length = (decodeRuneInString r).1 := by
  have : ¬ (w.length + r.length ≤ w.length) := by
    have := List.length_pos.mpr hr; omega
  simp [peekAt, peek, this]

theorem rest_of_pos {p q : JSONParser} (hi : q.input = p.input) (n : Nat) (hp : q.pos = p.pos + n) :
    rest q = (rest p).drop n := by
  simp [rest, hi, hp, List.drop_drop, Nat.add_comm]

theorem rest_head {p : JSONParser} {b : Nat} {t : List Nat} (h : rest p = b :: t) :
    p.input[p.pos]? = some b := by
  have := congrArg (fun l => l[0]?) h
  simpa [rest, List.getElem?_drop] using this

/-- Reading an ASCII byte that heads the unread input. -/
theorem advance_ascii {p : JSONParser} {b : Nat} {t : List Nat} (h : rest p = b :: t)
    (hb : b < 0x80) :
    peek p = b ∧ (advance p).2.input = p.input ∧ (advance p).2.pos = p.pos + 1
      ∧ rest (advance p).2 = t := by
  have h1 := peek_of_byte p b hb (rest_head h)
  refine ⟨h1.1, advance_input p, h1.2, ?_⟩
  rw [rest_of_pos (advance_input p) 1 h1.2, h]; rfl

/-- The method `skipWhitespace` over an explicit run `w` of whitespace bytes. -/
theorem skipWhitespace_run (w : List Nat) : ∀ (p : JSONParser) (r : List Nat), rest p = w ++ r →
    (∀ b ∈ w, isSpace b = true) → isSpace (peekAt p.input (p.pos + w.length)) = false →
    (skipWhitespace p).pos = p.pos + w.length := by
  induction w with
  | nil =>
    intro p r _ _ hs
    rw [skipWhitespace_not_space p (by simpa [peek_eq_peekAt] using hs)]; rfl
  | cons b w ih =>
    intro p r hr hw hs
    have hb := hw b (by simp)
    obtain ⟨h1, h2, h3, h4⟩ := advance_ascii (p := p) hr (isSpace_lt b hb).1
    rw [skipWhitespace_eq, h1, if_pos hb, ih (advance p).2 r h4 (fun x hx => hw x (by simp [hx]))
      (by rw [h2, h3]; simpa [Nat.add_assoc, Nat.add_comm 1] using hs), h3]
    simp; omega

theorem parse_unexpected (fuel : Nat) (p : JSONParser)
    (hlt : (skipWhitespace p).pos < p.input.length)
    (hc : isValueStart (peek (skipWhitespace p)) = false) :
    parse (fuel + 1) p = .error ⟨unexpectedMessage (peek (skipWhitespace p)),
      (skipWhitespace p).line, (skipWhitespace p).col⟩ := by
  simp only [isValueStart, Bool.or_eq_false_iff, decide_eq_false_iff_not] at hc
  obtain ⟨⟨⟨⟨⟨⟨⟨h1, h2⟩, h3⟩, h4⟩, h5⟩, h6⟩, h7⟩, h8⟩ := hc
  have hlt' : ¬ (skipWhitespace p).pos ≥ (skipWhitespace p).input.length := by
    rw [skipWhitespace_input]; omega
  simp only [parse, hlt', if_false, h1, h2, h3, h4, h5, h6, h7, h8, false_or, newError]
  simp

/-! ## String literals -/

theorem char_valid (c : Char) : c.toNat < 0xD800 ∨ (0xDFFF < c.toNat ∧ c.toNat < 0x110000) := by
  have := c.valid
  simpa [UInt32.isValidChar, Nat.isValidChar, Char.toNat] using this

/-- Decoding undoes the encoding of a scalar value. -/
theorem decode_encode (r : Nat) (hv : r < 0xD800 ∨ (0xDFFF < r ∧ r < 0x110000)) (t : List Nat) :
    decodeRuneInString (encodeRune r ++ t) = (r, (encodeRune r).length) := by
  by_cases h1 : r < 0x80
  · simp [encodeRune, h1, decodeRuneInString]
  by_cases h2 : r < 0x800
  · have a1 : ¬ (0xC0 + r / 64 < 0x80) := by omega
    have a2 : ¬ (0xC0 + r / 64 < 0xC2) := by omega
    have a3 : 0xC0 + r / 64 < 0xE0 := by omega
    have a4 : ¬ (0x80 + r % 64 < 0x80 ∨ 0xBF < 0x80 + r % 64) := by omega
    simp only [encodeRune, h1, h2, if_false, if_true, List.cons_append, List.nil_append,
      decodeRuneInString, a1, a2, a3, a4, List.length_cons, List.length_nil]
    simp only [Prod.mk.injEq, and_true]; omega
  have h3 : ¬ (0x10FFFF < r ∨ (0xD800 ≤ r ∧ r ≤ 0xDFFF)) := by omega
  by_cases h4 : r < 0x10000
  · have a1 : ¬ (0xE0 + r / 4096 < 0x80) := by omega
    have a2 : ¬ (0xE0 + r / 4096 < 0xC2) := by omega
    have a3 : ¬ (0xE0 + r / 4096 < 0xE0) := by omega
    have a5 : 0xE0 + r / 4096 < 0xF0 := by omega
    have a4 : ¬ (0x80 + (r / 64) % 64 < (if 0xE0 + r / 4096 = 0xE0 then 0xA0 else 0x80)
        ∨ (if 0xE0 + r / 4096 = 0xED then 0x9F else 0xBF) < 0x80 + (r / 64) % 64) := by
      split_ifs <;> omega
    have a6 : ¬ (0x80 + r % 64 < 0x80 ∨ 0xBF < 0x80 + r % 64) := by omega
    simp only [encodeRune, h1, h2, h3, h4, if_false, if_true, List.cons_append, List.nil_append,
      decodeRuneInString, a1, a2, a3, a4, a5, a6, List.length_cons, List.length_nil]
    simp only [Prod.mk.injEq, and_true]; omega
  · have a1 : ¬ (0xF0 + r / 262144 < 0x80) := by omega
    have a2 : ¬ (0xF0 + r / 262144 < 0xC2) := by omega
    have a3 : ¬ (0xF0 + r / 262144 < 0xE0) := by omega
    have a5 : ¬ (0xF0 + r / 262144 < 0xF0) := by omega
    have a7 : 0xF0 + r / 262144 < 0xF5 := by omega
    have a4 : ¬ (0x80 + (r / 4096) % 64 < (if 0xF0 + r / 262144 = 0xF0 then 0x90 else 0x80)
        ∨ (if 0xF0 + r / 262144 = 0xF4 then 0x8F else 0xBF) < 0x80 + (r / 4096) % 64) := by
      split_ifs <;> omega
    have a6 : ¬ (0x80 + (r / 64) % 64 < 0x80 ∨ 0xBF < 0x80 + (r / 64) % 64) := by omega
    have a8 : ¬ (0x80 + r % 64 < 0x80 ∨ 0xBF < 0x80 + r % 64) := by omega
    simp only [encodeRune, h1, h2, h3, h4, if_false, if_true, List.cons_append, List.nil_append,
      decodeRuneInString, a1, a2, a3, a4, a5, a6, a7, a8, List.length_cons, List.length_nil]
    simp only [Prod.mk.injEq, and_true]; omega

theorem encodeRune_length_pos (r : Nat) : 1 ≤ (encodeRune r).length := by
  unfold encodeRune; split_ifs <;> simp

theorem parseStringLoop_succ (f : Nat) (p : JSONParser) (result : List Nat) :
    parseStringLoop (f + 1) p result =
    if p.pos ≥ p.input.length then .error (newError p "cadena no terminada")
    else
      if (advance p).1 = 0x22 then .ok (encodeRunes result) (advance p).2
      else if (advance p).1 = 0x5C then
        if (advance (advance p).2).1 = 0x22 then
          parseStringLoop f (advance (advance p).2).2 (result ++ [0x22])
        else if (advance (advance p).2).1 = 0x5C then
          parseStringLoop f (advance (advance p).2).2 (result ++ [0x5C])
        else if (advance (advance p).2).1 = 0x2F then
          parseStringLoop f (advance (advance p).2).2 (result ++ [0x2F])
        else if (advance (advance p).2).1 = 0x62 then
          parseStringLoop f (advance (advance p).2).2 (result ++ [0x08])
        else if (advance (advance p).2).1 = 0x66 then
          parseStringLoop f (advance (advance p).2).2 (result ++ [0x0C])
        else if (advance (advance p).2).1 = 0x6E then
          parseStringLoop f (advance (advance p).2).2 (result ++ [0x0A])
        else if (advance (advance p).2).1 = 0x72 then
          parseStringLoop f (advance (advance p).2).2 (result ++ [0x0D])
        else if (advance (advance p).2).1 = 0x74 then
          parseStringLoop f (advance (advance p).2).2 (result ++ [0x09])
        else .error (newError (advance (advance p).2).2 "escape inválido en string")
      else parseStringLoop f (advance p).2 (result ++ [(advance p).1]) := rfl

theorem parseStringLoop_stable (f : Nat) : ∀ (p : JSONParser) (result : List Nat),
    p.input.length ≤ p.pos + f →
    parseStringLoop (f + 2) p result = parseStringLoop (f + 1) p result := by
  induction f with
  | zero =>
    intro p result h
    have he : p.pos ≥ p.input.length := by omega
    rw [parseStringLoop_succ 1 p result, parseStringLoop_succ 0 p result, if_pos he, if_pos he]
  | succ f ih =>
    intro p result h
    rw [parseStringLoop_succ (f + 1 + 1) p result, parseStringLoop_succ (f + 1) p result]
    by_cases he : p.pos ≥ p.input.length
    · rw [if_pos he, if_pos he]
    · rw [if_neg he, if_neg he]
      have h1 := advance_pos_lt p (by omega)
      have h2 := advance_pos_ge (advance p).2
      have i1 := advance_input p
      have i2 := advance_input (advance p).2
      have e1 : ∀ r, parseStringLoop (f + 1 + 1) (advance p).2 r
          = parseStringLoop (f + 1) (advance p).2 r :=
        fun r => ih _ r (by rw [i1]; omega)
      have e2 : ∀ r, parseStringLoop (f + 1 + 1) (advance (advance p).2).2 r
          = parseStringLoop (f + 1) (advance (advance p).2).2 r :=
        fun r => ih _ r (by rw [i2, i1]; omega)
      simp only [e1, e2]

theorem parseStringLoop_stable_le (f g : Nat) (p : JSONParser) (result : List Nat)
    (h : p.input.length ≤ p.pos + f) (hfg : f ≤ g) :
    parseStringLoop (g + 1) p result = parseStringLoop (f + 1) p result := by
  induction g with
  | zero => have : f = 0 := by omega
            subst this; rfl
  | succ g ih =>
    by_cases hg : f = g + 1
    · subst hg; rfl
    · rw [parseStringLoop_stable g p result (by omega)]; exact ih (by omega)

theorem strBody_of_fuel (f : Nat) (p : JSONParser) (result : List Nat)
    (h : p.input.length ≤ p.pos + f) : parseStringLoop (f + 1) p result = strBody p result := by
  unfold strBody
  by_cases hf : f ≤ p.input.length
  · exact (parseStringLoop_stable_le f _ p result h hf).symm
  · exact parseStringLoop_stable_le _ f p result (by omega) (by omega)

/-- The loop equation of `parseString`. -/
theorem strBody_eq (p : JSONParser) (result : List Nat) :
    strBody p result =
    if p.pos ≥ p.input.length then .error (newError p "cadena no terminada")
    else
      if (advance p).1 = 0x22 then .ok (encodeRunes result) (advance p).2
      else if (advance p).1 = 0x5C then
        if (advance (advance p).2).1 = 0x22 then
          strBody (advance (advance p).2).2 (result ++ [0x22])
        else if (advance (advance p).2).1 = 0x5C then
          strBody (advance (advance p).2).2 (result ++ [0x5C])
        else if (advance (advance p).2).1 = 0x2F then
          strBody (advance (advance p).2).2 (result ++ [0x2F])
        else if (advance (advance p).2).1 = 0x62 then
          strBody (advance (advance p).2).2 (result ++ [0x08])
        else if (advance (advance p).2).1 = 0x66 then
          strBody (advance (advance p).2).2 (result ++ [0x0C])
        else if (advance (advance p).2).1 = 0x6E then
          strBody (advance (advance p).2).2 (result ++ [0x0A])
        else if (advance (advance p).2).1 = 0x72 then
          strBody (advance (advance p).2).2 (result ++ [0x0D])
        else if (advance (advance p).2).1 = 0x74 then
          strBody (advance (advance p).2).2 (result ++ [0x09])
        else .error (newError (advance (advance p).2).2 "escape inválido en string")
      else strBody (advance p).2 (result ++ [(advance p).1]) := by
  by_cases he : p.pos ≥ p.input.length
  · rw [if_pos he, strBody, parseStringLoop_succ, if_pos he]
  · rw [if_neg he, strBody, parseStringLoop_succ, if_neg he]
    have h1 := advance_pos_lt p (by omega)
    have h2 := advance_pos_ge (advance p).2
    have i1 := advance_input p
    have i2 := advance_input (advance p).2
    obtain ⟨n, hn⟩ : ∃ n, p.input.length = n + 1 := ⟨p.input.length - 1, by omega⟩
    have e1 : ∀ r, parseStringLoop p.input.length (advance p).2 r = strBody (advance p).2 r := by
      intro r; rw [hn]; exact strBody_of_fuel _ _ r (by rw [i1]; omega)
    have e2 : ∀ r, parseStringLoop p.input.length (advance (advance p).2).2 r
        = strBody (advance (advance p).2).2 r := by
      intro r; rw [hn]; exact strBody_of_fuel _ _ r (by rw [i2, i1]; omega)
    simp only [e1, e2]

theorem parseString_eq (p : JSONParser) : parseString p = strBody (advance p).2 [] := by
  unfold parseString
  exact strBody_of_fuel _ _ _ (by rw [advance_input]; have := advance_pos_ge p; omega)

theorem rest_ne_nil_lt {p : JSONParser} (h : rest p ≠ []) : p.pos < p.input.length := by
  by_contra hn
  exact h ((rest_eq_nil_iff p).mpr (by omega))

/-- One call of `advance` in terms of the unread input. -/
theorem advance_rest {p : JSONParser} (h : rest p ≠ []) :
    (advance p).1 = (decodeRuneInString (rest p)).1
    ∧ (advance p).2.pos = p.pos + (decodeRuneInString (rest p)).2
    ∧ rest (advance p).2 = (rest p).drop (decodeRuneInString (rest p)).2 := by
  have hlt := rest_ne_nil_lt h
  refine ⟨?_, advance_pos p hlt, rest_of_pos (advance_input p) _ (advance_pos p hlt)⟩
  rw [advance_fst, peek_eq, if_neg (by omega)]

/-- Reading one encoded scalar value. -/
theorem advance_rune {p : JSONParser} {r : Nat} {t : List Nat}
    (hv : r < 0xD800 ∨ (0xDFFF < r ∧ r < 0x110000)) (h : rest p = encodeRune r ++ t) :
    (advance p).1 = r ∧ (advance p).2.pos = p.pos + (encodeRune r).length
      ∧ rest (advance p).2 = t := by
  have hne : rest p ≠ [] := by
    intro h0
    have := congrArg List.length h
    rw [h0] at this
    have := encodeRune_length_pos r
    simp at *; omega
  obtain ⟨h1, h2, h3⟩ := advance_rest hne
  rw [h, decode_encode r hv t] at h1 h2 h3
  exact ⟨h1, h2, by simpa using h3⟩

theorem itemsText_cons (i : StrItem) (items : List StrItem) :
    itemsText (i :: items) = i.text ++ itemsText items := by
  simp [itemsText]

/-- The loop of `parseString` over a run of well-formed items. -/
theorem strBody_items (items : List StrItem) : ∀ (p : JSONParser) (res tail : List Nat),
    rest p = itemsText items ++ tail → (∀ i ∈ items, i.wellFormed) →
    ∃ q, strBody p res = strBody q (res ++ items.map StrItem.char) ∧ Reach p q
      ∧ q.pos = p.pos + (itemsText items).length ∧ rest q = tail := by
  induction items with
  | nil =>
    intro p res tail h _
    exact ⟨p, by simp, Reach.refl p, by simp [itemsText], by simpa [itemsText] using h⟩
  | cons i items ih =>
    intro p res tail h hw
    have hwi := hw i (by simp)
    have hw' : ∀ j ∈ items, j.wellFormed := fun j hj => hw j (by simp [hj])
    rw [itemsText_cons, List.append_assoc] at h
    cases i with
    | plain c =>
      simp only [StrItem.wellFormed] at hwi
      simp only [StrItem.text] at h
      obtain ⟨h1, h2, h3⟩ := advance_rune (char_valid c) h
      obtain ⟨q, hq1, hq2, hq3, hq4⟩ := ih (advance p).2 (res ++ [c.toNat]) tail h3 hw'
      refine ⟨q, ?_, (Reach.single p).trans hq2, ?_, hq4⟩
      · have hne : rest p ≠ [] := by
          intro h0
          have := congrArg List.length h
          have := encodeRune_length_pos c.toNat
          simp [h0] at *; omega
        have hlt : ¬ p.pos ≥ p.input.length := by
          have := rest_ne_nil_lt hne
          omega
        rw [strBody_eq p res, if_neg hlt, h1, if_neg hwi.1, if_neg hwi.2, hq1]
        simp [StrItem.char]
      · rw [hq3, h2, itemsText_cons]; simp [StrItem.text]; omega
    | escape e d =>
      simp only [StrItem.wellFormed] at hwi
      simp only [StrItem.text, List.cons_append, List.nil_append] at h
      obtain ⟨a1, a2, a3, a4⟩ := advance_ascii (p := p) h (by decide)
      obtain ⟨b1, b2, b3, b4⟩ := advance_ascii (p := (advance p).2) a4
        (by simp [escapeTable] at hwi; omega)
      obtain ⟨q, hq1, hq2, hq3, hq4⟩ := ih (advance (advance p).2).2 (res ++ [d]) tail b4 hw'
      refine ⟨q, ?_, ((Reach.single p).trans (Reach.single _)).trans hq2, ?_, hq4⟩
      · have hlt : ¬ p.pos ≥ p.input.length := by
          have := rest_ne_nil_lt (p := p) (by rw [h]; simp)
          omega
        rw [strBody_eq p res, if_neg hlt, advance_fst p, a1, advance_fst (advance p).2, b1]
        simp only [escapeTable, List.mem_cons, Prod.mk.injEq, List.mem_nil_iff, or_false,
          List.mem_singleton] at hwi
        rcases hwi with ⟨rfl, rfl⟩ | ⟨rfl, rfl⟩ | ⟨rfl, rfl⟩ | ⟨rfl, rfl⟩ | ⟨rfl, rfl⟩ | ⟨rfl, rfl⟩
          | ⟨rfl, rfl⟩ | ⟨rfl, rfl⟩ <;> simp [hq1, StrItem.char]
      · rw [hq3, b3, a3, itemsText_cons]; simp [StrItem.text]; omega

theorem skipWhitespace_eof (p : JSONParser) (h : p.input.length ≤ p.pos) : skipWhitespace p = p :=
  skipWhitespace_not_space p (by rw [peek_eof p h]; exact isSpace_zero)

theorem skipWhitespace_of_byte {p : JSONParser} {b : Nat} {t : List Nat} (h : rest p = b :: t)
    (hb : b < 0x80) (hs : isSpace b = false) : skipWhitespace p = p :=
  skipWhitespace_not_space p (by rw [(advance_ascii h hb).1]; exact hs)

/-- The dispatch of `parse` on an opening quote. -/
theorem parse_string (fuel : Nat) (p : JSONParser) (h : peek (skipWhitespace p) = 0x22) :
    parse (fuel + 1) p = (parseString (skipWhitespace p)).map JSONValue.string := by
  have hlt := (peek_ascii _ 0x22 (by decide) (by decide) h).1
  have hlt' : ¬ (skipWhitespace p).pos ≥ (skipWhitespace p).input.length := by omega
  simp [parse, hlt', h]

theorem itemsText_plain (b : List Char) : itemsText (b.map StrItem.plain) = utf8 b := by
  induction b with
  | nil => rfl
  | cons c b ih =>
    simp only [List.map_cons, itemsText_cons, ih, StrItem.text]
    simp [utf8, encodeRunes]

/-- The method `parseString` on a literal whose body is a run of well-formed
items, followed by `tail`. -/
theorem parseString_items (p : JSONParser) (items : List StrItem) (tail : List Nat)
    (h : rest p = 0x22 :: (itemsText items ++ tail)) (hw : ∀ i ∈ items, i.wellFormed) :
    ∃ q, parseString p = strBody q (items.map StrItem.char) ∧ Reach p q
      ∧ q.pos = p.pos + 1 + (itemsText items).length ∧ rest q = tail := by
  obtain ⟨a1, a2, a3, a4⟩ := advance_ascii (p := p) h (by decide)
  obtain ⟨q, hq1, hq2, hq3, hq4⟩ := strBody_items items (advance p).2 [] tail a4 hw
  refine ⟨q, ?_, (Reach.single p).trans hq2, by rw [hq3, a3], hq4⟩
  rw [parseString_eq, hq1]; simp

/-- The loop of `parseString` at the end of the input. -/
theorem strBody_eof (q : JSONParser) (res : List Nat) (h : rest q = []) :
    strBody q res = .error ⟨"cadena no terminada", q.line, q.col⟩ := by
  rw [strBody_eq, if_pos ((rest_eq_nil_iff q).mp h)]; rfl

/-- The loop of `parseString` at a backslash that ends the input. -/
theorem strBody_backslash_eof (q : JSONParser) (res : List Nat) (h : rest q = [0x5C]) :
    strBody q res = .error ⟨"escape inválido en string", (advance q).2.line, (advance q).2.col⟩
      ∧ (advance q).2.pos = q.pos + 1 := by
  obtain ⟨a1, a2, a3, a4⟩ := advance_ascii (p := q) h (by decide)
  have hlt : ¬ q.pos ≥ q.input.length := by
    have := rest_ne_nil_lt (p := q) (by rw [h]; simp); omega
  have he := advance_eof (advance q).2 ((rest_eq_nil_iff _).mp a4)
  refine ⟨?_, a3⟩
  rw [strBody_eq, if_neg hlt, advance_fst q, a1, he]
  simp [newError]

/-- The loop of `parseString` at a backslash followed by a character outside
the escape table. -/
theorem strBody_bad_escape (q : JSONParser) (res cr : List Nat) (h : rest q = 0x5C :: cr)
    (hcr : cr ≠ []) (hc : isEscapeChar (decodeRuneInString cr).1 = false) :
    strBody q res = .error ⟨"escape inválido en string", (advance (advance q).2).2.line,
        (advance (advance q).2).2.col⟩
      ∧ (advance (advance q).2).2.pos = q.pos + 1 + (decodeRuneInString cr).2 := by
  obtain ⟨a1, a2, a3, a4⟩ := advance_ascii (p := q) h (by decide)
  have hlt : ¬ q.pos ≥ q.input.length := by
    have := rest_ne_nil_lt (p := q) (by rw [h]; simp); omega
  obtain ⟨b1, b2, b3⟩ := advance_rest (p := (advance q).2) (by rw [a4]; exact hcr)
  rw [a4] at b1 b2
  refine ⟨?_, by rw [b2, a3]⟩
  simp only [isEscapeChar, Bool.or_eq_false_iff, decide_eq_false_iff_not] at hc
  obtain ⟨⟨⟨⟨⟨⟨⟨h1, h2⟩, h3⟩, h4⟩, h5⟩, h6⟩, h7⟩, h8⟩ := hc
  rw [strBody_eq, if_neg hlt, advance_fst q, a1, b1]
  simp [newError, h1, h2, h3, h4, h5, h6, h7, h8]

/-! ## Spans and the two scanning loops -/

theorem peek_rest (p : JSONParser) : peek p = peekOf (rest p) := by
  rw [peek_eq, peekOf]
  by_cases h : p.input.length ≤ p.pos
  · rw [if_pos h, if_pos ((rest_eq_nil_iff p).mpr h)]
  · rw [if_neg h, if_neg (fun h0 => h ((rest_eq_nil_iff p).mp h0))]

theorem peekOf_nil : peekOf [] = 0 := rfl

theorem peekOf_ascii (b : Nat) (t : List Nat) (h : b < 0x80) : peekOf (b :: t) = b := by
  simp [peekOf, decode_ascii b t h]

theorem peekOf_high (b : Nat) (t : List Nat) (h : 0x80 ≤ b) : 0x80 ≤ peekOf (b :: t) := by
  simp only [peekOf, List.cons_ne_nil, if_false, reduceCtorEq]
  exact decode_high b t h

theorem Span.refl (p : JSONParser) : Span p p [] :=
  ⟨Reach.refl p, by simp, by simp⟩

theorem Span.append {p q r : JSONParser} {w1 w2 : List Nat} (h1 : Span p q w1) (h2 : Span q r w2) :
    Span p r (w1 ++ w2) :=
  ⟨h1.1.trans h2.1, by rw [h2.2.1, h1.2.1]; simp; omega, by rw [h1.2.2, h2.2.2]; simp⟩

theorem Span.input_same {p q : JSONParser} {w : List Nat} (h : Span p q w) : q.input = p.input :=
  h.1.input_eq

theorem Span.pos_mono {p q : JSONParser} {w : List Nat} (h : Span p q w) : p.pos ≤ q.pos :=
  h.1.pos_le

/-- A span is determined by the reached cursor: build one from the position. -/
theorem Span.of_rest {p q : JSONParser} {w y : List Nat} (hr : Reach p q)
    (hp : q.pos = p.pos + w.length) (h : rest p = w ++ y) : Span p q w ∧ rest q = y := by
  have hy : rest q = y := by
    rw [rest_of_pos hr.input_eq _ hp, h]; simp
  exact ⟨⟨hr, hp, by rw [hy]; exact h⟩, hy⟩

theorem Span.rest_eq {p q : JSONParser} {w y : List Nat} (hs : Span p q w) (h : rest p = w ++ y) :
    rest q = y :=
  (Span.of_rest hs.1 hs.2.1 h).2

/-- Reading an ASCII byte that heads the unread input, as a span. -/
theorem span_byte {p : JSONParser} {b : Nat} {t : List Nat} (h : rest p = b :: t) (hb : b < 0x80) :
    peek p = b ∧ Span p (advance p).2 [b] ∧ rest (advance p).2 = t := by
  obtain ⟨h1, h2, h3, h4⟩ := advance_ascii h hb
  exact ⟨h1, ⟨Reach.single p, by simp [h3], by rw [h4]; exact h⟩, h4⟩

/-- A lookahead equal to a non-zero ASCII character, as a span. -/
theorem span_of_peek {p : JSONParser} {c : Nat} (hc : c < 0x80) (h0 : c ≠ 0) (h : peek p = c) :
    Span p (advance p).2 [c] := by
  obtain ⟨h1, h2, h3⟩ := peek_ascii p c hc h0 h
  have hr : rest p = c :: p.input.drop (p.pos + 1) := by
    rw [rest_cons_of_lt p h1]
    rw [List.getElem?_eq_getElem h1] at h2
    rw [Option.some.inj h2]
  exact (span_byte hr hc).2.1

/-- One call of `advance` as a span over the bytes of the character read. -/
theorem span_advance (p : JSONParser) (h : p.pos < p.input.length) :
    Span p (advance p).2 ((rest p).take (decodeRuneInString (rest p)).2) := by
  have hle := decode_size_le (rest p)
  have hpos := advance_pos p h
  refine ⟨Reach.single p, ?_, ?_⟩
  · rw [hpos, List.length_take]; omega
  · rw [rest_of_pos (advance_input p) _ hpos]; simp

theorem advWhile_succ (c : Nat → Bool) (f : Nat) (p : JSONParser) :
    advWhile c (f + 1) p = if c (peek p) then advWhile c f (advance p).2 else p := rfl

theorem skipWhitespaceLoop_eq_advWhile (f : Nat) :
    ∀ p, skipWhitespaceLoop f p = advWhile isSpace f p := by
  induction f with
  | zero => intro p; rfl
  | succ f ih => intro p; rw [skipWhitespaceLoop_succ, advWhile_succ, ih]

theorem skipWhitespace_eq_advRun (p : JSONParser) : skipWhitespace p = advRun isSpace p :=
  skipWhitespaceLoop_eq_advWhile _ p

theorem digitsLoop_eq_advWhile (f : Nat) :
    ∀ p, digitsLoop f p = advWhile unicodeIsDigit f p := by
  induction f with
  | zero => intro p; rfl
  | succ f ih => intro p; rw [digitsLoop, advWhile_succ, ih]

theorem digitsLoop_eq_advRun (p : JSONParser) :
    digitsLoop p.input.length p = advRun unicodeIsDigit p :=
  digitsLoop_eq_advWhile _ p

theorem advWhile_stable (c : Nat → Bool) (hc0 : c 0 = false) (f : Nat) :
    ∀ p : JSONParser, p.input.length ≤ p.pos + f → advWhile c (f + 1) p = advWhile c f p := by
  induction f with
  | zero =>
    intro p h
    simp [advWhile, peek_eof p (by omega), hc0]
  | succ f ih =>
    intro p h
    rw [advWhile_succ c (f + 1) p, advWhile_succ c f p]
    by_cases hs : c (peek p) = true
    · rw [if_pos hs, if_pos hs]
      have hlt := peek_ne_zero_lt p (fun h0 => by rw [h0, hc0] at hs; cases hs)
      have := advance_pos_lt p hlt
      exact ih _ (by rw [advance_input]; omega)
    · rw [if_neg hs, if_neg hs]

/-- The loop equation of `advRun`. -/
theorem advRun_eq (c : Nat → Bool) (hc0 : c 0 = false) (p : JSONParser) :
    advRun c p = if c (peek p) then advRun c (advance p).2 else p := by
  unfold advRun
  by_cases hs : c (peek p) = true
  · rw [if_pos hs]
    have hlt := peek_ne_zero_lt p (fun h0 => by rw [h0, hc0] at hs; cases hs)
    have h1 := advance_pos_lt p hlt
    obtain ⟨n, hn⟩ : ∃ n, p.input.length = n + 1 := ⟨p.input.length - 1, by omega⟩
    rw [advance_input, hn, advWhile_succ, if_pos hs]
    exact (advWhile_stable c hc0 n _ (by rw [advance_input]; omega)).symm
  · rw [if_neg hs]
    cases hl : p.input.length with
    | zero => rfl
    | succ n => rw [advWhile_succ, if_neg hs]

theorem advWhile_stop (c : Nat → Bool) (hc0 : c 0 = false) (f : Nat) :
    ∀ p : JSONParser, p.input.length ≤ p.pos + f → c (peek (advWhile c f p)) = false := by
  induction f with
  | zero =>
    intro p h
    simp [advWhile, peek_eof p (by omega), hc0]
  | succ f ih =>
    intro p h
    rw [advWhile_succ]
    by_cases hs : c (peek p) = true
    · rw [if_pos hs]
      have hlt := peek_ne_zero_lt p (fun h0 => by rw [h0, hc0] at hs; cases hs)
      have := advance_pos_lt p hlt
      exact ih _ (by rw [advance_input]; omega)
    · rw [if_neg hs]; simpa using hs

theorem advRun_stop (c : Nat → Bool) (hc0 : c 0 = false) (p : JSONParser) :
    c (peek (advRun c p)) = false :=
  advWhile_stop c hc0 _ p (by omega)

/-- What `advWhile` reads: a text `ds` whose ASCII bytes satisfy `c`. -/
theorem advWhile_span (c : Nat → Bool) (hc0 : c 0 = false) (f : Nat) :
    ∀ p : JSONParser, ∃ ds, Span p (advWhile c f p) ds
      ∧ ((∀ b ∈ ds, b < 0x80) → ∀ b ∈ ds, c b = true) := by
  induction f with
  | zero => intro p; exact ⟨[], Span.refl p, fun _ b hb => by cases hb⟩
  | succ f ih =>
    intro p
    rw [advWhile_succ]
    by_cases hs : c (peek p) = true
    · rw [if_pos hs]
      have hlt := peek_ne_zero_lt p (fun h0 => by rw [h0, hc0] at hs; cases hs)
      obtain ⟨ds, hd1, hd2⟩ := ih (advance p).2
      refine ⟨_, (span_advance p hlt).append hd1, ?_⟩
      intro hall b hb
      have hr := rest_cons_of_lt p hlt
      have hsz := decode_size_pos p.input[p.pos] (p.input.drop (p.pos + 1))
      rw [hr] at hb hall
      obtain ⟨n, hn⟩ : ∃ n, (decodeRuneInString (p.input[p.pos] :: p.input.drop (p.pos + 1))).2
          = n + 1 := ⟨_, (Nat.sub_add_cancel hsz).symm⟩
      rw [hn, List.take_succ_cons] at hb hall
      have hb0 : p.input[p.pos] < 0x80 := hall _ (by simp)
      have hdec := decode_ascii p.input[p.pos] (p.input.drop (p.pos + 1)) hb0
      have hn0 : n = 0 := by rw [hdec] at hn; simp at hn; omega
      subst hn0
      have hpk : peek p = p.input[p.pos] := by
        rw [peek_rest, hr, peekOf_ascii _ _ hb0]
      simp only [List.take_zero, List.cons_append, List.nil_append, List.mem_cons] at hb hall
      rcases hb with rfl | hb
      · rw [← hpk]; exact hs
      · exact hd2 (fun x hx => hall x (Or.inr hx)) b hb
    · rw [if_neg hs]; exact ⟨[], Span.refl p, fun _ b hb => by cases hb⟩

/-- What `advWhile` reads when `c` holds of ASCII characters only. -/
theorem advWhile_span_ascii (c : Nat → Bool) (hc0 : c 0 = false)
    (hA : ∀ r, c r = true → r < 0x80) (f : Nat) :
    ∀ p : JSONParser, ∃ ds, Span p (advWhile c f p) ds ∧ ∀ b ∈ ds, c b = true := by
  induction f with
  | zero => intro p; exact ⟨[], Span.refl p, fun b hb => by cases hb⟩
  | succ f ih =>
    intro p
    rw [advWhile_succ]
    by_cases hs : c (peek p) = true
    · rw [if_pos hs]
      obtain ⟨ds, hd1, hd2⟩ := ih (advance p).2
      have h0 : peek p ≠ 0 := fun h0 => by rw [h0, hc0] at hs; cases hs
      refine ⟨peek p :: ds, (span_of_peek (hA _ hs) h0 rfl).append hd1, ?_⟩
      intro b hb
      rcases List.mem_cons.mp hb with rfl | hb
      · exact hs
      · exact hd2 b hb
    · rw [if_neg hs]; exact ⟨[], Span.refl p, fun b hb => by cases hb⟩

/-- The loop `advRun` over an explicit run `ws` of ASCII bytes satisfying `c`. -/
theorem advRun_run (c : Nat → Bool) (hc0 : c 0 = false) (ws : List Nat) :
    ∀ (p : JSONParser) (y : List Nat), rest p = ws ++ y →
    (∀ b ∈ ws, b < 0x80 ∧ c b = true) → c (peekOf y) = false →
    Span p (advRun c p) ws ∧ rest (advRun c p) = y := by
  induction ws with
  | nil =>
    intro p y h _ hs
    have : c (peek p) = false := by rw [peek_rest, h]; exact hs
    rw [advRun_eq c hc0, this]
    exact ⟨Span.refl p, by simpa using h⟩
  | cons b ws ih =>
    intro p y h hw hs
    obtain ⟨hb1, hb2⟩ := hw b (by simp)
    obtain ⟨h1, h2, h3⟩ := span_byte (p := p) h hb1
    obtain ⟨i1, i2⟩ := ih (advance p).2 y h3 (fun x hx => hw x (by simp [hx])) hs
    rw [advRun_eq c hc0, h1, if_pos hb2]
    exact ⟨h2.append i1, i2⟩

theorem isSpace_ascii (r : Nat) (h : isSpace r = true) : r < 0x80 := (isSpace_lt r h).1

theorem unicodeIsDigit_zero : unicodeIsDigit 0 = false := by decide

/-- What `skipWhitespace` reads. -/
theorem skipWhitespace_span (p : JSONParser) : ∃ ws, Spaces ws ∧ Span p (skipWhitespace p) ws := by
  obtain ⟨ws, h1, h2⟩ := advWhile_span_ascii isSpace isSpace_zero isSpace_ascii p.input.length p
  rw [skipWhitespace_eq_advRun]
  exact ⟨ws, h2, h1⟩

/-- The method `skipWhitespace` over an explicit whitespace text. -/
theorem skipWhitespace_spaces {p : JSONParser} {ws y : List Nat} (h : rest p = ws ++ y)
    (hw : Spaces ws) (hs : isSpace (peekOf y) = false) :
    Span p (skipWhitespace p) ws ∧ rest (skipWhitespace p) = y := by
  rw [skipWhitespace_eq_advRun]
  exact advRun_run isSpace isSpace_zero ws p y h (fun b hb => ⟨isSpace_ascii b (hw b hb), hw b hb⟩) hs

/-! ## Keywords -/

theorem slice_of_span {p q : JSONParser} {w : List Nat} (h : Span p q w) :
    slice p.input p.pos q.pos = w := by
  have := h.2.2
  unfold rest at this
  rw [slice, h.2.1, this]; simp

/-- Reading a text of ASCII bytes without line feed moves the cursor by its
length, on the same line. -/
theorem reach_ascii_text (w : List Nat) : ∀ (p : JSONParser) (y : List Nat), rest p = w ++ y →
    (∀ b ∈ w, b < 0x80 ∧ b ≠ 0x0A) →
    Reach p { p with pos := p.pos + w.length, col := p.col + w.length } := by
  induction w with
  | nil => intro p y _ _; exact Reach.refl p
  | cons b w ih =>
    intro p y h hw
    obtain ⟨hb1, hb2⟩ := hw b (by simp)
    have hlt := rest_ne_nil_lt (p := p) (by rw [h]; simp)
    have hadv : (advance p).2 = { p with pos := p.pos + 1, col := p.col + 1 } := by
      rw [advance_of_lt p hlt]
      have hd : decodeRuneInString (List.drop p.pos p.input) = (b, 1) := by
        have := decode_ascii b (w ++ y) hb1
        rw [← List.cons_append, ← h] at this; exact this
      rw [hd]; simp [hb2]
    have h3 := (span_byte (p := p) h hb1).2.2
    have := ih (advance p).2 y h3 (fun x hx => hw x (by simp [hx]))
    rw [hadv] at this
    refine Reach.head p _ hlt ?_
    rw [hadv]
    simpa [Nat.add_assoc, Nat.add_comm 1] using this

theorem slice_eq_take_rest (p : JSONParser) (n : Nat) :
    slice p.input p.pos (p.pos + n) = (rest p).take n := by
  simp [slice, rest]

theorem rest_of_take {p : JSONParser} {w : List Nat} (h : (rest p).take w.length = w) :
    rest p = w ++ (rest p).drop w.length := by
  conv_lhs => rw [← List.take_append_drop w.length (rest p), h]

/-- A keyword jump of `parseBoolean` and `parseNull` as a span. -/
theorem span_keyword (p : JSONParser) (w : List Nat) (hw : ∀ b ∈ w, b < 0x80 ∧ b ≠ 0x0A)
    (h : slice p.input p.pos (p.pos + w.length) = w) :
    Span p { p with pos := p.pos + w.length, col := p.col + w.length } w := by
  rw [slice_eq_take_rest] at h
  have hr := rest_of_take h
  have hreach := reach_ascii_text w p _ hr hw
  exact (Span.of_rest hreach rfl hr).1

theorem keyword_slice {p : JSONParser} {w y : List Nat} (h : rest p = w ++ y) (hne : w ≠ []) :
    p.pos + w.length ≤ p.input.length ∧ slice p.input p.pos (p.pos + w.length) = w := by
  constructor
  · have := congrArg List.length h
    have hlt := rest_ne_nil_lt (p := p) (by rw [h]; simp [hne])
    simp [rest] at this; omega
  · rw [slice_eq_take_rest, h]; simp

/-- What a successful `parseNull` reads. -/
theorem parseNull_sound {p p' : JSONParser} {v : JSONValue} (h : parseNull p = .ok v p') :
    v = .null ∧ Span p p' [0x6E, 0x75, 0x6C, 0x6C] := by
  unfold parseNull at h
  split_ifs at h with hc
  injection h with h1 h2
  subst h1 h2
  exact ⟨rfl, span_keyword p [0x6E, 0x75, 0x6C, 0x6C] (by decide) hc.2⟩

/-- The method `parseNull` on the keyword. -/
theorem parseNull_complete {p : JSONParser} {y : List Nat}
    (h : rest p = [0x6E, 0x75, 0x6C, 0x6C] ++ y) :
    ∃ p', parseNull p = .ok .null p' ∧ Span p p' [0x6E, 0x75, 0x6C, 0x6C] := by
  have hk := keyword_slice h (by simp)
  refine ⟨_, ?_, span_keyword p [0x6E, 0x75, 0x6C, 0x6C] (by decide) hk.2⟩
  have hk' : p.pos + 4 ≤ p.input.length
      ∧ slice p.input p.pos (p.pos + 4) = [0x6E, 0x75, 0x6C, 0x6C] := hk
  unfold parseNull
  rw [if_pos hk']; rfl

/-- What a successful `parseBoolean` reads. -/
theorem parseBoolean_sound {p p' : JSONParser} {b : Bool} (h : parseBoolean p = .ok b p') :
    (b = true ∧ Span p p' [0x74, 0x72, 0x75, 0x65])
    ∨ (b = false ∧ Span p p' [0x66, 0x61, 0x6C, 0x73, 0x65]) := by
  unfold parseBoolean at h
  split_ifs at h with hc hc2
  · injection h with h1 h2
    subst h1 h2
    exact Or.inl ⟨rfl, span_keyword p [0x74, 0x72, 0x75, 0x65] (by decide) hc.2⟩
  · injection h with h1 h2
    subst h1 h2
    exact Or.inr ⟨rfl, span_keyword p [0x66, 0x61, 0x6C, 0x73, 0x65] (by decide) hc2.2⟩

/-- The method `parseBoolean` on the keyword `true`. -/
theorem parseBoolean_true {p : JSONParser} {y : List Nat}
    (h : rest p = [0x74, 0x72, 0x75, 0x65] ++ y) :
    ∃ p', parseBoolean p = .ok true p' ∧ Span p p' [0x74, 0x72, 0x75, 0x65] := by
  have hk := keyword_slice h (by simp)
  refine ⟨_, ?_, span_keyword p [0x74, 0x72, 0x75, 0x65] (by decide) hk.2⟩
  have hk' : p.pos + 4 ≤ p.input.length
      ∧ slice p.input p.pos (p.pos + 4) = [0x74, 0x72, 0x75, 0x65] := hk
  unfold parseBoolean
  rw [if_pos hk']; rfl

/-- The method `parseBoolean` on the keyword `false`. -/
theorem parseBoolean_false {p : JSONParser} {y : List Nat}
    (h : rest p = [0x66, 0x61, 0x6C, 0x73, 0x65] ++ y) :
    ∃ p', parseBoolean p = .ok false p' ∧ Span p p' [0x66, 0x61, 0x6C, 0x73, 0x65] := by
  have hk := keyword_slice h (by simp)
  refine ⟨_, ?_, span_keyword p [0x66, 0x61, 0x6C, 0x73, 0x65] (by decide) hk.2⟩
  have hk' : p.pos + 5 ≤ p.input.length
      ∧ slice p.input p.pos (p.pos + 5) = [0x66, 0x61, 0x6C, 0x73, 0x65] := hk
  unfold parseBoolean
  have hne : ¬ (p.pos + 4 ≤ p.input.length
      ∧ slice p.input p.pos (p.pos + 4) = [0x74, 0x72, 0x75, 0x65]) := by
    intro hc
    have := hc.2
    rw [slice_eq_take_rest, h] at this
    simp at this
  rw [if_neg hne, if_pos hk']; rfl

/-! ## String literals and the grammar -/

theorem unescape_some_iff (e d : Nat) : unescape e = some d ↔ (e, d) ∈ escapeTable := by
  constructor
  · intro h
    unfold unescape at h
    by_cases h0 : e = 0x22
    · rw [if_pos h0] at h; injection h with h; subst h0; subst h; decide
    rw [if_neg h0] at h
    by_cases h1 : e = 0x5C
    · rw [if_pos h1] at h; injection h with h; subst h1; subst h; decide
    rw [if_neg h1] at h
    by_cases h2 : e = 0x2F
    · rw [if_pos h2] at h; injection h with h; subst h2; subst h; decide
    rw [if_neg h2] at h
    by_cases h3 : e = 0x62
    · rw [if_pos h3] at h; injection h with h; subst h3; subst h; decide
    rw [if_neg h3] at h
    by_cases h4 : e = 0x66
    · rw [if_pos h4] at h; injection h with h; subst h4; subst h; decide
    rw [if_neg h4] at h
    by_cases h5 : e = 0x6E
    · rw [if_pos h5] at h; injection h with h; subst h5; subst h; decide
    rw [if_neg h5] at h
    by_cases h6 : e = 0x72
    · rw [if_pos h6] at h; injection h with h; subst h6; subst h; decide
    rw [if_neg h6] at h
    by_cases h7 : e = 0x74
    · rw [if_pos h7] at h; injection h with h; subst h7; subst h; decide
    rw [if_neg h7] at h
    cases h
  · intro h
    simp only [escapeTable, List.mem_cons, Prod.mk.injEq, List.mem_nil_iff, or_false,
      List.mem_singleton] at h
    rcases h with ⟨rfl, rfl⟩ | ⟨rfl, rfl⟩ | ⟨rfl, rfl⟩ | ⟨rfl, rfl⟩ | ⟨rfl, rfl⟩ | ⟨rfl, rfl⟩
      | ⟨rfl, rfl⟩ | ⟨rfl, rfl⟩ <;> rfl

theorem unescape_some_lt {e d : Nat} (h : unescape e = some d) : e < 0x80 ∧ e ≠ 0 := by
  unfold unescape at h
  by_cases h0 : e = 0x22
  · omega
  rw [if_neg h0] at h
  by_cases h1 : e = 0x5C
  · omega
  rw [if_neg h1] at h
  by_cases h2 : e = 0x2F
  · omega
  rw [if_neg h2] at h
  by_cases h3 : e = 0x62
  · omega
  rw [if_neg h3] at h
  by_cases h4 : e = 0x66
  · omega
  rw [if_neg h4] at h
  by_cases h5 : e = 0x6E
  · omega
  rw [if_neg h5] at h
  by_cases h6 : e = 0x72
  · omega
  rw [if_neg h6] at h
  by_cases h7 : e = 0x74
  · omega
  rw [if_neg h7] at h
  cases h

theorem unescape_match {α : Type} (e : Nat) (A : Nat → α) (E : α) :
    (if e = 0x22 then A 0x22
      else if e = 0x5C then A 0x5C
      else if e = 0x2F then A 0x2F
      else if e = 0x62 then A 0x08
      else if e = 0x66 then A 0x0C
      else if e = 0x6E then A 0x0A
      else if e = 0x72 then A 0x0D
      else if e = 0x74 then A 0x09
      else E)
    = (match unescape e with
      | some d => A d
      | none => E) := by
  unfold unescape
  split_ifs <;> rfl

/-- One turn of the loop of `parseString`, with the escape table as a
function. -/
theorem parseStringLoop_step (f : Nat) (p : JSONParser) (result : List Nat) :
    parseStringLoop (f + 1) p result =
    if p.pos ≥ p.input.length then .error (newError p "cadena no terminada")
    else if peek p = 0x22 then .ok (encodeRunes result) (advance p).2
    else if peek p = 0x5C then
      match unescape (peek (advance p).2) with
      | some d => parseStringLoop f (advance (advance p).2).2 (result ++ [d])
      | none => .error (newError (advance (advance p).2).2 "escape inválido en string")
    else parseStringLoop f (advance p).2 (result ++ [peek p]) := by
  rw [parseStringLoop_succ, advance_fst, advance_fst]
  have key := unescape_match (peek (advance p).2)
    (fun d => parseStringLoop f (advance (advance p).2).2 (result ++ [d]))
    (.error (newError (advance (advance p).2).2 "escape inválido en string"))
  simp only [] at key
  rw [← key]

/-- The loop equation of `parseString`, with the escape table as a function. -/
theorem strBody_step (p : JSONParser) (result : List Nat) :
    strBody p result =
    if p.pos ≥ p.input.length then .error (newError p "cadena no terminada")
    else if peek p = 0x22 then .ok (encodeRunes result) (advance p).2
    else if peek p = 0x5C then
      match unescape (peek (advance p).2) with
      | some d => strBody (advance (advance p).2).2 (result ++ [d])
      | none => .error (newError (advance (advance p).2).2 "escape inválido en string")
    else strBody (advance p).2 (result ++ [peek p]) := by
  rw [strBody_eq, advance_fst, advance_fst]
  have key := unescape_match (peek (advance p).2)
    (fun d => strBody (advance (advance p).2).2 (result ++ [d]))
    (.error (newError (advance (advance p).2).2 "escape inválido en string"))
  simp only [] at key
  rw [← key]

/-- What a successful run of the loop of `parseString` reads. -/
theorem parseStringLoop_sound (f : Nat) : ∀ (p p' : JSONParser) (res s : List Nat),
    parseStringLoop f p res = .ok s p' →
    ∃ body rs, StrScan body rs ∧ s = encodeRunes (res ++ rs) ∧ Span p p' (body ++ [0x22]) := by
  induction f with
  | zero => intro p p' res s h; cases h
  | succ f ih =>
    intro p p' res s h
    rw [parseStringLoop_step] at h
    split_ifs at h with h1 h2 h3
    · injection h with ha hb
      subst ha hb
      exact ⟨[], [], StrScan.nil, by simp, span_of_peek (by decide) (by decide) h2⟩
    · have sp1 : Span p (advance p).2 [0x5C] := span_of_peek (by decide) (by decide) h3
      cases hu : unescape (peek (advance p).2) with
      | none => rw [hu] at h; cases h
      | some d =>
        rw [hu] at h
        obtain ⟨body, rs, hs1, hs2, hs3⟩ := ih _ _ _ _ h
        have hl := unescape_some_lt hu
        have sp2 : Span (advance p).2 (advance (advance p).2).2 [peek (advance p).2] :=
          span_of_peek hl.1 hl.2 rfl
        refine ⟨0x5C :: peek (advance p).2 :: body, d :: rs,
          StrScan.escape _ d body rs ((unescape_some_iff _ _).mp hu) hs1, by simp [hs2], ?_⟩
        have := (sp1.append sp2).append hs3
        simpa using this
    · obtain ⟨body, rs, hs1, hs2, hs3⟩ := ih _ _ _ _ h
      have hlt : p.pos < p.input.length := by omega
      have sp := span_advance p hlt
      have hpk : peek p = (decodeRuneInString (rest p)).1 := by
        rw [peek_rest, peekOf, if_neg (fun h0 => by
          have := (rest_eq_nil_iff p).mp h0; omega)]
      have hpos : 1 ≤ (decodeRuneInString (rest p)).2 := by
        rw [rest_cons_of_lt p hlt]; exact decode_size_pos _ _
      have hle := decode_size_le (rest p)
      obtain ⟨n, hn⟩ : ∃ n, n = (decodeRuneInString (rest p)).2 := ⟨_, rfl⟩
      obtain ⟨chunk, hchunk⟩ : ∃ chunk, chunk = (rest p).take n := ⟨_, rfl⟩
      rw [← hn] at sp hpos hle
      rw [← hchunk] at sp
      have hlen : chunk.length = n := by rw [hchunk, List.length_take]; omega
      have hrest : rest p = (chunk ++ body) ++ 0x22 :: rest p' := by
        have := (sp.append hs3).2.2
        simpa using this
      have hdec : decodeRuneInString ((chunk ++ body) ++ [0x22]) = decodeRuneInString (rest p) := by
        conv_rhs => rw [hrest]
        exact (decode_append_ascii _ 0x22 _ (by decide)).symm
      have hne : chunk ++ body ≠ [] := by
        intro h0
        have h00 := congrArg List.length h0
        simp only [List.length_append, hlen, List.length_nil] at h00
        omega
      refine ⟨chunk ++ body, peek p :: rs, ?_, by simp [hs2], ?_⟩
      · have key := StrScan.plain (chunk ++ body) rs hne
        rw [hdec, ← hn, ← hpk] at key
        refine key h2 h3 (by rw [List.length_append, hlen]; omega) ?_
        rw [← hlen, List.drop_left]
        exact hs1
      · have := sp.append hs3
        simpa using this

/-- The loop of `parseString` on a scanned body followed by the closing quote. -/
theorem strBody_complete {body rs : List Nat} (hs : StrScan body rs) :
    ∀ (p : JSONParser) (res y : List Nat), rest p = body ++ 0x22 :: y →
    ∃ p', strBody p res = .ok (encodeRunes (res ++ rs)) p' ∧ Span p p' (body ++ [0x22]) := by
  induction hs with
  | nil =>
    intro p res y h
    obtain ⟨h1, h2, h3⟩ := span_byte (p := p) h (by decide)
    have hlt := rest_ne_nil_lt (p := p) (by rw [h]; simp)
    refine ⟨(advance p).2, ?_, by simpa using h2⟩
    rw [strBody_step, if_neg (by omega), if_pos h1]; simp
  | plain body rs hne hq hb hle _ ih =>
    intro p res y h
    have hlt := rest_ne_nil_lt (p := p) (by rw [h]; simp [hne])
    have hdec : decodeRuneInString (rest p) = decodeRuneInString (body ++ [0x22]) := by
      rw [h]; exact decode_append_ascii _ 0x22 _ (by decide)
    have hpk : peek p = (decodeRuneInString (body ++ [0x22])).1 := by
      rw [peek_rest, peekOf, if_neg (by rw [h]; simp [hne]), hdec]
    have sp := span_advance p hlt
    rw [hdec] at sp
    have hr1 : rest (advance p).2
        = body.drop (decodeRuneInString (body ++ [0x22])).2 ++ 0x22 :: y := by
      rw [rest_of_pos (advance_input p) _ (advance_pos p hlt), hdec, h,
        List.drop_append_of_le_length hle]
    obtain ⟨p', hp1, hp2⟩ := ih (advance p).2 (res ++ [peek p]) y hr1
    refine ⟨p', ?_, ?_⟩
    · rw [strBody_step, if_neg (by omega), if_neg (by rw [hpk]; exact hq),
        if_neg (by rw [hpk]; exact hb), hp1, hpk]; simp
    · have := sp.append hp2
      rw [h, List.take_append_of_le_length hle, ← List.append_assoc,
        List.take_append_drop] at this
      exact this
  | escape e d body rs hed _ ih =>
    intro p res y h
    have hu := (unescape_some_iff e d).mpr hed
    have hl := unescape_some_lt hu
    have hlt := rest_ne_nil_lt (p := p) (by rw [h]; simp)
    obtain ⟨a1, a2, a3⟩ := span_byte (p := p) (by simpa using h) (by decide : (0x5C : Nat) < 0x80)
    obtain ⟨b1, b2, b3⟩ := span_byte (p := (advance p).2) a3 hl.1
    obtain ⟨p', hp1, hp2⟩ := ih (advance (advance p).2).2 (res ++ [d]) y b3
    refine ⟨p', ?_, ?_⟩
    · rw [strBody_step, if_neg (by omega), a1, b1, hu]
      simp [hp1]
    · have := (a2.append b2).append hp2
      simpa using this

/-- What a successful `parseString` on an opening quote reads. -/
theorem parseString_sound {p p' : JSONParser} {s : List Nat} (hq : peek p = 0x22)
    (h : parseString p = .ok s p') : ∃ w, StrLit w s ∧ Span p p' w := by
  have sp := span_of_peek (p := p) (by decide) (by decide) hq
  unfold parseString at h
  obtain ⟨body, rs, h1, h2, h3⟩ := parseStringLoop_sound _ _ _ _ _ h
  refine ⟨0x22 :: (body ++ [0x22]), ⟨body, rs, rfl, h1, by simpa using h2⟩, ?_⟩
  have := sp.append h3
  simpa using this

/-- The method `parseString` on a string literal. -/
theorem parseString_complete {p : JSONParser} {w s y : List Nat} (hw : StrLit w s)
    (h : rest p = w ++ y) : ∃ p', parseString p = .ok s p' ∧ Span p p' w := by
  obtain ⟨body, rs, rfl, h1, rfl⟩ := hw
  obtain ⟨a1, a2, a3⟩ := span_byte (p := p) (by simpa using h) (by decide : (0x22 : Nat) < 0x80)
  obtain ⟨p', hp1, hp2⟩ := strBody_complete h1 (advance p).2 [] y (by simpa using a3)
  refine ⟨p', by rw [parseString_eq, hp1]; simp, ?_⟩
  have := a2.append hp2
  simpa using this

/-! ## Number literals -/

theorem allAscii_dropWhile {l : List Nat} (h : AllAscii (l.dropWhile isAsciiDigit)) : AllAscii l := by
  intro b hb
  rw [← List.takeWhile_append_dropWhile isAsciiDigit l] at hb
  rcases List.mem_append.mp hb with hb | hb
  · have := List.mem_takeWhile_imp hb
    simp [isAsciiDigit] at this; omega
  · exact h b hb

theorem allAscii_nil : AllAscii [] := fun _ hb => by cases hb

theorem allAscii_cons {c : Nat} {l : List Nat} (hc : c < 0x80) (h : AllAscii l) :
    AllAscii (c :: l) := by
  intro b hb
  rcases List.mem_cons.mp hb with rfl | hb
  · exact hc
  · exact h b hb

theorem allAscii_append {l1 l2 : List Nat} : AllAscii (l1 ++ l2) ↔ AllAscii l1 ∧ AllAscii l2 := by
  constructor
  · intro h
    exact ⟨fun b hb => h b (List.mem_append.mpr (Or.inl hb)),
      fun b hb => h b (List.mem_append.mpr (Or.inr hb))⟩
  · intro h b hb
    rcases List.mem_append.mp hb with hb | hb
    · exact h.1 b hb
    · exact h.2 b hb

theorem floatExponent_ascii {neg : Bool} {mant : List Nat} {n : Nat} {s : List Nat} {f : Float64}
    (h : floatExponent neg mant n s = some f) : AllAscii s := by
  cases s with
  | nil => exact allAscii_nil
  | cons c t =>
    simp only [floatExponent] at h
    by_cases h1 : c = 0x65 ∨ c = 0x45
    · rw [if_pos h1] at h
      refine allAscii_cons (by omega) ?_
      by_cases hsg : t.head? = some 0x2D ∨ t.head? = some 0x2B
      · simp only [if_pos hsg] at h
        by_cases h2 : List.takeWhile isAsciiDigit t.tail = []
            ∨ List.dropWhile isAsciiDigit t.tail ≠ []
        · rw [if_pos h2] at h; cases h
        · have hd : List.dropWhile isAsciiDigit t.tail = [] := by
            by_contra hne; exact h2 (Or.inr hne)
          have ht1 : AllAscii t.tail := allAscii_dropWhile (by rw [hd]; exact allAscii_nil)
          cases t with
          | nil => exact allAscii_nil
          | cons a t' =>
            simp at hsg
            exact allAscii_cons (by omega) ht1
      · simp only [if_neg hsg] at h
        by_cases h2 : List.takeWhile isAsciiDigit t = [] ∨ List.dropWhile isAsciiDigit t ≠ []
        · rw [if_pos h2] at h; cases h
        · have hd : List.dropWhile isAsciiDigit t = [] := by
            by_contra hne; exact h2 (Or.inr hne)
          exact allAscii_dropWhile (by rw [hd]; exact allAscii_nil)
    · rw [if_neg h1] at h; cases h

theorem floatFraction_ascii {neg : Bool} {ip s : List Nat} {f : Float64}
    (h : floatFraction neg ip s = some f) : AllAscii s := by
  cases s with
  | nil => exact allAscii_nil
  | cons c t =>
    simp only [floatFraction] at h
    split_ifs at h with h1 h2
    · exact allAscii_cons (by omega) (allAscii_dropWhile (floatExponent_ascii h))
    · exact floatExponent_ascii h

theorem floatDigits_ascii {neg : Bool} {s : List Nat} {f : Float64}
    (h : floatDigits neg s = some f) : AllAscii s := by
  simp only [floatDigits] at h
  split_ifs at h
  exact allAscii_dropWhile (floatFraction_ascii h)

/-- A text that `strconvParseFloat` converts consists of ASCII bytes. -/
theorem parseFloat_ascii {w : List Nat} {f : Float64} (h : strconvParseFloat w = some f) :
    AllAscii w := by
  cases w with
  | nil => exact allAscii_nil
  | cons c t =>
    simp only [strconvParseFloat] at h
    split_ifs at h with h1
    · exact allAscii_cons (by omega) (floatDigits_ascii h)
    · exact floatDigits_ascii h

theorem unicodeIsDigit_ascii {b : Nat} (hb : b < 0x80) : unicodeIsDigit b = isAsciiDigit b := by
  simp [unicodeIsDigit, isAsciiDigit, show b ≤ 0xFF by omega]

theorem isAsciiDigit_lt {b : Nat} (h : isAsciiDigit b = true) : b < 0x80 := by
  simp [isAsciiDigit] at h; omega

theorem digitText_unicode {ds : List Nat} (h : DigitText ds) :
    ∀ b ∈ ds, b < 0x80 ∧ unicodeIsDigit b = true := by
  intro b hb
  have := h b hb
  exact ⟨isAsciiDigit_lt this, by rw [unicodeIsDigit_ascii (isAsciiDigit_lt this)]; exact this⟩

/-- What a digit loop of `parseNumber` reads when it starts on a digit. -/
theorem digits_sound (p : JSONParser) (h : unicodeIsDigit (peek p) = true) :
    ∃ ds, PreDigits ds ∧ Span p (advRun unicodeIsDigit p) ds
      ∧ (AllAscii ds → ds.head? = some (peek p)) := by
  obtain ⟨ds, h1, h2⟩ := advWhile_span unicodeIsDigit unicodeIsDigit_zero p.input.length p
  have h0 : peek p ≠ 0 := fun h0 => by rw [h0, unicodeIsDigit_zero] at h; cases h
  have hlt := peek_ne_zero_lt p h0
  have hpos : p.pos < (advRun unicodeIsDigit p).pos := by
    rw [advRun_eq unicodeIsDigit unicodeIsDigit_zero, if_pos h]
    have a1 := advance_pos_lt p hlt
    obtain ⟨_, a2, _⟩ := advWhile_span unicodeIsDigit unicodeIsDigit_zero
      (advance p).2.input.length (advance p).2
    have := a2.pos_mono
    unfold advRun; omega
  have hne : ds ≠ [] := by
    intro h0
    have := h1.2.1
    rw [h0] at this
    unfold advRun at hpos
    simp at this; omega
  refine ⟨ds, ⟨hne, ?_⟩, h1, ?_⟩
  · intro ha b hb
    rw [← unicodeIsDigit_ascii (ha b hb)]
    exact h2 ha b hb
  · intro ha
    cases ds with
    | nil => exact absurd rfl hne
    | cons d ds' =>
      have hr := h1.2.2
      rw [peek_rest, hr]
      simp only [List.cons_append, List.head?_cons]
      rw [peekOf_ascii d _ (ha d (by simp))]

theorem numberFinish_sound {start : Nat} {hd he : Bool} {p p' : JSONParser} {f : Float64}
    (h : numberFinish start hd he p = .ok f p') :
    p' = p ∧ strconvParseFloat (slice p.input start p.pos) = some f
      ∧ (hd = false → he = false → slice p.input start p.pos = formatF0 f) := by
  simp only [numberFinish] at h
  cases hpf : strconvParseFloat (slice p.input start p.pos) with
  | none => rw [hpf] at h; cases h
  | some num =>
    rw [hpf] at h
    simp only at h
    split_ifs at h with hc
    injection h with h1 h2
    subst h1 h2
    refine ⟨rfl, rfl, ?_⟩
    intro hd0 he0
    subst hd0 he0
    simpa using hc

theorem numberFinish_complete {start : Nat} {hd he : Bool} {p : JSONParser} {f : Float64}
    (h1 : strconvParseFloat (slice p.input start p.pos) = some f)
    (h2 : hd = false → he = false → slice p.input start p.pos = formatF0 f) :
    numberFinish start hd he p = .ok f p := by
  simp only [numberFinish, h1]
  rw [if_neg]
  intro hc
  simp only [Bool.and_eq_true, Bool.not_eq_true', bne_iff_ne, ne_eq] at hc
  exact hc.2 (h2 hc.1.1 hc.1.2)

theorem numberExponent_sound {start : Nat} {hd : Bool} {p p' : JSONParser} {f : Float64}
    (h : numberExponent start hd p = .ok f p') :
    ∃ ex, PreExp ex ∧ Span p p' ex ∧ strconvParseFloat (slice p.input start p'.pos) = some f
      ∧ (hd = false → ex = [] → slice p.input start p'.pos = formatF0 f) := by
  simp only [numberExponent] at h
  by_cases he : peek p = 0x65 ∨ peek p = 0x45
  · rw [if_pos he] at h
    have sp1 : Span p (advance p).2 [peek p] :=
      span_of_peek (by rcases he with he | he <;> omega) (by rcases he with he | he <;> omega) rfl
    have key : ∀ (q : JSONParser) (sg : List Nat), Span (advance p).2 q sg →
        (sg = [] ∨ sg = [0x2B] ∨ sg = [0x2D]) →
        (if (!unicodeIsDigit (peek q)) = true then
          Result.error (newError q "se esperaba dígito después del exponente")
        else numberFinish start hd true (digitsLoop q.input.length q)) = .ok f p' →
        ∃ ex, PreExp ex ∧ Span p p' ex
          ∧ strconvParseFloat (slice p.input start p'.pos) = some f
          ∧ (hd = false → ex = [] → slice p.input start p'.pos = formatF0 f) := by
      intro q sg hq hsg hrun
      by_cases hdg : unicodeIsDigit (peek q) = true
      · rw [if_neg (by simp [hdg]), digitsLoop_eq_advRun] at hrun
        obtain ⟨e1, e2, _⟩ := numberFinish_sound hrun
        obtain ⟨ds, d1, d2, _⟩ := digits_sound q hdg
        have hsp : Span p p' (peek p :: (sg ++ ds)) := by
          rw [e1]
          have := (sp1.append hq).append d2
          simpa using this
        have hin : (advRun unicodeIsDigit q).input = p.input := by
          rw [d2.input_same, hq.input_same, sp1.input_same]
        refine ⟨peek p :: (sg ++ ds), Or.inr ⟨peek p, sg, ds, rfl, he, hsg, d1⟩, hsp, ?_, ?_⟩
        · rw [e1, ← hin]; exact e2
        · intro _ h0; cases h0
      · rw [if_pos (by simp [hdg])] at hrun; cases hrun
    by_cases hs : peek (advance p).2 = 0x2B ∨ peek (advance p).2 = 0x2D
    · simp only [if_pos hs] at h
      have sp2 : Span (advance p).2 (advance (advance p).2).2 [peek (advance p).2] :=
        span_of_peek (by rcases hs with hs | hs <;> omega) (by rcases hs with hs | hs <;> omega) rfl
      refine key _ _ sp2 ?_ h
      rcases hs with hs | hs <;> simp [hs]
    · simp only [if_neg hs] at h
      exact key _ [] (Span.refl _) (Or.inl rfl) h
  · rw [if_neg he] at h
    obtain ⟨e1, e2, e3⟩ := numberFinish_sound h
    subst e1
    exact ⟨[], Or.inl rfl, Span.refl _, e2, fun h1 _ => e3 h1 rfl⟩

theorem numberFraction_sound {start : Nat} {p p' : JSONParser} {f : Float64}
    (h : numberFraction start p = .ok f p') :
    ∃ fr ex, PreFrac fr ∧ PreExp ex ∧ Span p p' (fr ++ ex)
      ∧ strconvParseFloat (slice p.input start p'.pos) = some f
      ∧ (fr = [] → ex = [] → slice p.input start p'.pos = formatF0 f) := by
  simp only [numberFraction] at h
  by_cases hdot : peek p = 0x2E
  · rw [if_pos hdot] at h
    have sp1 : Span p (advance p).2 [0x2E] := span_of_peek (by decide) (by decide) hdot
    by_cases hdg : unicodeIsDigit (peek (advance p).2) = true
    · rw [if_neg (by simp [hdg]), digitsLoop_eq_advRun] at h
      obtain ⟨ds, d1, d2, _⟩ := digits_sound (advance p).2 hdg
      obtain ⟨ex, x1, x2, x3, _⟩ := numberExponent_sound h
      have hin : (advRun unicodeIsDigit (advance p).2).input = p.input := by
        rw [d2.input_same, sp1.input_same]
      refine ⟨0x2E :: ds, ex, Or.inr ⟨ds, rfl, d1⟩, x1, ?_, by rw [← hin]; exact x3, ?_⟩
      · have := (sp1.append d2).append x2
        simpa using this
      · intro h0; cases h0
    · rw [if_pos (by simp [hdg])] at h; cases h
  · rw [if_neg hdot] at h
    obtain ⟨ex, x1, x2, x3, x4⟩ := numberExponent_sound h
    exact ⟨[], ex, Or.inl rfl, x1, by simpa using x2, x3, fun _ h2 => x4 rfl h2⟩

theorem preDigits_ascii {ds : List Nat} (h : PreDigits ds) (ha : AllAscii ds) :
    ds ≠ [] ∧ DigitText ds := ⟨h.1, h.2 ha⟩

theorem preFrac_ascii {fr : List Nat} (h : PreFrac fr) (ha : AllAscii fr) : FracPart fr := by
  rcases h with h | ⟨ds, rfl, hd⟩
  · exact Or.inl h
  · have := preDigits_ascii hd (fun b hb => ha b (by simp [hb]))
    exact Or.inr ⟨ds, rfl, this.1, this.2⟩

theorem preExp_ascii {ex : List Nat} (h : PreExp ex) (ha : AllAscii ex) : ExpPart ex := by
  rcases h with h | ⟨e, sg, ds, rfl, he, hsg, hd⟩
  · exact Or.inl h
  · have := preDigits_ascii hd (fun b hb => ha b (by simp [hb]))
    exact Or.inr ⟨e, sg, ds, rfl, he, hsg, this.1, this.2⟩

/-- What a successful `parseNumber` reads: a number literal. -/
theorem parseNumber_sound {p p' : JSONParser} {f : Float64} (h : parseNumber p = .ok f p') :
    ∃ w, NumLit w f ∧ Span p p' w := by
  simp only [parseNumber] at h
  -- the sign
  obtain ⟨sg, p1, hp1, hsg, hsp1⟩ : ∃ sg p1, p1 = (if peek p = 0x2D then (advance p).2 else p)
      ∧ (sg = [] ∨ sg = [0x2D]) ∧ Span p p1 sg := by
    by_cases hm : peek p = 0x2D
    · exact ⟨[0x2D], _, rfl, Or.inr rfl, by
        rw [if_pos hm]; exact span_of_peek (by decide) (by decide) hm⟩
    · exact ⟨[], _, rfl, Or.inl rfl, by rw [if_neg hm]; exact Span.refl p⟩
  rw [← hp1] at h
  -- the integer part and the rest
  have key : ∀ (q : JSONParser) (ip : List Nat), Span p1 q ip →
      (ip = [0x30] ∨ (ip ≠ [] ∧ (AllAscii ip → ip.head? ≠ some 0x30 ∧ DigitText ip))) →
      numberFraction p.pos q = .ok f p' → ∃ w, NumLit w f ∧ Span p p' w := by
    intro q ip hq hip hrun
    obtain ⟨fr, ex, f1, f2, f3, f4, f5⟩ := numberFraction_sound hrun
    have hsp : Span p p' (sg ++ ip ++ fr ++ ex) := by
      have := (hsp1.append hq).append f3
      simpa [List.append_assoc] using this
    have hin : q.input = p.input := by rw [hq.input_same, hsp1.input_same]
    rw [hin, slice_of_span hsp] at f4 f5
    have ha := parseFloat_ascii f4
    have ha1 : AllAscii ip := fun b hb => ha b (by simp [hb])
    have ha2 : AllAscii fr := fun b hb => ha b (by simp [hb])
    have ha3 : AllAscii ex := fun b hb => ha b (by simp [hb])
    refine ⟨sg ++ ip ++ fr ++ ex, ⟨sg, ip, fr, ex, rfl, hsg, ?_, preFrac_ascii f1 ha2,
      preExp_ascii f2 ha3, f4, f5⟩, hsp⟩
    rcases hip with hip | ⟨hne, hip⟩
    · exact Or.inl hip
    · exact Or.inr ⟨hne, (hip ha1).1, (hip ha1).2⟩
  by_cases hz : peek p1 = 0x30
  · rw [if_pos hz] at h
    by_cases hdg : unicodeIsDigit (peek (advance p1).2) = true
    · rw [if_pos hdg] at h; cases h
    · rw [if_neg hdg] at h
      exact key _ [0x30] (span_of_peek (by decide) (by decide) hz) (Or.inl rfl) h
  · rw [if_neg hz] at h
    by_cases hdg : unicodeIsDigit (peek p1) = true
    · rw [if_pos hdg, digitsLoop_eq_advRun] at h
      obtain ⟨ds, d1, d2, d3⟩ := digits_sound p1 hdg
      refine key _ ds d2 (Or.inr ⟨d1.1, fun ha => ⟨?_, d1.2 ha⟩⟩) h
      rw [d3 ha]
      intro hh
      exact hz (Option.some.inj hh)
    · rw [if_neg hdg] at h; cases h

theorem isNumberStop_iff (r : Nat) : isNumberStop r = true ↔
    unicodeIsDigit r = false ∧ r ≠ 0x2E ∧ r ≠ 0x65 ∧ r ≠ 0x45 := by
  simp [isNumberStop, and_assoc]

/-- A digit loop of `parseNumber` over an explicit text of ASCII digits. -/
theorem digits_complete {p : JSONParser} {ds y : List Nat} (h : rest p = ds ++ y)
    (hd : DigitText ds) (hs : unicodeIsDigit (peekOf y) = false) :
    Span p (advRun unicodeIsDigit p) ds ∧ rest (advRun unicodeIsDigit p) = y :=
  advRun_run unicodeIsDigit unicodeIsDigit_zero ds p y h (digitText_unicode hd) hs

theorem digitText_head {ds : List Nat} (hne : ds ≠ []) (hd : DigitText ds) (y : List Nat) :
    unicodeIsDigit (peekOf (ds ++ y)) = true ∧ peekOf (ds ++ y) ≠ 0x2B
      ∧ peekOf (ds ++ y) ≠ 0x2D ∧ ds.head? = some (peekOf (ds ++ y)) := by
  cases ds with
  | nil => exact absurd rfl hne
  | cons d ds' =>
    have h1 := digitText_unicode hd d (by simp)
    have h2 : isAsciiDigit d = true := hd d (by simp)
    simp only [List.cons_append]
    rw [peekOf_ascii d _ h1.1]
    simp [isAsciiDigit] at h2
    exact ⟨h1.2, by omega, by omega, rfl⟩

/-- The exponent block of `parseNumber` on an exponent of the grammar. -/
theorem numberExponent_complete {start : Nat} {hd : Bool} {p : JSONParser} {ex y : List Nat}
    (hex : ExpPart ex) (h : rest p = ex ++ y) (hs : isNumberStop (peekOf y) = true) :
    ∃ p', Span p p' ex ∧ rest p' = y
      ∧ numberExponent start hd p = numberFinish start hd (decide (ex ≠ [])) p' := by
  obtain ⟨s1, s2, s3, s4⟩ := (isNumberStop_iff _).mp hs
  rcases hex with rfl | ⟨e, sg, ds, rfl, he, hsg, hne, hdt⟩
  · refine ⟨p, Span.refl p, by simpa using h, ?_⟩
    have hpk : peek p = peekOf y := by rw [peek_rest, h]; rfl
    simp only [numberExponent]
    rw [if_neg (by rw [hpk]; omega)]
    simp
  · have hlt : e < 0x80 := by rcases he with he | he <;> omega
    obtain ⟨a1, a2, a3⟩ := span_byte (p := p) (by simpa using h) hlt
    have hdh := digitText_head hne hdt y
    have key : ∀ q, Span (advance p).2 q sg → rest q = ds ++ y →
        (if (!unicodeIsDigit (peek q)) = true then
          Result.error (newError q "se esperaba dígito después del exponente")
        else numberFinish start hd true (digitsLoop q.input.length q))
        = numberFinish start hd true (advRun unicodeIsDigit q)
        ∧ Span p (advRun unicodeIsDigit q) (e :: (sg ++ ds))
        ∧ rest (advRun unicodeIsDigit q) = y := by
      intro q hq hr
      obtain ⟨d1, d2⟩ := digits_complete hr hdt s1
      refine ⟨?_, ?_, d2⟩
      · rw [if_neg (by rw [peek_rest, hr]; simp [hdh.1]), digitsLoop_eq_advRun]
      · have := (a2.append hq).append d1
        simpa using this
    simp only [numberExponent]
    rw [if_pos (by rw [a1]; exact he)]
    rcases hsg with rfl | rfl | rfl
    · have hpk1 : peek (advance p).2 = peekOf (ds ++ y) := by
        rw [peek_rest, a3]; rfl
      simp only [if_neg (show ¬ (peek (advance p).2 = 0x2B ∨ peek (advance p).2 = 0x2D) by
        rw [hpk1]; exact fun hc => hc.elim hdh.2.1 hdh.2.2.1)]
      obtain ⟨k1, k2, k3⟩ := key (advance p).2 (Span.refl _) (by simpa using a3)
      exact ⟨_, k2, k3, by rw [k1]; simp⟩
    · obtain ⟨b1, b2, b3⟩ := span_byte (p := (advance p).2) (by simpa using a3)
        (by decide : (0x2B : Nat) < 0x80)
      simp only [if_pos (show peek (advance p).2 = 0x2B ∨ peek (advance p).2 = 0x2D from
        Or.inl b1)]
      obtain ⟨k1, k2, k3⟩ := key (advance (advance p).2).2 b2 b3
      exact ⟨_, k2, k3, by rw [k1]; simp⟩
    · obtain ⟨b1, b2, b3⟩ := span_byte (p := (advance p).2) (by simpa using a3)
        (by decide : (0x2D : Nat) < 0x80)
      simp only [if_pos (show peek (advance p).2 = 0x2B ∨ peek (advance p).2 = 0x2D from
        Or.inr b1)]
      obtain ⟨k1, k2, k3⟩ := key (advance (advance p).2).2 b2 b3
      exact ⟨_, k2, k3, by rw [k1]; simp⟩

theorem expPart_peek {ex : List Nat} (hex : ExpPart ex) {y : List Nat}
    (hs : isNumberStop (peekOf y) = true) :
    unicodeIsDigit (peekOf (ex ++ y)) = false ∧ peekOf (ex ++ y) ≠ 0x2E := by
  obtain ⟨s1, s2, s3, s4⟩ := (isNumberStop_iff _).mp hs
  rcases hex with rfl | ⟨e, sg, ds, rfl, he, _, _, _⟩
  · exact ⟨by simpa using s1, by simpa using s2⟩
  · have hlt : e < 0x80 := by rcases he with he | he <;> omega
    simp only [List.cons_append]
    rw [peekOf_ascii e _ hlt]
    rcases he with rfl | rfl <;> exact ⟨by decide, by decide⟩

theorem fracPart_peek {fr ex : List Nat} (hfr : FracPart fr) (hex : ExpPart ex) {y : List Nat}
    (hs : isNumberStop (peekOf y) = true) :
    unicodeIsDigit (peekOf (fr ++ ex ++ y)) = false := by
  rcases hfr with rfl | ⟨ds, rfl, _, _⟩
  · simpa using (expPart_peek hex hs).1
  · simp only [List.cons_append]
    rw [peekOf_ascii 0x2E _ (by decide)]
    decide

/-- The fraction block of `parseNumber` on a fraction and exponent of the
grammar. -/
theorem numberFraction_complete {start : Nat} {p : JSONParser} {fr ex y : List Nat}
    (hfr : FracPart fr) (hex : ExpPart ex) (h : rest p = fr ++ ex ++ y)
    (hs : isNumberStop (peekOf y) = true) :
    ∃ p', Span p p' (fr ++ ex) ∧ rest p' = y
      ∧ numberFraction start p
        = numberFinish start (decide (fr ≠ [])) (decide (ex ≠ [])) p' := by
  rcases hfr with rfl | ⟨ds, rfl, hne, hdt⟩
  · obtain ⟨p', e1, e2, e3⟩ := @numberExponent_complete start false _ _ _ hex
      (by simpa using h) hs
    refine ⟨p', by simpa using e1, e2, ?_⟩
    have hpk : peek p ≠ 0x2E := by
      rw [peek_rest, h]; simpa using (expPart_peek hex hs).2
    simp only [numberFraction]
    rw [if_neg hpk, e3]; simp
  · obtain ⟨a1, a2, a3⟩ := span_byte (p := p) (by simpa using h) (by decide : (0x2E : Nat) < 0x80)
    have hdh := digitText_head hne hdt (ex ++ y)
    obtain ⟨d1, d2⟩ := digits_complete a3 hdt (expPart_peek hex hs).1
    obtain ⟨p', e1, e2, e3⟩ := @numberExponent_complete start true _ _ _ hex d2 hs
    refine ⟨p', ?_, e2, ?_⟩
    · have := (a2.append d1).append e1
      simpa using this
    · simp only [numberFraction]
      rw [if_pos a1, if_neg (by rw [peek_rest, a3]; simp [hdh.1]), digitsLoop_eq_advRun, e3]
      simp

/-- The method `parseNumber` on a number literal followed by a character that
ends it. -/
theorem parseNumber_complete {p : JSONParser} {w y : List Nat} {f : Float64} (hw : NumLit w f)
    (h : rest p = w ++ y) (hs : isNumberStop (peekOf y) = true) :
    ∃ p', parseNumber p = .ok f p' ∧ Span p p' w := by
  obtain ⟨sg, ip, fr, ex, rfl, hsg, hip, hfr, hex, hpf, hint⟩ := hw
  have hnd := fracPart_peek hfr hex hs
  -- the part after the sign
  have key : ∀ p1, Span p p1 sg → rest p1 = ip ++ (fr ++ ex ++ y) →
      ∃ p', (if peek p1 = 0x30 then
              if unicodeIsDigit (peek (advance p1).2) = true then
                Result.error (newError (advance p1).2 "número inválido con cero inicial")
              else numberFraction p.pos (advance p1).2
            else if unicodeIsDigit (peek p1) = true then
              numberFraction p.pos (digitsLoop p1.input.length p1)
            else Result.error (newError p1 "número mal formado")) = .ok f p'
        ∧ Span p p' (sg ++ ip ++ fr ++ ex) := by
    intro p1 hp1 hr1
    have fin : ∀ q, Span p1 q ip → rest q = fr ++ ex ++ y →
        ∃ p', numberFraction p.pos q = .ok f p' ∧ Span p p' (sg ++ ip ++ fr ++ ex) := by
      intro q hq hrq
      obtain ⟨p', f1, f2, f3⟩ := @numberFraction_complete p.pos _ _ _ _ hfr hex hrq hs
      have hsp : Span p p' (sg ++ ip ++ fr ++ ex) := by
        have := (hp1.append hq).append f1
        simpa [List.append_assoc] using this
      refine ⟨p', ?_, hsp⟩
      rw [f3]
      have hsl := slice_of_span hsp
      rw [← hsp.input_same] at hsl
      refine numberFinish_complete (by rw [hsl]; exact hpf) ?_
      intro h1 h2
      rw [hsl]
      exact hint (by simpa using h1) (by simpa using h2)
    rcases hip with rfl | ⟨hne, hh, hdt⟩
    · obtain ⟨a1, a2, a3⟩ := span_byte (p := p1) (t := fr ++ ex ++ y) (by simpa using hr1)
        (by decide : (0x30 : Nat) < 0x80)
      obtain ⟨p', g1, g2⟩ := fin _ a2 a3
      refine ⟨p', ?_, g2⟩
      rw [if_pos a1, if_neg (by rw [peek_rest, a3, hnd]; simp), g1]
    · have hdh := digitText_head hne hdt (fr ++ ex ++ y)
      obtain ⟨d1, d2⟩ := digits_complete hr1 hdt hnd
      obtain ⟨p', g1, g2⟩ := fin _ d1 d2
      have hpk : peek p1 = peekOf (ip ++ (fr ++ ex ++ y)) := by rw [peek_rest, hr1]
      refine ⟨p', ?_, g2⟩
      rw [if_neg (by rw [hpk]; intro hc; rw [hc] at hdh; exact hh hdh.2.2.2),
        if_pos (by rw [hpk]; exact hdh.1), digitsLoop_eq_advRun, g1]
  simp only [parseNumber]
  rcases hsg with rfl | rfl
  · have hpk : peek p ≠ 0x2D := by
      rw [peek_rest, h]
      rcases hip with rfl | ⟨hne, hh, hdt⟩
      · simp [peekOf_ascii]
      · have := digitText_head hne hdt (fr ++ ex ++ y)
        simpa [List.append_assoc] using this.2.2.1
    rw [if_neg hpk]
    obtain ⟨p', k1, k2⟩ := key p (Span.refl p) (by simpa [List.append_assoc] using h)
    exact ⟨p', k1, k2⟩
  · obtain ⟨a1, a2, a3⟩ := span_byte (p := p) (by simpa [List.append_assoc] using h)
      (by decide : (0x2D : Nat) < 0x80)
    rw [if_pos a1]
    obtain ⟨p', k1, k2⟩ := key (advance p).2 a2 (by simpa [List.append_assoc] using a3)
    exact ⟨p', k1, k2⟩

/-! ## Arrays and objects -/

theorem spaces_nil : Spaces [] := fun _ hb => by cases hb

theorem spaces_append {a b : List Nat} (ha : Spaces a) (hb : Spaces b) : Spaces (a ++ b) := by
  intro x hx
  rcases List.mem_append.mp hx with hx | hx
  · exact ha x hx
  · exact hb x hx

theorem isNumberStop_space {b : Nat} (h : isSpace b = true) : isNumberStop b = true := by
  simp [isSpace] at h
  rcases h with ((rfl | rfl) | rfl) | rfl <;> decide

/-- A number may be followed by whitespace and then by a character that ends
it. -/
theorem look_spaces {v : JSONValue} {ws y : List Nat} (hw : Spaces ws)
    (hy : isNumberStop (peekOf y) = true) : Look v (ws ++ y) := by
  intro _
  cases ws with
  | nil => simpa using hy
  | cons b t =>
    have hb := hw b (by simp)
    simp only [List.cons_append]
    rw [peekOf_ascii b _ (isSpace_ascii b hb)]
    exact isNumberStop_space hb

theorem look_byte {v : JSONValue} {b : Nat} {y : List Nat} (hb : b < 0x80)
    (hs : isNumberStop b = true) : Look v (b :: y) := by
  intro _
  rw [peekOf_ascii b _ hb]; exact hs

theorem parseArrayLoop_succ (pv : JSONParser → Result JSONValue) (k : Nat) (p : JSONParser)
    (arr : List JSONValue) :
    parseArrayLoop pv (k + 1) p arr =
    match pv (skipWhitespace p) with
    | .outOfFuel => .outOfFuel
    | .error e => .error e
    | .ok val p2 => arrayTail pv k (skipWhitespace p2) (arr ++ [val]) := rfl

theorem arrayTail_comma {pv : JSONParser → Result JSONValue} {k : Nat} {q : JSONParser}
    {arr : List JSONValue} (h : peek q = 0x2C) :
    arrayTail pv k q arr = parseArrayLoop pv k (advance q).2 arr := by
  simp only [arrayTail]
  rw [if_neg (by rw [h]; decide), if_neg (by rw [h]; decide)]

theorem arrayTail_close {pv : JSONParser → Result JSONValue} {k : Nat} {q : JSONParser}
    {arr : List JSONValue} (h : peek q = 0x5D) :
    arrayTail pv k q arr = .ok arr (advance q).2 := by
  simp only [arrayTail]
  rw [if_pos h]

theorem parseArrayLoop_skip (pv : JSONParser → Result JSONValue) (k : Nat) (p : JSONParser)
    (arr : List JSONValue) :
    parseArrayLoop pv k (skipWhitespace p) arr = parseArrayLoop pv k p arr := by
  cases k with
  | zero => rfl
  | succ k => rw [parseArrayLoop_succ, parseArrayLoop_succ, skipWhitespace_idem]

/-- What a successful run of the loop of `parseArray` reads. -/
theorem parseArrayLoop_sound (V : List Nat → JSONValue → Prop)
    (pv : JSONParser → Result JSONValue)
    (hpv : ∀ p v p', pv p = .ok v p' → ∃ ws w, Spaces ws ∧ V w v ∧ Span p p' (ws ++ w))
    (k : Nat) : ∀ (p p' : JSONParser) (acc xs : List JSONValue),
    parseArrayLoop pv k p acc = .ok xs p' →
    ∃ body ys, Elems V body ys ∧ xs = acc ++ ys ∧ Span p p' (body ++ [0x5D]) := by
  induction k with
  | zero => intro p p' acc xs h; cases h
  | succ k ih =>
    intro p p' acc xs h
    rw [parseArrayLoop_succ] at h
    obtain ⟨ws0, w0, s0⟩ := skipWhitespace_span p
    cases hv : pv (skipWhitespace p) with
    | outOfFuel => rw [hv] at h; cases h
    | error e => rw [hv] at h; cases h
    | ok val p2 =>
      rw [hv] at h
      simp only [arrayTail] at h
      obtain ⟨ws1, w, w1, hV, s1⟩ := hpv _ _ _ hv
      obtain ⟨ws2, w2, s2⟩ := skipWhitespace_span p2
      by_cases hc : peek (skipWhitespace p2) = 0x5D
      · rw [if_pos hc] at h
        injection h with h1 h2
        subst h1 h2
        have s3 := span_of_peek (by decide) (by decide) hc
        refine ⟨(ws0 ++ ws1) ++ w ++ ws2, [val],
          Elems.last _ _ _ _ (spaces_append w0 w1) hV w2, rfl, ?_⟩
        have := ((s0.append s1).append s2).append s3
        simpa [List.append_assoc] using this
      · rw [if_neg hc] at h
        by_cases hm : peek (skipWhitespace p2) = 0x2C
        · rw [if_neg (by simpa using hm)] at h
          obtain ⟨body, ys, e1, e2, e3⟩ := ih _ _ _ _ h
          have s3 := span_of_peek (by decide) (by decide) hm
          refine ⟨(ws0 ++ ws1) ++ w ++ ws2 ++ 0x2C :: body, val :: ys,
            Elems.cons _ _ _ _ _ _ (spaces_append w0 w1) hV w2 e1, by simp [e2], ?_⟩
          have := (((s0.append s1).append s2).append s3).append e3
          simpa [List.append_assoc] using this
        · rw [if_pos (by simpa using hm)] at h; cases h

/-- The loop of `parseArray` over the text of the elements, up to the decision
on the character after the last element. -/
theorem parseArrayLoop_complete (V : List Nat → JSONValue → Prop)
    (pv : JSONParser → Result JSONValue) (B : Nat)
    (hskip : ∀ p, pv (skipWhitespace p) = pv p)
    (hpv : ∀ e x, V e x → e.length ≤ B → ∀ p ws y, Spaces ws → rest p = ws ++ e ++ y →
      Look x y → ∃ p', pv p = .ok x p' ∧ Span p p' (ws ++ e))
    {body : List Nat} {xs : List JSONValue} (he : Elems V body xs) :
    ∀ (p : JSONParser) (acc : List JSONValue) (y : List Nat) (j : Nat), body.length ≤ B →
    rest p = body ++ y → isSpace (peekOf y) = false → isNumberStop (peekOf y) = true →
    ∃ q, Span p q body ∧ rest q = y
      ∧ parseArrayLoop pv (xs.length + j) p acc = arrayTail pv j q (acc ++ xs) := by
  induction he with
  | last ws1 e ws2 x h1 hV h2 =>
    intro p acc y j hB hr hs hn
    obtain ⟨p2, r1, r2⟩ := hpv e x hV (by simp at hB; omega) p ws1 (ws2 ++ y) h1
      (by simpa [List.append_assoc] using hr) (look_spaces h2 hn)
    have hr2 : rest p2 = ws2 ++ y := r2.rest_eq (by simpa [List.append_assoc] using hr)
    obtain ⟨t1, t2⟩ := skipWhitespace_spaces hr2 h2 hs
    refine ⟨skipWhitespace p2, by simpa using r2.append t1, t2, ?_⟩
    rw [show [x].length + j = j + 1 by simp; omega, parseArrayLoop_succ, hskip, r1]
  | cons ws1 e ws2 more x xs h1 hV h2 _ ih =>
    intro p acc y j hB hr hs hn
    obtain ⟨p2, r1, r2⟩ := hpv e x hV (by simp at hB; omega) p ws1 (ws2 ++ 0x2C :: (more ++ y)) h1
      (by simpa [List.append_assoc] using hr)
      (look_spaces h2 (by rw [peekOf_ascii _ _ (by decide)]; decide))
    have hr2 : rest p2 = ws2 ++ 0x2C :: (more ++ y) :=
      r2.rest_eq (by simpa [List.append_assoc] using hr)
    obtain ⟨t1, t2⟩ := skipWhitespace_spaces hr2 h2
      (by rw [peekOf_ascii _ _ (by decide)]; decide)
    obtain ⟨c1, c2, c3⟩ := span_byte (p := skipWhitespace p2) t2 (by decide)
    obtain ⟨q, q1, q2, q3⟩ := ih (advance (skipWhitespace p2)).2 (acc ++ [x]) y j
      (by simp at hB ⊢; omega) c3 hs hn
    refine ⟨q, ?_, q2, ?_⟩
    · have := ((r2.append t1).append c2).append q1
      simpa [List.append_assoc] using this
    · rw [show (x :: xs).length + j = (xs.length + j) + 1 by simp; omega, parseArrayLoop_succ,
        hskip, r1]
      simp only []
      rw [arrayTail_comma c1, q3]
      simp

theorem parseObjectLoop_succ (pv : JSONParser → Result JSONValue) (k : Nat) (p : JSONParser)
    (obj : List (List Nat × JSONValue)) :
    parseObjectLoop pv (k + 1) p obj =
    if peek (skipWhitespace p) ≠ 0x22 then
      .error (newError (skipWhitespace p) "se esperaba una clave string")
    else
      match parseString (skipWhitespace p) with
      | .outOfFuel => .outOfFuel
      | .error e => .error e
      | .ok key p2 =>
        if peek (skipWhitespace p2) ≠ 0x3A then
          .error (newError (skipWhitespace p2) "se esperaba \x27:\x27 después de la clave")
        else
          match pv (skipWhitespace (advance (skipWhitespace p2)).2) with
          | .outOfFuel => .outOfFuel
          | .error e => .error e
          | .ok value p5 => objectTail pv k (skipWhitespace p5) (mapInsert obj key value) := rfl

theorem objectTail_comma {pv : JSONParser → Result JSONValue} {k : Nat} {q : JSONParser}
    {obj : List (List Nat × JSONValue)} (h : peek q = 0x2C) :
    objectTail pv k q obj = parseObjectLoop pv k (advance q).2 obj := by
  simp only [objectTail]
  rw [if_neg (by rw [h]; decide), if_neg (by rw [h]; decide)]

theorem objectTail_close {pv : JSONParser → Result JSONValue} {k : Nat} {q : JSONParser}
    {obj : List (List Nat × JSONValue)} (h : peek q = 0x7D) :
    objectTail pv k q obj = .ok obj (advance q).2 := by
  simp only [objectTail]
  rw [if_pos h]

theorem parseObjectLoop_skip (pv : JSONParser → Result JSONValue) (k : Nat) (p : JSONParser)
    (obj : List (List Nat × JSONValue)) :
    parseObjectLoop pv k (skipWhitespace p) obj = parseObjectLoop pv k p obj := by
  cases k with
  | zero => rfl
  | succ k => rw [parseObjectLoop_succ, parseObjectLoop_succ, skipWhitespace_idem]

theorem insertAll_cons (m : List (List Nat × JSONValue)) (kv : List Nat × JSONValue)
    (kvs : List (List Nat × JSONValue)) :
    insertAll m (kv :: kvs) = insertAll (mapInsert m kv.1 kv.2) kvs := rfl

/-- What a successful run of the loop of `parseObject` reads. -/
theorem parseObjectLoop_sound (V : List Nat → JSONValue → Prop)
    (pv : JSONParser → Result JSONValue)
    (hpv : ∀ p v p', pv p = .ok v p' → ∃ ws w, Spaces ws ∧ V w v ∧ Span p p' (ws ++ w))
    (k : Nat) : ∀ (p p' : JSONParser) (obj m : List (List Nat × JSONValue)),
    parseObjectLoop pv k p obj = .ok m p' →
    ∃ body kvs, Members V body kvs ∧ m = insertAll obj kvs ∧ Span p p' (body ++ [0x7D]) := by
  induction k with
  | zero => intro p p' obj m h; cases h
  | succ k ih =>
    intro p p' obj m h
    rw [parseObjectLoop_succ] at h
    obtain ⟨ws1, w1, s1⟩ := skipWhitespace_span p
    by_cases hq : peek (skipWhitespace p) = 0x22
    · rw [if_neg (by simpa using hq)] at h
      cases hk : parseString (skipWhitespace p) with
      | outOfFuel => rw [hk] at h; cases h
      | error e => rw [hk] at h; cases h
      | ok key p2 =>
        rw [hk] at h
        simp only at h
        obtain ⟨kt, k1, k2⟩ := parseString_sound hq hk
        obtain ⟨ws2, w2, s2⟩ := skipWhitespace_span p2
        by_cases hc : peek (skipWhitespace p2) = 0x3A
        · rw [if_neg (by simpa using hc)] at h
          have s3 := span_of_peek (p := skipWhitespace p2) (by decide) (by decide) hc
          obtain ⟨ws3, w3, s4⟩ := skipWhitespace_span (advance (skipWhitespace p2)).2
          cases hv : pv (skipWhitespace (advance (skipWhitespace p2)).2) with
          | outOfFuel => rw [hv] at h; cases h
          | error e => rw [hv] at h; cases h
          | ok val p5 =>
            rw [hv] at h
            simp only [objectTail] at h
            obtain ⟨ws3', e, w3', hV, s5⟩ := hpv _ _ _ hv
            obtain ⟨ws4, w4, s6⟩ := skipWhitespace_span p5
            have sAll := ((((s1.append k2).append s2).append s3).append s4).append (s5.append s6)
            by_cases hcl : peek (skipWhitespace p5) = 0x7D
            · rw [if_pos hcl] at h
              injection h with h1 h2
              subst h1 h2
              have s7 := span_of_peek (by decide) (by decide) hcl
              refine ⟨ws1 ++ kt ++ ws2 ++ 0x3A :: ((ws3 ++ ws3') ++ e ++ ws4), [(key, val)],
                Members.last _ _ _ _ _ _ _ _ w1 k1 w2 (spaces_append w3 w3') hV w4, rfl, ?_⟩
              have := sAll.append s7
              simpa [List.append_assoc] using this
            · rw [if_neg hcl] at h
              by_cases hm : peek (skipWhitespace p5) = 0x2C
              · rw [if_neg (by simpa using hm)] at h
                obtain ⟨body, kvs, e1, e2, e3⟩ := ih _ _ _ _ h
                have s7 := span_of_peek (by decide) (by decide) hm
                refine ⟨ws1 ++ kt ++ ws2 ++ 0x3A :: ((ws3 ++ ws3') ++ e ++ ws4 ++ 0x2C :: body),
                  (key, val) :: kvs,
                  Members.cons _ _ _ _ _ _ _ _ _ _ w1 k1 w2 (spaces_append w3 w3') hV w4 e1,
                  by rw [e2]; rfl, ?_⟩
                have := (sAll.append s7).append e3
                simpa [List.append_assoc] using this
              · rw [if_pos (by simpa using hm)] at h; cases h
        · rw [if_pos (by simpa using hc)] at h; cases h
    · rw [if_pos (by simpa using hq)] at h; cases h

/-- One member of an object, from its text: the key literal, the colon and the
value, up to the whitespace after the value. -/
theorem member_complete (V : List Nat → JSONValue → Prop) (pv : JSONParser → Result JSONValue)
    (B : Nat) (hskip : ∀ p, pv (skipWhitespace p) = pv p)
    (hpv : ∀ e x, V e x → e.length ≤ B → ∀ p ws y, Spaces ws → rest p = ws ++ e ++ y →
      Look x y → ∃ p', pv p = .ok x p' ∧ Span p p' (ws ++ e))
    {ws1 kt ws2 ws3 e ws4 key : List Nat} {x : JSONValue} (h1 : Spaces ws1) (hk : StrLit kt key)
    (h2 : Spaces ws2) (h3 : Spaces ws3) (hV : V e x) (hB : e.length ≤ B) (h4 : Spaces ws4)
    (p : JSONParser) (obj : List (List Nat × JSONValue)) (y : List Nat) (k : Nat)
    (hr : rest p = ws1 ++ kt ++ ws2 ++ 0x3A :: (ws3 ++ e ++ ws4) ++ y)
    (hs : isSpace (peekOf y) = false) (hn : isNumberStop (peekOf y) = true) :
    ∃ q, Span p q (ws1 ++ kt ++ ws2 ++ 0x3A :: (ws3 ++ e ++ ws4)) ∧ rest q = y
      ∧ parseObjectLoop pv (k + 1) p obj = objectTail pv k q (mapInsert obj key x) := by
  obtain ⟨kb, rs, rfl, _, _⟩ := id hk
  have hr1 : rest p = ws1 ++ (0x22 :: (kb ++ [0x22]) ++ (ws2 ++ 0x3A :: (ws3 ++ e ++ ws4 ++ y))) := by
    simpa [List.append_assoc] using hr
  obtain ⟨a1, a2⟩ := skipWhitespace_spaces hr1 h1
    (by simp only [List.cons_append]; rw [peekOf_ascii _ _ (by decide)]; decide)
  have hq : peek (skipWhitespace p) = 0x22 := by
    rw [peek_rest, a2]; simp only [List.cons_append]; exact peekOf_ascii _ _ (by decide)
  obtain ⟨p2, b1, b2⟩ := parseString_complete hk a2
  have hr2 := b2.rest_eq a2
  obtain ⟨c1, c2⟩ := skipWhitespace_spaces hr2 h2
    (by rw [peekOf_ascii _ _ (by decide)]; decide)
  obtain ⟨d1, d2, d3⟩ := span_byte (p := skipWhitespace p2) c2 (by decide)
  obtain ⟨p5, e1, e2⟩ := hpv e x hV hB (advance (skipWhitespace p2)).2 ws3 (ws4 ++ y) h3
    (by simpa [List.append_assoc] using d3) (look_spaces h4 hn)
  have hr5 : rest p5 = ws4 ++ y := e2.rest_eq (by simpa [List.append_assoc] using d3)
  obtain ⟨f1, f2⟩ := skipWhitespace_spaces hr5 h4 hs
  refine ⟨skipWhitespace p5, ?_, f2, ?_⟩
  · have := ((((a1.append b2).append c1).append d2).append e2).append f1
    simpa [List.append_assoc] using this
  · rw [parseObjectLoop_succ, if_neg (by simpa using hq), b1]
    simp only []
    rw [if_neg (by simpa using d1), hskip, e1]

/-- The loop of `parseObject` over the text of the members, up to the decision
on the character after the last member. -/
theorem parseObjectLoop_complete (V : List Nat → JSONValue → Prop)
    (pv : JSONParser → Result JSONValue) (B : Nat)
    (hskip : ∀ p, pv (skipWhitespace p) = pv p)
    (hpv : ∀ e x, V e x → e.length ≤ B → ∀ p ws y, Spaces ws → rest p = ws ++ e ++ y →
      Look x y → ∃ p', pv p = .ok x p' ∧ Span p p' (ws ++ e))
    {body : List Nat} {kvs : List (List Nat × JSONValue)} (he : Members V body kvs) :
    ∀ (p : JSONParser) (obj : List (List Nat × JSONValue)) (y : List Nat) (j : Nat),
    body.length ≤ B →
    rest p = body ++ y → isSpace (peekOf y) = false → isNumberStop (peekOf y) = true →
    ∃ q, Span p q body ∧ rest q = y
      ∧ parseObjectLoop pv (kvs.length + j) p obj = objectTail pv j q (insertAll obj kvs) := by
  induction he with
  | last ws1 kt ws2 ws3 e ws4 key x h1 hk h2 h3 hV h4 =>
    intro p obj y j hB hr hs hn
    obtain ⟨q, q1, q2, q3⟩ := member_complete V pv B hskip hpv h1 hk h2 h3 hV
      (by simp at hB; omega) h4 p obj y j hr hs hn
    exact ⟨q, q1, q2, by rw [show [(key, x)].length + j = j + 1 by simp; omega, q3]; rfl⟩
  | cons ws1 kt ws2 ws3 e ws4 more key x kvs h1 hk h2 h3 hV h4 _ ih =>
    intro p obj y j hB hr hs hn
    obtain ⟨q, q1, q2, q3⟩ := member_complete V pv B hskip hpv h1 hk h2 h3 hV
      (by simp at hB; omega) h4 p obj (0x2C :: (more ++ y)) (kvs.length + j)
      (by simpa [List.append_assoc] using hr)
      (by rw [peekOf_ascii _ _ (by decide)]; decide)
      (by rw [peekOf_ascii _ _ (by decide)]; decide)
    obtain ⟨c1, c2, c3⟩ := span_byte (p := q) q2 (by decide)
    obtain ⟨q', r1, r2, r3⟩ := ih (advance q).2 (mapInsert obj key x) y j
      (by simp at hB ⊢; omega) c3 hs hn
    refine ⟨q', ?_, r2, ?_⟩
    · have := (q1.append c2).append r1
      simpa [List.append_assoc] using this
    · rw [show ((key, x) :: kvs).length + j = (kvs.length + j) + 1 by simp; omega, q3,
        objectTail_comma c1, r3]
      rfl

/-! ## Soundness and completeness of `parse` -/

theorem parse_succ (f : Nat) (p : JSONParser) :
    parse (f + 1) p =
    if (skipWhitespace p).pos ≥ (skipWhitespace p).input.length then
      .error (newError (skipWhitespace p) "entrada vacía o solo espacios en blanco")
    else if peek (skipWhitespace p) = 0x7B then
      (parseObject (parse f) f (skipWhitespace p)).map JSONValue.object
    else if peek (skipWhitespace p) = 0x5B then
      (parseArray (parse f) f (skipWhitespace p)).map JSONValue.array
    else if peek (skipWhitespace p) = 0x22 then
      (parseString (skipWhitespace p)).map JSONValue.string
    else if peek (skipWhitespace p) = 0x74 ∨ peek (skipWhitespace p) = 0x66 then
      (parseBoolean (skipWhitespace p)).map JSONValue.bool
    else if peek (skipWhitespace p) = 0x6E then parseNull (skipWhitespace p)
    else if peek (skipWhitespace p) = 0x2D ∨ unicodeIsDigit (peek (skipWhitespace p)) = true then
      (parseNumber (skipWhitespace p)).map JSONValue.number
    else .error (newError (skipWhitespace p) (unexpectedMessage (peek (skipWhitespace p)))) := rfl

/-- The method `parse` skips leading whitespace itself. -/
theorem parse_skip (f : Nat) (p : JSONParser) : parse f (skipWhitespace p) = parse f p := by
  cases f with
  | zero => rfl
  | succ f => rw [parse_succ, parse_succ, skipWhitespace_idem]

theorem result_map_ok {α β : Type} {g : α → β} {r : Result α} {b : β} {p' : JSONParser}
    (h : r.map g = .ok b p') : ∃ a, r = .ok a p' ∧ b = g a := by
  cases r with
  | ok a q => simp only [Result.map] at h; injection h with h1 h2; exact ⟨a, by rw [h2], h1.symm⟩
  | error e => cases h
  | outOfFuel => cases h

/-- What a successful `parseArray` on an opening bracket reads. -/
theorem parseArray_sound (V : List Nat → JSONValue → Prop) (pv : JSONParser → Result JSONValue)
    (hpv : ∀ p v p', pv p = .ok v p' → ∃ ws w, Spaces ws ∧ V w v ∧ Span p p' (ws ++ w))
    {k : Nat} {p p' : JSONParser} {xs : List JSONValue} (hb : peek p = 0x5B)
    (h : parseArray pv k p = .ok xs p') :
    ∃ w, Span p p' w ∧ ((∃ ws, Spaces ws ∧ w = 0x5B :: (ws ++ [0x5D]) ∧ xs = [])
      ∨ (∃ body, Elems V body xs ∧ w = 0x5B :: (body ++ [0x5D]))) := by
  have s0 := span_of_peek (p := p) (by decide) (by decide) hb
  simp only [parseArray] at h
  by_cases hc : peek (skipWhitespace (advance p).2) = 0x5D
  · rw [if_pos hc] at h
    injection h with h1 h2
    subst h1 h2
    obtain ⟨ws, w1, s1⟩ := skipWhitespace_span (advance p).2
    have s2 := span_of_peek (by decide) (by decide) hc
    exact ⟨0x5B :: (ws ++ [0x5D]), by simpa using (s0.append s1).append s2,
      Or.inl ⟨ws, w1, rfl, rfl⟩⟩
  · rw [if_neg hc, parseArrayLoop_skip] at h
    obtain ⟨body, ys, e1, e2, e3⟩ := parseArrayLoop_sound V pv hpv k _ _ _ _ h
    simp only [List.nil_append] at e2
    subst e2
    exact ⟨0x5B :: (body ++ [0x5D]), by simpa using s0.append e3, Or.inr ⟨body, e1, rfl⟩⟩

/-- What a successful `parseObject` on an opening brace reads. -/
theorem parseObject_sound (V : List Nat → JSONValue → Prop) (pv : JSONParser → Result JSONValue)
    (hpv : ∀ p v p', pv p = .ok v p' → ∃ ws w, Spaces ws ∧ V w v ∧ Span p p' (ws ++ w))
    {k : Nat} {p p' : JSONParser} {m : List (List Nat × JSONValue)} (hb : peek p = 0x7B)
    (h : parseObject pv k p = .ok m p') :
    ∃ w, Span p p' w ∧ ((∃ ws, Spaces ws ∧ w = 0x7B :: (ws ++ [0x7D]) ∧ m = [])
      ∨ (∃ body kvs, Members V body kvs ∧ w = 0x7B :: (body ++ [0x7D])
          ∧ m = insertAll [] kvs)) := by
  have s0 := span_of_peek (p := p) (by decide) (by decide) hb
  simp only [parseObject] at h
  by_cases hc : peek (skipWhitespace (advance p).2) = 0x7D
  · rw [if_pos hc] at h
    injection h with h1 h2
    subst h1 h2
    obtain ⟨ws, w1, s1⟩ := skipWhitespace_span (advance p).2
    have s2 := span_of_peek (by decide) (by decide) hc
    exact ⟨0x7B :: (ws ++ [0x7D]), by simpa using (s0.append s1).append s2,
      Or.inl ⟨ws, w1, rfl, rfl⟩⟩
  · rw [if_neg hc, parseObjectLoop_skip] at h
    obtain ⟨body, kvs, e1, e2, e3⟩ := parseObjectLoop_sound V pv hpv k _ _ _ _ h
    exact ⟨0x7B :: (body ++ [0x7D]), by simpa using s0.append e3, Or.inr ⟨body, kvs, e1, rfl, e2⟩⟩

/-- Soundness of `parse`: a successful call reads whitespace followed by a
text of the value grammar that denotes the value returned. -/
theorem parse_sound (f : Nat) : ∀ (p p' : JSONParser) (v : JSONValue), parse f p = .ok v p' →
    ∃ ws w, Spaces ws ∧ ValN f w v ∧ Span p p' (ws ++ w) := by
  induction f with
  | zero => intro p p' v h; cases h
  | succ f ih =>
    intro p p' v h
    rw [parse_succ] at h
    obtain ⟨ws, hws, s0⟩ := skipWhitespace_span p
    have ih' : ∀ p v p', parse f p = .ok v p' → ∃ ws w, Spaces ws ∧ ValN f w v
        ∧ Span p p' (ws ++ w) := fun p v p' hh => ih p p' v hh
    by_cases h0 : (skipWhitespace p).pos ≥ (skipWhitespace p).input.length
    · rw [if_pos h0] at h; cases h
    rw [if_neg h0] at h
    by_cases h1 : peek (skipWhitespace p) = 0x7B
    · rw [if_pos h1] at h
      obtain ⟨m, hm, rfl⟩ := result_map_ok h
      obtain ⟨w, s1, hw⟩ := parseObject_sound (ValN f) (parse f) ih' h1 hm
      refine ⟨ws, w, hws, ?_, s0.append s1⟩
      rcases hw with ⟨ws', a1, a2, a3⟩ | ⟨body, kvs, a1, a2, a3⟩
      · subst a3
        exact Or.inr (Or.inr (Or.inr (Or.inr (Or.inr (Or.inr (Or.inr (Or.inl ⟨ws', a1, a2, rfl⟩)))))))
      · subst a3
        exact Or.inr (Or.inr (Or.inr (Or.inr (Or.inr (Or.inr (Or.inr (Or.inr
          ⟨body, kvs, a1, a2, rfl⟩)))))))
    rw [if_neg h1] at h
    by_cases h2 : peek (skipWhitespace p) = 0x5B
    · rw [if_pos h2] at h
      obtain ⟨xs, hm, rfl⟩ := result_map_ok h
      obtain ⟨w, s1, hw⟩ := parseArray_sound (ValN f) (parse f) ih' h2 hm
      refine ⟨ws, w, hws, ?_, s0.append s1⟩
      rcases hw with ⟨ws', a1, a2, a3⟩ | ⟨body, a1, a2⟩
      · subst a3
        exact Or.inr (Or.inr (Or.inr (Or.inr (Or.inr (Or.inl ⟨ws', a1, a2, rfl⟩)))))
      · exact Or.inr (Or.inr (Or.inr (Or.inr (Or.inr (Or.inr (Or.inl ⟨body, xs, a1, a2, rfl⟩))))))
    rw [if_neg h2] at h
    by_cases h3 : peek (skipWhitespace p) = 0x22
    · rw [if_pos h3] at h
      obtain ⟨s, hm, rfl⟩ := result_map_ok h
      obtain ⟨w, a1, s1⟩ := parseString_sound h3 hm
      exact ⟨ws, w, hws, Or.inr (Or.inr (Or.inr (Or.inr (Or.inl ⟨s, a1, rfl⟩)))), s0.append s1⟩
    rw [if_neg h3] at h
    by_cases h4 : peek (skipWhitespace p) = 0x74 ∨ peek (skipWhitespace p) = 0x66
    · rw [if_pos h4] at h
      obtain ⟨b, hm, rfl⟩ := result_map_ok h
      rcases parseBoolean_sound hm with ⟨rfl, s1⟩ | ⟨rfl, s1⟩
      · exact ⟨ws, _, hws, Or.inr (Or.inl ⟨rfl, rfl⟩), s0.append s1⟩
      · exact ⟨ws, _, hws, Or.inr (Or.inr (Or.inl ⟨rfl, rfl⟩)), s0.append s1⟩
    rw [if_neg h4] at h
    by_cases h5 : peek (skipWhitespace p) = 0x6E
    · rw [if_pos h5] at h
      obtain ⟨rfl, s1⟩ := parseNull_sound h
      exact ⟨ws, _, hws, Or.inl ⟨rfl, rfl⟩, s0.append s1⟩
    rw [if_neg h5] at h
    by_cases h6 : peek (skipWhitespace p) = 0x2D ∨ unicodeIsDigit (peek (skipWhitespace p)) = true
    · rw [if_pos h6] at h
      obtain ⟨x, hm, rfl⟩ := result_map_ok h
      obtain ⟨w, a1, s1⟩ := parseNumber_sound hm
      exact ⟨ws, w, hws, Or.inr (Or.inr (Or.inr (Or.inl ⟨x, a1, rfl⟩))), s0.append s1⟩
    · rw [if_neg h6] at h; cases h

theorem isValueStart_ascii {b : Nat} (hb : b < 0x80) (h : isValueStart b = true) :
    isSpace b = false ∧ b ≠ 0x5D ∧ b ≠ 0x7D ∧ b ≠ 0 := by
  simp only [isValueStart, Bool.or_eq_true, decide_eq_true_eq, unicodeIsDigit_ascii hb,
    isAsciiDigit] at h
  have : isSpace b = false := by
    simp only [isSpace, Bool.or_eq_false_iff, decide_eq_false_iff_not]
    omega
  exact ⟨this, by omega, by omega, by omega⟩

theorem intPart_head {ip : List Nat} (h : IntPart ip) :
    ∃ b t, ip = b :: t ∧ isAsciiDigit b = true := by
  rcases h with rfl | ⟨hne, _, hd⟩
  · exact ⟨0x30, [], rfl, by decide⟩
  · cases ip with
    | nil => exact absurd rfl hne
    | cons b t => exact ⟨b, t, rfl, hd b (by simp)⟩

theorem numLit_head {w : List Nat} {f : Float64} (h : NumLit w f) :
    ∃ b t, w = b :: t ∧ (b = 0x2D ∨ isAsciiDigit b = true) := by
  obtain ⟨sg, ip, fr, ex, rfl, hsg, hip, _⟩ := h
  obtain ⟨b, t, rfl, hb⟩ := intPart_head hip
  rcases hsg with rfl | rfl
  · exact ⟨b, t ++ fr ++ ex, by simp, Or.inr hb⟩
  · exact ⟨0x2D, b :: t ++ fr ++ ex, by simp, Or.inl rfl⟩

/-- A text of the value grammar starts with an ASCII character on which
`parse` dispatches. -/
theorem valN_head {n : Nat} {w : List Nat} {v : JSONValue} (h : ValN n w v) :
    ∃ b t, w = b :: t ∧ b < 0x80 ∧ isValueStart b = true := by
  cases n with
  | zero => exact absurd h (by simp [ValN])
  | succ n =>
    simp only [ValN] at h
    rcases h with ⟨rfl, _⟩ | ⟨rfl, _⟩ | ⟨rfl, _⟩ | ⟨f, hf, _⟩ | ⟨s, ⟨body, rs, rfl, _⟩, _⟩
      | ⟨ws, _, rfl, _⟩ | ⟨body, xs, _, rfl, _⟩ | ⟨ws, _, rfl, _⟩ | ⟨body, kvs, _, rfl, _⟩
    · exact ⟨_, _, rfl, by decide, by decide⟩
    · exact ⟨_, _, rfl, by decide, by decide⟩
    · exact ⟨_, _, rfl, by decide, by decide⟩
    · obtain ⟨b, t, rfl, hb⟩ := numLit_head hf
      rcases hb with rfl | hb
      · exact ⟨_, _, rfl, by decide, by decide⟩
      · have hlt := isAsciiDigit_lt hb
        refine ⟨_, _, rfl, hlt, ?_⟩
        simp [isValueStart, unicodeIsDigit_ascii hlt, hb]
    · exact ⟨_, _, rfl, by decide, by decide⟩
    · exact ⟨_, _, rfl, by decide, by decide⟩
    · exact ⟨_, _, rfl, by decide, by decide⟩
    · exact ⟨_, _, rfl, by decide, by decide⟩
    · exact ⟨_, _, rfl, by decide, by decide⟩

theorem elems_length (V : List Nat → JSONValue → Prop) (hV : ∀ e x, V e x → e ≠ [])
    {body : List Nat} {xs : List JSONValue} (h : Elems V body xs) : xs.length ≤ body.length := by
  induction h with
  | last ws1 e ws2 x _ he _ =>
    have := List.length_pos.mpr (hV e x he)
    simp; omega
  | cons ws1 e ws2 more x xs _ he _ _ ih =>
    have := List.length_pos.mpr (hV e x he)
    simp; omega

theorem members_length (V : List Nat → JSONValue → Prop)
    {body : List Nat} {kvs : List (List Nat × JSONValue)} (h : Members V body kvs) :
    kvs.length ≤ body.length := by
  induction h with
  | last => simp; omega
  | cons _ _ _ _ _ _ _ _ _ _ _ _ _ _ _ _ _ ih => simp; omega

/-- The text of the elements starts, after whitespace, with a character that
opens a value. -/
theorem elems_head (V : List Nat → JSONValue → Prop)
    (hV : ∀ e x, V e x → ∃ b t, e = b :: t ∧ b < 0x80 ∧ isValueStart b = true)
    {body : List Nat} {xs : List JSONValue} (h : Elems V body xs) :
    ∃ ws b t, Spaces ws ∧ body = ws ++ b :: t ∧ b < 0x80 ∧ isValueStart b = true := by
  cases h with
  | last ws1 e ws2 x h1 he _ =>
    obtain ⟨b, t, rfl, hb1, hb2⟩ := hV e x he
    exact ⟨ws1, b, t ++ ws2, h1, by simp, hb1, hb2⟩
  | cons ws1 e ws2 more x xs h1 he _ _ =>
    obtain ⟨b, t, rfl, hb1, hb2⟩ := hV e x he
    exact ⟨ws1, b, t ++ ws2 ++ 0x2C :: more, h1, by simp, hb1, hb2⟩

/-- The text of the members starts, after whitespace, with a quote. -/
theorem members_head (V : List Nat → JSONValue → Prop)
    {body : List Nat} {kvs : List (List Nat × JSONValue)} (h : Members V body kvs) :
    ∃ ws t, Spaces ws ∧ body = ws ++ 0x22 :: t := by
  cases h with
  | last ws1 k ws2 ws3 e ws4 key x h1 hk _ _ _ _ =>
    obtain ⟨kb, rs, rfl, _, _⟩ := hk
    exact ⟨ws1, kb ++ [0x22] ++ ws2 ++ 0x3A :: (ws3 ++ e ++ ws4), h1, by simp⟩
  | cons ws1 k ws2 ws3 e ws4 more key x kvs h1 hk _ _ _ _ _ =>
    obtain ⟨kb, rs, rfl, _, _⟩ := hk
    exact ⟨ws1, kb ++ [0x22] ++ ws2 ++ 0x3A :: (ws3 ++ e ++ ws4 ++ 0x2C :: more), h1, by simp⟩

/-- The method `parseArray` on the text of an empty array. -/
theorem parseArray_empty (pv : JSONParser → Result JSONValue) (k : Nat) {p : JSONParser}
    {ws y : List Nat} (hw : Spaces ws) (h : rest p = 0x5B :: (ws ++ [0x5D]) ++ y) :
    ∃ p', parseArray pv k p = .ok [] p' ∧ Span p p' (0x5B :: (ws ++ [0x5D])) := by
  obtain ⟨a1, a2, a3⟩ := span_byte (p := p) (t := ws ++ 0x5D :: y) (by simpa using h)
    (by decide : (0x5B : Nat) < 0x80)
  obtain ⟨b1, b2⟩ := skipWhitespace_spaces a3 hw (by rw [peekOf_ascii _ _ (by decide)]; decide)
  obtain ⟨c1, c2, c3⟩ := span_byte (p := skipWhitespace (advance p).2) b2 (by decide)
  refine ⟨_, ?_, by simpa using (a2.append b1).append c2⟩
  simp only [parseArray]
  rw [if_pos c1]

/-- The method `parseArray` on the text of a non-empty array. -/
theorem parseArray_complete (V : List Nat → JSONValue → Prop)
    (pv : JSONParser → Result JSONValue) (B : Nat)
    (hskip : ∀ p, pv (skipWhitespace p) = pv p)
    (hpv : ∀ e x, V e x → e.length ≤ B → ∀ p ws y, Spaces ws → rest p = ws ++ e ++ y →
      Look x y → ∃ p', pv p = .ok x p' ∧ Span p p' (ws ++ e))
    (hV : ∀ e x, V e x → ∃ b t, e = b :: t ∧ b < 0x80 ∧ isValueStart b = true)
    {body : List Nat} {xs : List JSONValue} (he : Elems V body xs) (hB : body.length ≤ B)
    {k : Nat} (hk : xs.length ≤ k) {p : JSONParser} {y : List Nat}
    (h : rest p = 0x5B :: (body ++ [0x5D]) ++ y) :
    ∃ p', parseArray pv k p = .ok xs p' ∧ Span p p' (0x5B :: (body ++ [0x5D])) := by
  obtain ⟨a1, a2, a3⟩ := span_byte (p := p) (t := body ++ 0x5D :: y) (by simpa using h)
    (by decide : (0x5B : Nat) < 0x80)
  obtain ⟨ws, b, t, hws, hb, hb1, hb2⟩ := elems_head V hV he
  have hvs := isValueStart_ascii hb1 hb2
  have hr1 : rest (advance p).2 = ws ++ (b :: (t ++ 0x5D :: y)) := by
    rw [a3, hb]; simp
  obtain ⟨b1, b2⟩ := skipWhitespace_spaces hr1 hws (by rw [peekOf_ascii _ _ hb1]; exact hvs.1)
  have hpk : peek (skipWhitespace (advance p).2) = b := by
    rw [peek_rest, b2]; exact peekOf_ascii _ _ hb1
  obtain ⟨q, q1, q2, q3⟩ := parseArrayLoop_complete V pv B hskip hpv he (advance p).2 []
    (0x5D :: y) (k - xs.length) hB a3 (by rw [peekOf_ascii _ _ (by decide)]; decide)
    (by rw [peekOf_ascii _ _ (by decide)]; decide)
  obtain ⟨c1, c2, c3⟩ := span_byte (p := q) q2 (by decide)
  refine ⟨(advance q).2, ?_, by simpa using (a2.append q1).append c2⟩
  simp only [parseArray]
  rw [if_neg (by rw [hpk]; exact hvs.2.1), parseArrayLoop_skip]
  rw [show xs.length + (k - xs.length) = k by omega] at q3
  rw [q3, arrayTail_close c1]
  simp

/-- The method `parseObject` on the text of an empty object. -/
theorem parseObject_empty (pv : JSONParser → Result JSONValue) (k : Nat) {p : JSONParser}
    {ws y : List Nat} (hw : Spaces ws) (h : rest p = 0x7B :: (ws ++ [0x7D]) ++ y) :
    ∃ p', parseObject pv k p = .ok [] p' ∧ Span p p' (0x7B :: (ws ++ [0x7D])) := by
  obtain ⟨a1, a2, a3⟩ := span_byte (p := p) (t := ws ++ 0x7D :: y) (by simpa using h)
    (by decide : (0x7B : Nat) < 0x80)
  obtain ⟨b1, b2⟩ := skipWhitespace_spaces a3 hw (by rw [peekOf_ascii _ _ (by decide)]; decide)
  obtain ⟨c1, c2, c3⟩ := span_byte (p := skipWhitespace (advance p).2) b2 (by decide)
  refine ⟨_, ?_, by simpa using (a2.append b1).append c2⟩
  simp only [parseObject]
  rw [if_pos c1]

/-- The method `parseObject` on the text of a non-empty object. -/
theorem parseObject_complete (V : List Nat → JSONValue → Prop)
    (pv : JSONParser → Result JSONValue) (B : Nat)
    (hskip : ∀ p, pv (skipWhitespace p) = pv p)
    (hpv : ∀ e x, V e x → e.length ≤ B → ∀ p ws y, Spaces ws → rest p = ws ++ e ++ y →
      Look x y → ∃ p', pv p = .ok x p' ∧ Span p p' (ws ++ e))
    {body : List Nat} {kvs : List (List Nat × JSONValue)} (he : Members V body kvs)
    (hB : body.length ≤ B) {k : Nat} (hk : kvs.length ≤ k) {p : JSONParser} {y : List Nat}
    (h : rest p = 0x7B :: (body ++ [0x7D]) ++ y) :
    ∃ p', parseObject pv k p = .ok (insertAll [] kvs) p'
      ∧ Span p p' (0x7B :: (body ++ [0x7D])) := by
  obtain ⟨a1, a2, a3⟩ := span_byte (p := p) (t := body ++ 0x7D :: y) (by simpa using h)
    (by decide : (0x7B : Nat) < 0x80)
  obtain ⟨ws, t, hws, hb⟩ := members_head V he
  have hr1 : rest (advance p).2 = ws ++ (0x22 :: (t ++ 0x7D :: y)) := by
    rw [a3, hb]; simp
  obtain ⟨b1, b2⟩ := skipWhitespace_spaces hr1 hws
    (by rw [peekOf_ascii _ _ (by decide)]; decide)
  have hpk : peek (skipWhitespace (advance p).2) = 0x22 := by
    rw [peek_rest, b2]; exact peekOf_ascii _ _ (by decide)
  obtain ⟨q, q1, q2, q3⟩ := parseObjectLoop_complete V pv B hskip hpv he (advance p).2 []
    (0x7D :: y) (k - kvs.length) hB a3 (by rw [peekOf_ascii _ _ (by decide)]; decide)
    (by rw [peekOf_ascii _ _ (by decide)]; decide)
  obtain ⟨c1, c2, c3⟩ := span_byte (p := q) q2 (by decide)
  refine ⟨(advance q).2, ?_, by simpa using (a2.append q1).append c2⟩
  simp only [parseObject]
  rw [if_neg (by rw [hpk]; decide), parseObjectLoop_skip]
  rw [show kvs.length + (k - kvs.length) = k by omega] at q3
  rw [q3, objectTail_close c1]

theorem parse_dispatch_object (f : Nat) (p : JSONParser) (h : peek (skipWhitespace p) = 0x7B) :
    parse (f + 1) p = (parseObject (parse f) f (skipWhitespace p)).map JSONValue.object := by
  have hlt := (peek_ascii _ 0x7B (by decide) (by decide) h).1
  rw [parse_succ, if_neg (by omega), if_pos h]

theorem parse_dispatch_array (f : Nat) (p : JSONParser) (h : peek (skipWhitespace p) = 0x5B) :
    parse (f + 1) p = (parseArray (parse f) f (skipWhitespace p)).map JSONValue.array := by
  have hlt := (peek_ascii _ 0x5B (by decide) (by decide) h).1
  rw [parse_succ, if_neg (by omega), if_neg (by rw [h]; decide), if_pos h]

theorem parse_dispatch_boolean (f : Nat) (p : JSONParser)
    (h : peek (skipWhitespace p) = 0x74 ∨ peek (skipWhitespace p) = 0x66) :
    parse (f + 1) p = (parseBoolean (skipWhitespace p)).map JSONValue.bool := by
  have hlt : (skipWhitespace p).pos < (skipWhitespace p).input.length :=
    peek_ne_zero_lt _ (by rcases h with h | h <;> rw [h] <;> decide)
  rw [parse_succ, if_neg (by omega), if_neg (by rcases h with h | h <;> rw [h] <;> decide),
    if_neg (by rcases h with h | h <;> rw [h] <;> decide),
    if_neg (by rcases h with h | h <;> rw [h] <;> decide), if_pos h]

theorem parse_dispatch_null (f : Nat) (p : JSONParser) (h : peek (skipWhitespace p) = 0x6E) :
    parse (f + 1) p = parseNull (skipWhitespace p) := by
  have hlt := (peek_ascii _ 0x6E (by decide) (by decide) h).1
  rw [parse_succ, if_neg (by omega), if_neg (by rw [h]; decide), if_neg (by rw [h]; decide),
    if_neg (by rw [h]; decide), if_neg (by rw [h]; decide), if_pos h]

theorem parse_dispatch_number (f : Nat) (p : JSONParser)
    (h : peek (skipWhitespace p) = 0x2D ∨ isAsciiDigit (peek (skipWhitespace p)) = true) :
    parse (f + 1) p = (parseNumber (skipWhitespace p)).map JSONValue.number := by
  have hb : peek (skipWhitespace p) = 0x2D
      ∨ (0x30 ≤ peek (skipWhitespace p) ∧ peek (skipWhitespace p) ≤ 0x39) := by
    rcases h with h | h
    · exact Or.inl h
    · right; simpa [isAsciiDigit] using h
  have hlt : (skipWhitespace p).pos < (skipWhitespace p).input.length :=
    peek_ne_zero_lt _ (by omega)
  have hd : peek (skipWhitespace p) = 0x2D ∨ unicodeIsDigit (peek (skipWhitespace p)) = true := by
    rcases h with h | h
    · exact Or.inl h
    · right; rw [unicodeIsDigit_ascii (isAsciiDigit_lt h)]; exact h
  rw [parse_succ, if_neg (by omega), if_neg (by omega), if_neg (by omega), if_neg (by omega),
    if_neg (by omega), if_neg (by omega), if_pos hd]

/-- Completeness of `parse`: on whitespace followed by a text of the value
grammar, in front of any text that does not continue a number, `parse` returns
the value denoted and stops right after the text, for every fuel above the
length of the text. -/
theorem parse_complete (n : Nat) : ∀ (w : List Nat) (v : JSONValue), ValN n w v →
    ∀ f, w.length < f → ∀ (p : JSONParser) (ws y : List Nat), Spaces ws →
    rest p = ws ++ w ++ y → Look v y →
    ∃ p', parse f p = .ok v p' ∧ Span p p' (ws ++ w) := by
  induction n with
  | zero => intro w v h; exact absurd h (by simp [ValN])
  | succ n ih =>
    intro w v hV f hf p ws y hws hr hlook
    obtain ⟨f, rfl⟩ : ∃ f', f = f' + 1 := ⟨f - 1, by omega⟩
    obtain ⟨b, t, hb, hb1, hb2⟩ := valN_head hV
    have hvs := isValueStart_ascii hb1 hb2
    have hr0 : rest p = ws ++ (w ++ y) := by simpa using hr
    obtain ⟨s0, s1⟩ := skipWhitespace_spaces hr0 hws
      (by rw [hb]; simp only [List.cons_append]; rw [peekOf_ascii _ _ hb1]; exact hvs.1)
    have hpk : peek (skipWhitespace p) = b := by
      rw [peek_rest, s1, hb]; simp only [List.cons_append]; exact peekOf_ascii _ _ hb1
    simp only [ValN] at hV
    rcases hV with ⟨rfl, rfl⟩ | ⟨rfl, rfl⟩ | ⟨rfl, rfl⟩ | ⟨x, hx, rfl⟩ | ⟨s, hs, rfl⟩
      | ⟨ws', hws', rfl, rfl⟩ | ⟨body, xs, he, rfl, rfl⟩ | ⟨ws', hws', rfl, rfl⟩
      | ⟨body, kvs, he, rfl, rfl⟩
    · obtain ⟨p', a1, a2⟩ := parseNull_complete s1
      injection hb with hb
      exact ⟨p', by rw [parse_dispatch_null f p (by rw [hpk, ← hb]), a1], s0.append a2⟩
    · obtain ⟨p', a1, a2⟩ := parseBoolean_true s1
      injection hb with hb
      exact ⟨p', by rw [parse_dispatch_boolean f p (Or.inl (by rw [hpk, ← hb])), a1]; rfl,
        s0.append a2⟩
    · obtain ⟨p', a1, a2⟩ := parseBoolean_false s1
      injection hb with hb
      exact ⟨p', by rw [parse_dispatch_boolean f p (Or.inr (by rw [hpk, ← hb])), a1]; rfl,
        s0.append a2⟩
    · obtain ⟨p', a1, a2⟩ := parseNumber_complete hx s1 (hlook rfl)
      obtain ⟨b', t', hb', hd⟩ := numLit_head hx
      have hbb : b = b' := by rw [hb'] at hb; injection hb with hb; exact hb.symm
      exact ⟨p', by rw [parse_dispatch_number f p (by rw [hpk, hbb]; exact hd), a1]; rfl,
        s0.append a2⟩
    · obtain ⟨p', a1, a2⟩ := parseString_complete hs s1
      obtain ⟨kb, rs, hkb, _, _⟩ := id hs
      have hbb : b = 0x22 := by rw [hkb] at hb; injection hb with hb; exact hb.symm
      exact ⟨p', by rw [parse_string f p (by rw [hpk, hbb]), a1]; rfl, s0.append a2⟩
    · obtain ⟨p', a1, a2⟩ := parseArray_empty (parse f) f hws' s1
      injection hb with hb
      exact ⟨p', by rw [parse_dispatch_array f p (by rw [hpk, ← hb]), a1]; rfl, s0.append a2⟩
    · have hlen : body.length + 2 < f + 1 := by
        simp only [List.length_cons, List.length_append, List.length_nil] at hf; omega
      have hne : ∀ e x, ValN n e x → e ≠ [] := by
        intro e x hex
        obtain ⟨b', t', rfl, _⟩ := valN_head hex
        simp
      have hxs := elems_length (ValN n) hne he
      obtain ⟨p', a1, a2⟩ := parseArray_complete (ValN n) (parse f) (f - 1) (parse_skip f)
        (fun e x hex hel => ih e x hex f (by omega)) (fun e x hex => valN_head hex) he
        (by omega) (show xs.length ≤ f by omega) s1
      injection hb with hb
      exact ⟨p', by rw [parse_dispatch_array f p (by rw [hpk, ← hb]), a1]; rfl, s0.append a2⟩
    · obtain ⟨p', a1, a2⟩ := parseObject_empty (parse f) f hws' s1
      injection hb with hb
      exact ⟨p', by rw [parse_dispatch_object f p (by rw [hpk, ← hb]), a1]; rfl, s0.append a2⟩
    · have hlen : body.length + 2 < f + 1 := by
        simp only [List.length_cons, List.length_append, List.length_nil] at hf; omega
      have hxs := members_length (ValN n) he
      obtain ⟨p', a1, a2⟩ := parseObject_complete (ValN n) (parse f) (f - 1) (parse_skip f)
        (fun e x hex hel => ih e x hex f (by omega)) he
        (by omega) (show kvs.length ≤ f by omega) s1
      injection hb with hb
      exact ⟨p', by rw [parse_dispatch_object f p (by rw [hpk, ← hb]), a1]; rfl, s0.append a2⟩

theorem rest_new (s : List Nat) : rest (NewJSONParser s) = s := by
  simp [rest, NewJSONParser]

theorem isNumberStop_zero : isNumberStop 0 = true := by decide

theorem look_nil (v : JSONValue) : Look v [] := fun _ => isNumberStop_zero

/-- Soundness of `ParseJSON`: an accepted input is a text of the value grammar
between two runs of whitespace. -/
theorem ParseJSON_sound {s : List Nat} {v : JSONValue} (h : ParseJSON s = .value v) :
    ∃ ws w ws', Spaces ws ∧ Spaces ws' ∧ ValN (s.length + 1) w v ∧ s = ws ++ w ++ ws' := by
  simp only [ParseJSON] at h
  cases hp : parse (s.length + 1) (NewJSONParser s) with
  | outOfFuel => rw [hp] at h; cases h
  | error e => rw [hp] at h; cases h
  | ok x p1 =>
    rw [hp] at h
    simp only at h
    split_ifs at h with hlt
    injection h with h
    subst h
    obtain ⟨ws, w, h1, h2, h3⟩ := parse_sound _ _ _ _ hp
    obtain ⟨ws', h4, h5⟩ := skipWhitespace_span p1
    have hnil : rest (skipWhitespace p1) = [] := (rest_eq_nil_iff _).mpr (by omega)
    refine ⟨ws, w, ws', h1, h4, h2, ?_⟩
    have := (h3.append h5).2.2
    rw [rest_new, hnil] at this
    simpa using this

/-- The run of `ParseJSON` on whitespace, a text of the value grammar,
whitespace, and a rest `t` that starts with no whitespace and does not
continue a number: the value is parsed and the cursor stops in front of `t`. -/
theorem ParseJSON_run {n : Nat} {ws w ws' t : List Nat} {v : JSONValue} (h1 : Spaces ws)
    (h2 : ValN n w v) (h3 : Spaces ws') (ht : isSpace (peekOf t) = false)
    (hl : Look v (ws' ++ t)) :
    ∃ p1, parse ((ws ++ w ++ ws' ++ t).length + 1) (NewJSONParser (ws ++ w ++ ws' ++ t)) = .ok v p1
      ∧ Reach (NewJSONParser (ws ++ w ++ ws' ++ t)) (skipWhitespace p1)
      ∧ (skipWhitespace p1).pos = (ws ++ w ++ ws').length
      ∧ (skipWhitespace p1).input = ws ++ w ++ ws' ++ t := by
  obtain ⟨p1, a1, a2⟩ := parse_complete n w v h2 ((ws ++ w ++ ws' ++ t).length + 1)
    (by simp; omega) (NewJSONParser (ws ++ w ++ ws' ++ t)) ws (ws' ++ t) h1
    (by rw [rest_new]; simp) hl
  have hr1 : rest p1 = ws' ++ t := a2.rest_eq (by rw [rest_new]; simp)
  obtain ⟨b1, b2⟩ := skipWhitespace_spaces hr1 h3 ht
  have hsp := a2.append b1
  refine ⟨p1, a1, hsp.1, ?_, hsp.input_same⟩
  have := hsp.2.1
  simpa [NewJSONParser] using this

/-- Completeness of `ParseJSON`: a text of the value grammar between two runs
of whitespace is accepted with the value it denotes. -/
theorem ParseJSON_complete {n : Nat} {ws w ws' : List Nat} {v : JSONValue} (h1 : Spaces ws)
    (h2 : ValN n w v) (h3 : Spaces ws') : ParseJSON (ws ++ w ++ ws') = .value v := by
  obtain ⟨p1, a1, a2, a3, a4⟩ := ParseJSON_run (t := []) h1 h2 h3 (by decide)
    (look_spaces h3 isNumberStop_zero)
  simp only [List.append_nil] at a1 a3 a4
  simp only [ParseJSON, a1]
  rw [if_neg (by rw [a3, a4]; omega)]

/-- Trailing content: after an accepted document, a rest that starts with no
whitespace and does not continue a number is reported at its first
character. -/
theorem ParseJSON_trailing {n : Nat} {ws w ws' t : List Nat} {v : JSONValue} (h1 : Spaces ws)
    (h2 : ValN n w v) (h3 : Spaces ws') (hne : t ≠ []) (ht : isSpace (peekOf t) = false)
    (hl : Look v (ws' ++ t)) :
    ParseJSON (ws ++ w ++ ws' ++ t) = .failure ⟨"caracter inesperado después del valor JSON",
      (lineColAt (ws ++ w ++ ws' ++ t) (ws ++ w ++ ws').length).1,
      (lineColAt (ws ++ w ++ ws' ++ t) (ws ++ w ++ ws').length).2⟩ := by
  obtain ⟨p1, a1, a2, a3, a4⟩ := ParseJSON_run h1 h2 h3 ht hl
  have hlc := reach_lineColAt a2
  rw [a3] at hlc
  simp only [ParseJSON, a1]
  rw [if_pos (by
    rw [a3, a4]
    have := List.length_pos.mpr hne
    simp only [List.length_append] at *; omega), hlc]
  rfl

theorem peekOf_not_space {b : Nat} (t : List Nat) (h : isSpace b = false) :
    isSpace (peekOf (b :: t)) = false := by
  by_cases hb : b < 0x80
  · rw [peekOf_ascii b t hb]; exact h
  · have := peekOf_high b t (by omega)
    cases hs : isSpace (peekOf (b :: t)) with
    | false => rfl
    | true => have := isSpace_ascii _ hs; omega

theorem digitText_last {ds : List Nat} (hne : ds ≠ []) (hd : DigitText ds) :
    ∃ u d, ds = u ++ [d] ∧ isAsciiDigit d = true :=
  ⟨ds.dropLast, ds.getLast hne, (List.dropLast_append_getLast hne).symm,
    hd _ (List.getLast_mem hne)⟩

/-- A number literal ends with a digit. -/
theorem numLit_last {w : List Nat} {f : Float64} (h : NumLit w f) :
    ∃ u d, w = u ++ [d] ∧ isAsciiDigit d = true := by
  obtain ⟨sg, ip, fr, ex, rfl, _, hip, hfr, hex, _⟩ := h
  rcases hex with rfl | ⟨e, sg', ds, rfl, _, _, hne, hd⟩
  · rcases hfr with rfl | ⟨ds, rfl, hne, hd⟩
    · have hipl : ∃ u d, ip = u ++ [d] ∧ isAsciiDigit d = true := by
        rcases hip with rfl | ⟨hne, _, hd⟩
        · exact ⟨[], 0x30, rfl, by decide⟩
        · exact digitText_last hne hd
      obtain ⟨u, d, rfl, hd⟩ := hipl
      exact ⟨sg ++ u, d, by simp, hd⟩
    · obtain ⟨u, d, rfl, hd'⟩ := digitText_last hne hd
      exact ⟨sg ++ ip ++ 0x2E :: u, d, by simp, hd'⟩
  · obtain ⟨u, d, rfl, hd'⟩ := digitText_last hne hd
    exact ⟨sg ++ ip ++ fr ++ e :: (sg' ++ u), d, by simp, hd'⟩

theorem valN_number {n : Nat} {w : List Nat} {v : JSONValue} (h : ValN n w v)
    (hv : v.isNumber = true) : ∃ f, NumLit w f ∧ v = .number f := by
  cases n with
  | zero => exact absurd h (by simp [ValN])
  | succ n =>
    simp only [ValN] at h
    rcases h with ⟨_, rfl⟩ | ⟨_, rfl⟩ | ⟨_, rfl⟩ | ⟨f, hf, rfl⟩ | ⟨s, _, rfl⟩
      | ⟨ws, _, _, rfl⟩ | ⟨body, xs, _, _, rfl⟩ | ⟨ws, _, _, rfl⟩ | ⟨body, kvs, _, _, rfl⟩
    all_goals first
      | exact ⟨f, hf, rfl⟩
      | exact absurd hv (by simp [JSONValue.isNumber])

theorem isAsciiDigit_not_space {d : Nat} (h : isAsciiDigit d = true) : isSpace d = false := by
  simp only [isAsciiDigit, decide_eq_true_eq] at h
  simp only [isSpace, Bool.or_eq_false_iff, decide_eq_false_iff_not]
  omega

theorem commaSep_single (v : List Nat) : commaSep [v] = v := rfl

theorem commaSep_cons_cons (v v' : List Nat) (vs : List (List Nat)) :
    commaSep (v :: v' :: vs) = v ++ 0x2C :: commaSep (v' :: vs) := rfl

theorem Elems.mono {V V' : List Nat → JSONValue → Prop} (h : ∀ e x, V e x → V' e x)
    {body : List Nat} {xs : List JSONValue} (he : Elems V body xs) : Elems V' body xs := by
  induction he with
  | last ws1 e ws2 x h1 hV h2 => exact Elems.last _ _ _ _ h1 (h _ _ hV) h2
  | cons ws1 e ws2 more x xs h1 hV h2 _ ih => exact Elems.cons _ _ _ _ _ _ h1 (h _ _ hV) h2 ih

theorem Members.weaken {V V' : List Nat → JSONValue → Prop} (h : ∀ e x, V e x → V' e x)
    {body : List Nat} {kvs : List (List Nat × JSONValue)} (he : Members V body kvs) :
    Members V' body kvs := by
  induction he with
  | last ws1 k ws2 ws3 e ws4 key x h1 hk h2 h3 hV h4 =>
    exact Members.last _ _ _ _ _ _ _ _ h1 hk h2 h3 (h _ _ hV) h4
  | cons ws1 k ws2 ws3 e ws4 more key x kvs h1 hk h2 h3 hV h4 _ ih =>
    exact Members.cons _ _ _ _ _ _ _ _ _ _ h1 hk h2 h3 (h _ _ hV) h4 ih

theorem valN_succ (n : Nat) : ∀ (w : List Nat) (v : JSONValue), ValN n w v → ValN (n + 1) w v := by
  induction n with
  | zero => intro w v h; exact absurd h (by simp [ValN])
  | succ n ih =>
    intro w v h
    simp only [ValN] at h ⊢
    refine h.imp_right (Or.imp_right (Or.imp_right (Or.imp_right (Or.imp_right (Or.imp_right
      (Or.imp ?_ (Or.imp_right ?_)))))))
    · rintro ⟨body, xs, he, h⟩
      exact ⟨body, xs, he.mono ih, h⟩
    · rintro ⟨body, kvs, he, h⟩
      exact ⟨body, kvs, he.weaken ih, h⟩

/-- The value grammar grows with the nesting depth. -/
theorem valN_mono {n m : Nat} (h : n ≤ m) {w : List Nat} {v : JSONValue} (hv : ValN n w v) :
    ValN m w v := by
  induction h with
  | refl => exact hv
  | step _ ih => exact valN_succ _ _ _ ih

/-- The texts of accepted documents, joined by commas, are the text of the
elements of an array. -/
theorem elems_of_documents {vs : List (List Nat)} {xs : List JSONValue}
    (h : List.Forall₂ (fun t x => ParseJSON t = .value x) vs xs) (hne : vs ≠ []) :
    ∃ N, Elems (ValN N) (commaSep vs) xs := by
  induction h with
  | nil => exact absurd rfl hne
  | @cons t x ts xs' h1 h2 ih =>
    obtain ⟨ws, w, ws', a1, a2, a3, rfl⟩ := ParseJSON_sound h1
    cases ts with
    | nil =>
      cases h2
      exact ⟨_, Elems.last _ _ _ _ a1 a3 a2⟩
    | cons t' ts' =>
      obtain ⟨N, hN⟩ := ih (by simp)
      refine ⟨max N ((ws ++ w ++ ws').length + 1), ?_⟩
      rw [commaSep_cons_cons]
      exact Elems.cons _ _ _ _ _ _ a1 (valN_mono (Nat.le_max_right _ _) a3) a2
        (hN.mono (fun e x he => valN_mono (Nat.le_max_left _ _) he))

theorem valN_string {n : Nat} {w s : List Nat} (h : ValN n w (.string s)) : StrLit w s := by
  cases n with
  | zero => exact absurd h (by simp [ValN])
  | succ n =>
    simp only [ValN] at h
    rcases h with ⟨_, h⟩ | ⟨_, h⟩ | ⟨_, h⟩ | ⟨f, _, h⟩ | ⟨s', hs, h⟩
      | ⟨ws, _, _, h⟩ | ⟨body, xs, _, _, h⟩ | ⟨ws, _, _, h⟩ | ⟨body, kvs, _, _, h⟩
    all_goals first
      | (injection h with h; subst h; exact hs)
      | cases h

theorem mapLookup_mapInsert (m : List (List Nat × JSONValue)) (k : List Nat) (v : JSONValue)
    (key : List Nat) :
    mapLookup (mapInsert m k v) key = if k = key then some v else mapLookup m key := by
  induction m with
  | nil => simp [mapInsert, mapLookup]
  | cons kv m ih =>
    obtain ⟨k', v'⟩ := kv
    simp only [mapInsert]
    by_cases h1 : k' = k
    · subst h1
      by_cases h2 : k' = key <;> simp [mapLookup, h2]
    · simp only [if_neg h1, mapLookup, ih]
      by_cases h2 : k' = key
      · subst h2
        simp [Ne.symm h1]
      · simp [h2]

theorem lastValue_cons (kv : List Nat × JSONValue) (kvs : List (List Nat × JSONValue))
    (key : List Nat) :
    lastValue (kv :: kvs) key
      = match lastValue kvs key with
        | some v => some v
        | none => if kv.1 = key then some kv.2 else none := by
  simp only [lastValue, List.reverse_cons, List.find?_append]
  cases h : List.find? (fun kv => decide (kv.1 = key)) kvs.reverse with
  | some x => simp
  | none =>
    by_cases hk : kv.1 = key <;> simp [List.find?, hk]

/-- Reading the map built from the members: the value of the last member that
carries the key, else what the map held before. -/
theorem mapLookup_insertAll (kvs : List (List Nat × JSONValue)) :
    ∀ (m : List (List Nat × JSONValue)) (key : List Nat),
    mapLookup (insertAll m kvs) key
      = match lastValue kvs key with
        | some v => some v
        | none => mapLookup m key := by
  induction kvs with
  | nil => intro m key; simp [insertAll, lastValue]
  | cons kv kvs ih =>
    intro m key
    rw [insertAll_cons, ih, lastValue_cons, mapLookup_mapInsert]
    cases lastValue kvs key with
    | some v => rfl
    | none => by_cases hk : kv.1 = key <;> simp [hk]

/-- The texts of accepted key and value documents, joined by colons and commas,
are the text of the members of an object. -/
theorem members_of_documents {pairs : List (List Nat × List Nat)}
    {kvs : List (List Nat × JSONValue)}
    (h : List.Forall₂ (fun (kv : List Nat × List Nat) (r : List Nat × JSONValue) =>
      ParseJSON kv.1 = .value (.string r.1) ∧ ParseJSON kv.2 = .value r.2) pairs kvs)
    (hne : pairs ≠ []) :
    ∃ N, Members (ValN N) (commaSep (pairs.map memberText)) kvs := by
  induction h with
  | nil => exact absurd rfl hne
  | @cons kv r ps rs h1 h2 ih =>
    obtain ⟨kt, vt⟩ := kv
    obtain ⟨key, x⟩ := r
    obtain ⟨ws1, k, ws2, a1, a2, a3, hk⟩ := ParseJSON_sound h1.1
    obtain ⟨ws3, e, ws4, b1, b2, b3, he⟩ := ParseJSON_sound h1.2
    dsimp only at hk he a3 b3
    have hks := valN_string a3
    obtain ⟨D, hD⟩ : ∃ D, ValN D e x := ⟨_, b3⟩
    cases ps with
    | nil =>
      cases h2
      refine ⟨D, ?_⟩
      have := Members.last (V := ValN D) ws1 k ws2 ws3 e ws4 key x a1 hks a2 b1 hD b2
      simpa [commaSep, memberText, hk, he] using this
    | cons p' ps' =>
      obtain ⟨N, hN⟩ := ih (by simp)
      refine ⟨max N D, ?_⟩
      have := Members.cons (V := ValN (max N D)) ws1 k ws2 ws3 e ws4 _ key x _ a1 hks
        a2 b1 (valN_mono (Nat.le_max_right _ _) hD) b2
        (hN.weaken (fun e x he => valN_mono (Nat.le_max_left _ _) he))
      simp only [List.map_cons, commaSep_cons_cons, memberText, hk, he]
      simpa [memberText, List.append_assoc] using this

theorem valN_ne_nil {n : Nat} {e : List Nat} {x : JSONValue} (h : ValN n e x) : e ≠ [] := by
  obtain ⟨b, t, rfl, _⟩ := valN_head h
  simp

theorem valN_array {n : Nat} {w : List Nat} {xs : List JSONValue} (h : ValN n w (.array xs))
    (hne : xs ≠ []) : ∃ body, Elems (ValN (n - 1)) body xs ∧ w = 0x5B :: (body ++ [0x5D]) := by
  cases n with
  | zero => exact absurd h (by simp [ValN])
  | succ n =>
    simp only [ValN] at h
    rcases h with ⟨_, h⟩ | ⟨_, h⟩ | ⟨_, h⟩ | ⟨f, _, h⟩ | ⟨s', _, h⟩
      | ⟨ws, _, _, h⟩ | ⟨body, ys, hb, hw, h⟩ | ⟨ws, _, _, h⟩ | ⟨body, kvs, _, _, h⟩
    all_goals first
      | (injection h with h; subst h; exact absurd rfl hne)
      | (injection h with h; subst h; exact ⟨body, hb, hw⟩)
      | cases h

theorem valN_object {n : Nat} {w : List Nat} {m : List (List Nat × JSONValue)}
    (h : ValN n w (.object m)) (hne : m ≠ []) :
    ∃ body kvs, Members (ValN (n - 1)) body kvs ∧ w = 0x7B :: (body ++ [0x7D])
      ∧ m = insertAll [] kvs := by
  cases n with
  | zero => exact absurd h (by simp [ValN])
  | succ n =>
    simp only [ValN] at h
    rcases h with ⟨_, h⟩ | ⟨_, h⟩ | ⟨_, h⟩ | ⟨f, _, h⟩ | ⟨s', _, h⟩
      | ⟨ws, _, _, h⟩ | ⟨body, ys, _, _, h⟩ | ⟨ws, _, _, h⟩ | ⟨body, kvs, hb, hw, h⟩
    all_goals first
      | (injection h with h; subst h; exact absurd rfl hne)
      | (injection h with h; exact ⟨body, kvs, hb, hw, h⟩)
      | cases h

/-- A text that ends with a non-whitespace byte has no trailing whitespace. -/
theorem closing_split {s ws w ws' : List Nat} {c : Nat} (h : s ++ [c] = ws ++ w ++ ws')
    (hs : Spaces ws') (hc : isSpace c = false) : ws' = [] := by
  rcases List.eq_nil_or_concat ws' with h0 | ⟨u, d, rfl⟩
  · exact h0
  · exfalso
    rw [List.concat_eq_append, ← List.append_assoc] at h
    have := (List.append_inj' h rfl).2
    injection this with hd
    have := hs d (by simp)
    rw [← hd, hc] at this
    cases this

/-- An accepted text that ends with the closing byte `c` of a container, cut
before that byte. -/
theorem closing_cut {s ws body : List Nat} {o c : Nat}
    (h : s ++ [c] = ws ++ o :: (body ++ [c]) ++ []) : s = ws ++ o :: body := by
  have h2 : s ++ [c] = (ws ++ o :: body) ++ [c] := by
    rw [h]; simp
  exact List.append_cancel_right h2

/-- The run of `parse` on an array text cut after its elements: the elements
are read and the decision on the next character `y` is left. -/
theorem array_body_run {n : Nat} {ws body y : List Nat} {xs : List JSONValue} (hws : Spaces ws)
    (he : Elems (ValN n) body xs) (hs : isSpace (peekOf y) = false)
    (hn : isNumberStop (peekOf y) = true) :
    ∃ q, Reach (NewJSONParser (ws ++ 0x5B :: (body ++ y))) q
      ∧ q.pos = (ws ++ 0x5B :: body).length ∧ rest q = y
      ∧ xs.length < (ws ++ 0x5B :: (body ++ y)).length
      ∧ parse ((ws ++ 0x5B :: (body ++ y)).length + 1) (NewJSONParser (ws ++ 0x5B :: (body ++ y)))
        = (arrayTail (parse (ws ++ 0x5B :: (body ++ y)).length)
            ((ws ++ 0x5B :: (body ++ y)).length - xs.length) q xs).map JSONValue.array := by
  obtain ⟨f, hf⟩ : ∃ f, f = (ws ++ 0x5B :: (body ++ y)).length := ⟨_, rfl⟩
  rw [← hf]
  have hflen : f = ws.length + (body.length + y.length + 1) := by
    rw [hf]; simp
  obtain ⟨s0, s1⟩ := skipWhitespace_spaces (p := NewJSONParser (ws ++ 0x5B :: (body ++ y)))
    (by rw [rest_new]) hws (by rw [peekOf_ascii _ _ (by decide)]; decide)
  obtain ⟨a1, a2, a3⟩ := span_byte s1 (by decide)
  obtain ⟨ws1, b, t, hws1, hb, hb1, hb2⟩ := elems_head (ValN n) (fun e x h => valN_head h) he
  have hvs := isValueStart_ascii hb1 hb2
  obtain ⟨b1, b2⟩ := @skipWhitespace_spaces (advance (skipWhitespace
    (NewJSONParser (ws ++ 0x5B :: (body ++ y))))).2 ws1 (b :: (t ++ y))
    (by rw [a3, hb]; simp) hws1 (by rw [peekOf_ascii _ _ hb1]; exact hvs.1)
  have hpk : peek (skipWhitespace (advance (skipWhitespace
      (NewJSONParser (ws ++ 0x5B :: (body ++ y))))).2) = b := by
    rw [peek_rest, b2]; exact peekOf_ascii _ _ hb1
  have hxs := elems_length (ValN n) (fun e x h => valN_ne_nil h) he
  obtain ⟨q, q1, q2, q3⟩ := parseArrayLoop_complete (ValN n) (parse f) (f - 1) (parse_skip f)
    (fun e x hex hel => parse_complete n e x hex f (by omega)) he
    (advance (skipWhitespace (NewJSONParser (ws ++ 0x5B :: (body ++ y))))).2 []
    y (f - xs.length) (by omega) a3 hs hn
  refine ⟨q, ((s0.append a2).append q1).1, ?_, q2, by omega, ?_⟩
  · have := ((s0.append a2).append q1).2.1
    simpa [NewJSONParser] using this
  · rw [parse_dispatch_array f _ a1]
    simp only [parseArray]
    rw [if_neg (by rw [hpk]; exact hvs.2.1), parseArrayLoop_skip]
    rw [show xs.length + (f - xs.length) = f by omega] at q3
    rw [q3]
    simp

/-- The run of `parse` on an object text cut after its members: the members
are read and the decision on the next character `y` is left. -/
theorem object_body_run {n : Nat} {ws body y : List Nat} {kvs : List (List Nat × JSONValue)}
    (hws : Spaces ws) (he : Members (ValN n) body kvs) (hs : isSpace (peekOf y) = false)
    (hn : isNumberStop (peekOf y) = true) :
    ∃ q, Reach (NewJSONParser (ws ++ 0x7B :: (body ++ y))) q
      ∧ q.pos = (ws ++ 0x7B :: body).length ∧ rest q = y
      ∧ kvs.length < (ws ++ 0x7B :: (body ++ y)).length
      ∧ parse ((ws ++ 0x7B :: (body ++ y)).length + 1) (NewJSONParser (ws ++ 0x7B :: (body ++ y)))
        = (objectTail (parse (ws ++ 0x7B :: (body ++ y)).length)
            ((ws ++ 0x7B :: (body ++ y)).length - kvs.length) q
            (insertAll [] kvs)).map JSONValue.object := by
  obtain ⟨f, hf⟩ : ∃ f, f = (ws ++ 0x7B :: (body ++ y)).length := ⟨_, rfl⟩
  rw [← hf]
  have hflen : f = ws.length + (body.length + y.length + 1) := by
    rw [hf]; simp
  obtain ⟨s0, s1⟩ := skipWhitespace_spaces (p := NewJSONParser (ws ++ 0x7B :: (body ++ y)))
    (by rw [rest_new]) hws (by rw [peekOf_ascii _ _ (by decide)]; decide)
  obtain ⟨a1, a2, a3⟩ := span_byte s1 (by decide)
  obtain ⟨ws1, t, hws1, hb⟩ := members_head (ValN n) he
  obtain ⟨b1, b2⟩ := @skipWhitespace_spaces (advance (skipWhitespace
    (NewJSONParser (ws ++ 0x7B :: (body ++ y))))).2 ws1 (0x22 :: (t ++ y))
    (by rw [a3, hb]; simp) hws1 (by rw [peekOf_ascii _ _ (by decide)]; decide)
  have hpk : peek (skipWhitespace (advance (skipWhitespace
      (NewJSONParser (ws ++ 0x7B :: (body ++ y))))).2) = 0x22 := by
    rw [peek_rest, b2]; exact peekOf_ascii _ _ (by decide)
  have hxs := members_length (ValN n) he
  obtain ⟨q, q1, q2, q3⟩ := parseObjectLoop_complete (ValN n) (parse f) (f - 1) (parse_skip f)
    (fun e x hex hel => parse_complete n e x hex f (by omega)) he
    (advance (skipWhitespace (NewJSONParser (ws ++ 0x7B :: (body ++ y))))).2 []
    y (f - kvs.length) (by omega) a3 hs hn
  refine ⟨q, ((s0.append a2).append q1).1, ?_, q2, by omega, ?_⟩
  · have := ((s0.append a2).append q1).2.1
    simpa [NewJSONParser] using this
  · rw [parse_dispatch_object f _ a1]
    simp only [parseObject]
    rw [if_neg (by rw [hpk]; decide), parseObjectLoop_skip]
    rw [show kvs.length + (f - kvs.length) = f by omega] at q3
    rw [q3]

/-- A turn of the loop of `parseObject` that does not find an opening quote
fails with the expected-string-key error at the character it finds. -/
theorem parseObjectLoop_no_key (pv : JSONParser → Result JSONValue) (k : Nat) (p : JSONParser)
    (obj : List (List Nat × JSONValue)) (h : peek (skipWhitespace p) ≠ 0x22) :
    parseObjectLoop pv (k + 1) p obj
      = .error (newError (skipWhitespace p) "se esperaba una clave string") := by
  rw [parseObjectLoop_succ, if_pos h]

/-- The input `s`, a comma, whitespace `w` and a rest `r` that does not start
with a quote, after `s` closed by a brace was accepted as a non-empty object. -/
theorem object_comma_no_key (s : List Nat) (m : List (List Nat × JSONValue))
    (hs : ParseJSON (s ++ [0x7D]) = .value (.object m)) (hne : m ≠ [])
    (w r : List Nat) (hw : Spaces w) (hsp : isSpace (peekOf r) = false)
    (hq : peekOf r ≠ 0x22) :
    ParseJSON (s ++ 0x2C :: (w ++ r)) = .failure ⟨"se esperaba una clave string",
      (lineColAt (s ++ 0x2C :: (w ++ r)) (s.length + 1 + w.length)).1,
      (lineColAt (s ++ 0x2C :: (w ++ r)) (s.length + 1 + w.length)).2⟩ := by
  obtain ⟨ws, t, ws', h1, h2, h3, hsplit⟩ := ParseJSON_sound hs
  have hnil := closing_split hsplit h2 (by decide)
  subst hnil
  obtain ⟨body, kvs, hb, rfl, rfl⟩ := valN_object h3 hne
  have hcut := closing_cut hsplit
  subst hcut
  obtain ⟨q, r1, r2, r3, r4, r5⟩ := object_body_run (y := 0x2C :: (w ++ r)) h1 hb
    (by rw [peekOf_ascii _ _ (by decide)]; decide) (by rw [peekOf_ascii _ _ (by decide)]; decide)
  have hI : ws ++ 0x7B :: (body ++ 0x2C :: (w ++ r)) = (ws ++ 0x7B :: body) ++ 0x2C :: (w ++ r) := by
    simp
  rw [hI] at r1 r4 r5
  obtain ⟨f, hf⟩ : ∃ f, f = ((ws ++ 0x7B :: body) ++ 0x2C :: (w ++ r)).length := ⟨_, rfl⟩
  rw [← hf] at r4 r5
  obtain ⟨c1, c2, c3⟩ := span_byte r3 (by decide)
  obtain ⟨d1, d2⟩ := skipWhitespace_spaces c3 hw hsp
  obtain ⟨j, hj⟩ : ∃ j, f - kvs.length = j + 1 := ⟨f - kvs.length - 1, by omega⟩
  have hreach := (r1.trans c2.1).trans d1.1
  have hpos : (skipWhitespace (advance q).2).pos = (ws ++ 0x7B :: body).length + 1 + w.length := by
    rw [d1.2.1, c2.2.1, r2]; rfl
  rw [objectTail_comma c1, hj, parseObjectLoop_no_key _ _ _ _ (by rw [peek_rest, d2]; exact hq)] at r5
  have hlc := reach_lineColAt hreach
  rw [hpos] at hlc
  simp only [ParseJSON]
  rw [← hf, r5, hlc]
  rfl

/-- The input whitespace `ws0`, an opening brace, whitespace `w` and a rest `r`
that starts neither with a quote nor with a closing brace. -/
theorem object_open_no_key (ws0 w r : List Nat) (h0 : Spaces ws0) (hw : Spaces w)
    (hsp : isSpace (peekOf r) = false) (hq : peekOf r ≠ 0x22) (hc : peekOf r ≠ 0x7D) :
    ParseJSON (ws0 ++ 0x7B :: (w ++ r)) = .failure ⟨"se esperaba una clave string",
      (lineColAt (ws0 ++ 0x7B :: (w ++ r)) (ws0.length + 1 + w.length)).1,
      (lineColAt (ws0 ++ 0x7B :: (w ++ r)) (ws0.length + 1 + w.length)).2⟩ := by
  obtain ⟨f, hf⟩ : ∃ f, f = (ws0 ++ 0x7B :: (w ++ r)).length := ⟨_, rfl⟩
  obtain ⟨f', hf'⟩ : ∃ f', f = f' + 1 := ⟨f - 1, by rw [hf]; simp; omega⟩
  obtain ⟨s0, s1⟩ := skipWhitespace_spaces (p := NewJSONParser (ws0 ++ 0x7B :: (w ++ r)))
    (by rw [rest_new]) h0 (by rw [peekOf_ascii _ _ (by decide)]; decide)
  obtain ⟨a1, a2, a3⟩ := span_byte s1 (by decide)
  obtain ⟨b1, b2⟩ := skipWhitespace_spaces a3 hw hsp
  have hreach := (s0.1.trans a2.1).trans b1.1
  have hpos : (skipWhitespace (advance (skipWhitespace
      (NewJSONParser (ws0 ++ 0x7B :: (w ++ r))))).2).pos = ws0.length + 1 + w.length := by
    rw [b1.2.1, a2.2.1, s0.2.1]; simp [NewJSONParser]
  have hlc := reach_lineColAt hreach
  rw [hpos] at hlc
  have hrun : parse (f + 1) (NewJSONParser (ws0 ++ 0x7B :: (w ++ r)))
      = .error (newError (skipWhitespace (advance (skipWhitespace
          (NewJSONParser (ws0 ++ 0x7B :: (w ++ r))))).2) "se esperaba una clave string") := by
    rw [parse_dispatch_object f _ a1]
    simp only [parseObject]
    rw [if_neg (by rw [peek_rest, b2]; exact hc), hf',
      parseObjectLoop_no_key _ _ _ _ (by rw [skipWhitespace_idem, peek_rest, b2]; exact hq),
      skipWhitespace_idem]
    rfl
  simp only [ParseJSON]
  rw [← hf, hrun, hlc]
  rfl

/-! ## Further runs and invariants -/

/-- The run of `parseNumber` on a `0` followed by a digit, after an optional
minus sign. -/
theorem parseNumber_leading_zero {p : JSONParser} {m r : List Nat} {d : Nat}
    (hm : m = [] ∨ m = [0x2D]) (hd : isAsciiDigit d = true) (h : rest p = m ++ 0x30 :: d :: r) :
    ∃ q, parseNumber p = .error (newError q "número inválido con cero inicial")
      ∧ Span p q (m ++ [0x30]) := by
  have hd128 := isAsciiDigit_lt hd
  have hdu : unicodeIsDigit d = true := by rw [unicodeIsDigit_ascii hd128]; exact hd
  have tail : ∀ p1 : JSONParser, rest p1 = 0x30 :: d :: r →
      (if peek p1 = 0x30 then
        (if unicodeIsDigit (peek (advance p1).2) = true then
          Result.error (newError (advance p1).2 "número inválido con cero inicial")
        else numberFraction p.pos (advance p1).2)
      else if unicodeIsDigit (peek p1) = true then
        numberFraction p.pos (digitsLoop p1.input.length p1)
      else Result.error (newError p1 "número mal formado"))
      = Result.error (newError (advance p1).2 "número inválido con cero inicial")
      ∧ Span p1 (advance p1).2 [0x30] := by
    intro p1 h1
    obtain ⟨a1, a2, a3⟩ := span_byte h1 (by decide)
    have hpk : peek (advance p1).2 = d := by rw [peek_rest, a3]; exact peekOf_ascii _ _ hd128
    rw [if_pos a1, if_pos (by rw [hpk]; exact hdu)]
    exact ⟨rfl, a2⟩
  simp only [parseNumber]
  rcases hm with rfl | rfl
  · have h0 : rest p = 0x30 :: d :: r := by simpa using h
    have hpk : peek p = 0x30 := (span_byte h0 (by decide)).1
    have e : (if peek p = 0x2D then (advance p).2 else p) = p := if_neg (by rw [hpk]; decide)
    rw [e]
    obtain ⟨t1, t2⟩ := tail p h0
    exact ⟨_, t1, by simpa using t2⟩
  · have h0 : rest p = 0x2D :: 0x30 :: d :: r := by simpa using h
    obtain ⟨a1, a2, a3⟩ := span_byte h0 (by decide)
    have e : (if peek p = 0x2D then (advance p).2 else p) = (advance p).2 := if_pos a1
    rw [e]
    obtain ⟨t1, t2⟩ := tail _ a3
    exact ⟨_, t1, by simpa using a2.append t2⟩

theorem spaces_ascii {ws : List Nat} (h : Spaces ws) : AllAscii ws :=
  fun b hb => isSpace_ascii b (h b hb)

theorem numLit_grammar {w : List Nat} {f : Float64} (h : NumLit w f) : NumGrammar w := by
  obtain ⟨sg, ip, fr, ex, h1, h2, h3, h4, h5, _, _⟩ := h
  exact ⟨sg, ip, fr, ex, h1, h2, h3, h4, h5⟩

theorem numLit_ascii {w : List Nat} {f : Float64} (h : NumLit w f) : AllAscii w := by
  obtain ⟨sg, ip, fr, ex, _, _, _, _, _, h6, _⟩ := h
  exact parseFloat_ascii h6

/-- The number grammar with a conversion and the integral check is a number
literal of the parser. -/
theorem numLit_of_grammar {w : List Nat} {f : Float64} (hg : NumGrammar w)
    (hf : strconvParseFloat w = some f)
    (hi : (∀ b ∈ w, b ≠ 0x2E ∧ b ≠ 0x65 ∧ b ≠ 0x45) → w = formatF0 f) : NumLit w f := by
  obtain ⟨sg, ip, fr, ex, h1, h2, h3, h4, h5⟩ := hg
  refine ⟨sg, ip, fr, ex, h1, h2, h3, h4, h5, hf, ?_⟩
  intro hfr hex
  apply hi
  subst hfr hex
  intro b hb
  rw [h1] at hb
  simp only [List.append_nil, List.mem_append] at hb
  have hd : isAsciiDigit b = true ∨ b = 0x2D := by
    rcases hb with hb | hb
    · rcases h2 with rfl | rfl
      · cases hb
      · right; simpa using hb
    · rcases h3 with rfl | ⟨_, _, hdt⟩
      · left; simp at hb; subst hb; decide
      · exact Or.inl (hdt b hb)
  rcases hd with hd | rfl
  · simp only [isAsciiDigit, decide_eq_true_eq] at hd
    omega
  · decide

/-- The first non-whitespace byte of a text and what surrounds it are
determined by the text. -/
theorem first_nonspace_unique : ∀ (X Y : List Nat) (c d : Nat) (A B : List Nat),
    Spaces X → Spaces Y → isSpace c = false → isSpace d = false →
    X ++ c :: A = Y ++ d :: B → X = Y ∧ c = d ∧ A = B := by
  intro X
  induction X with
  | nil =>
    intro Y c d A B _ hY hc hd h
    cases Y with
    | nil => simp at h; exact ⟨rfl, h.1, h.2⟩
    | cons y Y =>
      simp at h
      have := hY y (by simp)
      rw [← h.1, hc] at this
      cases this
  | cons x X ih =>
    intro Y c d A B hX hY hc hd h
    cases Y with
    | nil =>
      simp at h
      have := hX x (by simp)
      rw [h.1, hd] at this
      cases this
    | cons y Y =>
      simp at h
      obtain ⟨r1, r2, r3⟩ := ih Y c d A B (fun b hb => hX b (by simp [hb]))
        (fun b hb => hY b (by simp [hb])) hc hd h.2
      exact ⟨by rw [h.1, r1], r2, r3⟩

/-- The last non-whitespace byte of a text and what surrounds it are
determined by the text. -/
theorem last_nonspace_unique {A B X Y : List Nat} {c d : Nat} (hX : Spaces X) (hY : Spaces Y)
    (hc : isSpace c = false) (hd : isSpace d = false) (h : A ++ c :: X = B ++ d :: Y) :
    A = B ∧ c = d ∧ X = Y := by
  have h' := congrArg List.reverse h
  simp only [List.reverse_append, List.reverse_cons, List.append_assoc, List.singleton_append]
    at h'
  obtain ⟨r1, r2, r3⟩ := first_nonspace_unique X.reverse Y.reverse c d A.reverse B.reverse
    (fun b hb => hX b (List.mem_reverse.mp hb)) (fun b hb => hY b (List.mem_reverse.mp hb))
    hc hd h'
  exact ⟨List.reverse_injective r3, r2, List.reverse_injective r1⟩

theorem valN_array_cases {n : Nat} {w : List Nat} {xs : List JSONValue}
    (h : ValN n w (.array xs)) :
    (∃ ws, Spaces ws ∧ w = 0x5B :: (ws ++ [0x5D]) ∧ xs = [])
    ∨ (∃ body, Elems (ValN (n - 1)) body xs ∧ w = 0x5B :: (body ++ [0x5D])) := by
  cases n with
  | zero => exact absurd h (by simp [ValN])
  | succ n =>
    simp only [ValN] at h
    rcases h with ⟨_, h⟩ | ⟨_, h⟩ | ⟨_, h⟩ | ⟨f, _, h⟩ | ⟨s', _, h⟩
      | ⟨ws, hs, hw, h⟩ | ⟨body, ys, hb, hw, h⟩ | ⟨ws, _, _, h⟩ | ⟨body, kvs, _, _, h⟩
    all_goals first
      | (injection h with h; subst h; exact Or.inl ⟨ws, hs, hw, rfl⟩)
      | (injection h with h; subst h; exact Or.inr ⟨body, hb, hw⟩)
      | cases h

theorem valN_object_cases {n : Nat} {w : List Nat} {m : List (List Nat × JSONValue)}
    (h : ValN n w (.object m)) :
    (∃ ws, Spaces ws ∧ w = 0x7B :: (ws ++ [0x7D]) ∧ m = [])
    ∨ (∃ body kvs, Members (ValN (n - 1)) body kvs ∧ w = 0x7B :: (body ++ [0x7D])
        ∧ m = insertAll [] kvs) := by
  cases n with
  | zero => exact absurd h (by simp [ValN])
  | succ n =>
    simp only [ValN] at h
    rcases h with ⟨_, h⟩ | ⟨_, h⟩ | ⟨_, h⟩ | ⟨f, _, h⟩ | ⟨s', _, h⟩
      | ⟨ws, _, _, h⟩ | ⟨body, ys, _, _, h⟩ | ⟨ws, hs, hw, h⟩ | ⟨body, kvs, hb, hw, h⟩
    all_goals first
      | (injection h with h; subst h; exact Or.inl ⟨ws, hs, hw, rfl⟩)
      | (injection h with h; exact Or.inr ⟨body, kvs, hb, hw, h⟩)
      | cases h

/-- An array text cut before its closing bracket, after at least one element:
the loop of `parseArray` asks for a comma at the end of input. -/
theorem array_unterminated {n : Nat} {ws body : List Nat} {xs : List JSONValue}
    (hws : Spaces ws) (he : Elems (ValN n) body xs) :
    ParseJSON (ws ++ 0x5B :: body) = .failure ⟨"se esperaba \x27,\x27 entre elementos del arreglo",
      (lineColAt (ws ++ 0x5B :: body) (ws ++ 0x5B :: body).length).1,
      (lineColAt (ws ++ 0x5B :: body) (ws ++ 0x5B :: body).length).2⟩ := by
  obtain ⟨q, r1, r2, r3, r4, r5⟩ := array_body_run (y := []) hws he (by decide) (by decide)
  simp only [List.append_nil] at r1 r2 r4 r5
  have hpk : peek q = 0 := by rw [peek_rest, r3]; rfl
  have hlc := reach_lineColAt r1
  rw [r2] at hlc
  simp only [arrayTail] at r5
  rw [if_neg (by rw [hpk]; decide), if_pos (by rw [hpk]; decide)] at r5
  simp only [ParseJSON]
  rw [r5, hlc]
  rfl

/-- An object text cut before its closing brace, after at least one member:
the loop of `parseObject` asks for a comma at the end of input. -/
theorem object_unterminated {n : Nat} {ws body : List Nat} {kvs : List (List Nat × JSONValue)}
    (hws : Spaces ws) (he : Members (ValN n) body kvs) :
    ParseJSON (ws ++ 0x7B :: body) = .failure ⟨"se esperaba \x27,\x27 entre pares clave-valor",
      (lineColAt (ws ++ 0x7B :: body) (ws ++ 0x7B :: body).length).1,
      (lineColAt (ws ++ 0x7B :: body) (ws ++ 0x7B :: body).length).2⟩ := by
  obtain ⟨q, r1, r2, r3, r4, r5⟩ := object_body_run (y := []) hws he (by decide) (by decide)
  simp only [List.append_nil] at r1 r2 r4 r5
  have hpk : peek q = 0 := by rw [peek_rest, r3]; rfl
  have hlc := reach_lineColAt r1
  rw [r2] at hlc
  simp only [objectTail] at r5
  rw [if_neg (by rw [hpk]; decide), if_pos (by rw [hpk]; decide)] at r5
  simp only [ParseJSON]
  rw [r5, hlc]
  rfl

/-- An opening bracket followed by whitespace only: the loop of `parseArray`
asks `parse` for a value at the end of input. -/
theorem array_open_eof {ws0 w : List Nat} (h0 : Spaces ws0) (hw : Spaces w) :
    ParseJSON (ws0 ++ 0x5B :: w) = .failure ⟨"entrada vacía o solo espacios en blanco",
      (lineColAt (ws0 ++ 0x5B :: w) (ws0 ++ 0x5B :: w).length).1,
      (lineColAt (ws0 ++ 0x5B :: w) (ws0 ++ 0x5B :: w).length).2⟩ := by
  obtain ⟨f, hf⟩ : ∃ f, f = (ws0 ++ 0x5B :: w).length := ⟨_, rfl⟩
  obtain ⟨f', hf'⟩ : ∃ f', f = f' + 1 := ⟨f - 1, by rw [hf]; simp; omega⟩
  obtain ⟨s0, s1⟩ := @skipWhitespace_spaces (NewJSONParser (ws0 ++ 0x5B :: w)) ws0 (0x5B :: w)
    (by rw [rest_new]) h0 (by rw [peekOf_ascii _ _ (by decide)]; decide)
  obtain ⟨a1, a2, a3⟩ := span_byte s1 (by decide)
  obtain ⟨b1, b2⟩ := @skipWhitespace_spaces _ w [] (by rw [a3]; simp) hw (by decide)
  have hreach := (s0.1.trans a2.1).trans b1.1
  have hpos : (skipWhitespace (advance (skipWhitespace
      (NewJSONParser (ws0 ++ 0x5B :: w)))).2).pos = (ws0 ++ 0x5B :: w).length := by
    rw [b1.2.1, a2.2.1, s0.2.1]; simp [NewJSONParser]; omega
  have hin : (skipWhitespace (advance (skipWhitespace
      (NewJSONParser (ws0 ++ 0x5B :: w)))).2).input = ws0 ++ 0x5B :: w := by
    rw [hreach.input_eq]; rfl
  have hlc := reach_lineColAt hreach
  rw [hpos] at hlc
  have hrun : parse (f + 1) (NewJSONParser (ws0 ++ 0x5B :: w))
      = .error (newError (skipWhitespace (advance (skipWhitespace
          (NewJSONParser (ws0 ++ 0x5B :: w)))).2) "entrada vacía o solo espacios en blanco") := by
    rw [parse_dispatch_array f _ a1]
    simp only [parseArray]
    rw [if_neg (by rw [peek_rest, b2]; decide), hf', parseArrayLoop_succ, skipWhitespace_idem,
      parse_skip, parse_succ,
      if_pos (by rw [hin, hpos])]
    rfl
  simp only [ParseJSON]
  rw [← hf] at hlc ⊢
  rw [hrun, hlc]
  rfl

/-- The run of `parseNumber` over a text of the number grammar: the scanner
reads the whole text and hands it to the conversion. -/
theorem parseNumber_run {p : JSONParser} {sg ip fr ex y : List Nat}
    (hsg : sg = [] ∨ sg = [0x2D]) (hip : IntPart ip) (hfr : FracPart fr) (hex : ExpPart ex)
    (h : rest p = sg ++ ip ++ fr ++ ex ++ y) (hs : isNumberStop (peekOf y) = true) :
    ∃ p', Span p p' (sg ++ ip ++ fr ++ ex)
      ∧ parseNumber p = numberFinish p.pos (decide (fr ≠ [])) (decide (ex ≠ [])) p' := by
  have hnd := fracPart_peek hfr hex hs
  have key : ∀ p1, Span p p1 sg → rest p1 = ip ++ (fr ++ ex ++ y) →
      ∃ p', Span p p' (sg ++ ip ++ fr ++ ex)
        ∧ (if peek p1 = 0x30 then
              if unicodeIsDigit (peek (advance p1).2) = true then
                Result.error (newError (advance p1).2 "número inválido con cero inicial")
              else numberFraction p.pos (advance p1).2
            else if unicodeIsDigit (peek p1) = true then
              numberFraction p.pos (digitsLoop p1.input.length p1)
            else Result.error (newError p1 "número mal formado"))
          = numberFinish p.pos (decide (fr ≠ [])) (decide (ex ≠ [])) p' := by
    intro p1 hp1 hr1
    have fin : ∀ q, Span p1 q ip → rest q = fr ++ ex ++ y →
        ∃ p', Span p p' (sg ++ ip ++ fr ++ ex)
          ∧ numberFraction p.pos q
            = numberFinish p.pos (decide (fr ≠ [])) (decide (ex ≠ [])) p' := by
      intro q hq hrq
      obtain ⟨p', f1, f2, f3⟩ := @numberFraction_complete p.pos _ _ _ _ hfr hex hrq hs
      refine ⟨p', ?_, f3⟩
      have := (hp1.append hq).append f1
      simpa [List.append_assoc] using this
    rcases hip with rfl | ⟨hne, hh, hdt⟩
    · obtain ⟨a1, a2, a3⟩ := span_byte (p := p1) (t := fr ++ ex ++ y) (by simpa using hr1)
        (by decide : (0x30 : Nat) < 0x80)
      obtain ⟨p', g1, g2⟩ := fin _ a2 a3
      refine ⟨p', g1, ?_⟩
      rw [if_pos a1, if_neg (by rw [peek_rest, a3, hnd]; simp), g2]
    · have hdh := digitText_head hne hdt (fr ++ ex ++ y)
      obtain ⟨d1, d2⟩ := digits_complete hr1 hdt hnd
      obtain ⟨p', g1, g2⟩ := fin _ d1 d2
      have hpk : peek p1 = peekOf (ip ++ (fr ++ ex ++ y)) := by rw [peek_rest, hr1]
      refine ⟨p', g1, ?_⟩
      rw [if_neg (by rw [hpk]; intro hc; rw [hc] at hdh; exact hh hdh.2.2.2),
        if_pos (by rw [hpk]; exact hdh.1), digitsLoop_eq_advRun, g2]
  simp only [parseNumber]
  rcases hsg with rfl | rfl
  · have hpk : peek p ≠ 0x2D := by
      rw [peek_rest, h]
      rcases hip with rfl | ⟨hne, hh, hdt⟩
      · simp [peekOf_ascii]
      · have := digitText_head hne hdt (fr ++ ex ++ y)
        simpa [List.append_assoc] using this.2.2.1
    have e : (if peek p = 0x2D then (advance p).2 else p) = p := if_neg hpk
    rw [e]
    exact key p (Span.refl p) (by simpa [List.append_assoc] using h)
  · obtain ⟨a1, a2, a3⟩ := span_byte (p := p) (by simpa [List.append_assoc] using h)
      (by decide : (0x2D : Nat) < 0x80)
    have e : (if peek p = 0x2D then (advance p).2 else p) = (advance p).2 := if_pos a1
    rw [e]
    exact key (advance p).2 a2 (by simpa [List.append_assoc] using a3)

/-- The end of `parseNumber` on a text whose conversion fails, or that has
neither fraction nor exponent and differs from the `%.0f` rendering of its
conversion. -/
theorem numberFinish_reject {start : Nat} {hd he : Bool} {p : JSONParser}
    (h : strconvParseFloat (slice p.input start p.pos) = none
      ∨ ∃ f, strconvParseFloat (slice p.input start p.pos) = some f ∧ hd = false ∧ he = false
          ∧ slice p.input start p.pos ≠ formatF0 f) :
    numberFinish start hd he p = .error (newError p "número inválido") := by
  rcases h with h | ⟨f, h1, rfl, rfl, h4⟩
  · simp only [numberFinish, h]
  · simp only [numberFinish, h1]
    rw [if_pos]
    simpa using h4

/-- The run of `ParseJSON` on a text of the number grammar between
whitespace: the outcome is decided by the end of `parseNumber` at the cursor
after the text. -/
theorem ParseJSON_number_run {ws sg ip fr ex ws' : List Nat} (h1 : Spaces ws) (h2 : Spaces ws')
    (hsg : sg = [] ∨ sg = [0x2D]) (hip : IntPart ip) (hfr : FracPart fr) (hex : ExpPart ex) :
    ∃ q, Reach (NewJSONParser (ws ++ (sg ++ ip ++ fr ++ ex) ++ ws')) q
      ∧ q.pos = ws.length + (sg ++ ip ++ fr ++ ex).length
      ∧ slice q.input (skipWhitespace (NewJSONParser (ws ++ (sg ++ ip ++ fr ++ ex) ++ ws'))).pos
          q.pos = sg ++ ip ++ fr ++ ex
      ∧ parse ((ws ++ (sg ++ ip ++ fr ++ ex) ++ ws').length + 1)
          (NewJSONParser (ws ++ (sg ++ ip ++ fr ++ ex) ++ ws'))
        = (numberFinish (skipWhitespace (NewJSONParser (ws ++ (sg ++ ip ++ fr ++ ex) ++ ws'))).pos
            (decide (fr ≠ [])) (decide (ex ≠ [])) q).map JSONValue.number := by
  have hhead : ∃ b t, sg ++ ip ++ fr ++ ex = b :: t ∧ (b = 0x2D ∨ isAsciiDigit b = true) := by
    obtain ⟨b, t, hb, hd⟩ := intPart_head hip
    rcases hsg with rfl | rfl
    · exact ⟨b, t ++ fr ++ ex, by simp [hb], Or.inr hd⟩
    · exact ⟨0x2D, ip ++ fr ++ ex, by simp, Or.inl rfl⟩
  obtain ⟨b, t, hbt, hb⟩ := hhead
  have hbs : isSpace b = false := by
    rcases hb with rfl | hb
    · decide
    · exact isAsciiDigit_not_space hb
  have hb128 : b < 0x80 := by
    rcases hb with rfl | hb
    · decide
    · exact isAsciiDigit_lt hb
  obtain ⟨s0, s1⟩ := @skipWhitespace_spaces
    (NewJSONParser (ws ++ (sg ++ ip ++ fr ++ ex) ++ ws')) ws ((sg ++ ip ++ fr ++ ex) ++ ws')
    (by rw [rest_new, List.append_assoc]) h1
    (by rw [hbt]; exact peekOf_not_space _ hbs)
  have hstop : isNumberStop (peekOf ws') = true := by
    cases ws' with
    | nil => exact isNumberStop_zero
    | cons c ws'' =>
      have hc := h2 c (by simp)
      rw [peekOf_ascii c _ (isSpace_ascii c hc)]
      exact isNumberStop_space hc
  obtain ⟨q, q1, q2⟩ := parseNumber_run hsg hip hfr hex s1 hstop
  have hpk : peek (skipWhitespace (NewJSONParser (ws ++ (sg ++ ip ++ fr ++ ex) ++ ws'))) = 0x2D
      ∨ isAsciiDigit (peek (skipWhitespace
          (NewJSONParser (ws ++ (sg ++ ip ++ fr ++ ex) ++ ws')))) = true := by
    rw [peek_rest, s1, hbt]
    simp only [List.cons_append]
    rw [peekOf_ascii _ _ hb128]
    exact hb
  refine ⟨q, s0.1.trans q1.1, ?_, ?_, ?_⟩
  · rw [q1.2.1, s0.2.1]; simp [NewJSONParser]
  · rw [q1.input_same]
    exact slice_of_span q1
  · rw [parse_dispatch_number _ _ hpk, q2]

/-- A text of the number grammar between whitespace is rejected with the
invalid-number error right after the text when its conversion fails, or when
it has neither fraction nor exponent and differs from the `%.0f` rendering of
its conversion. -/
theorem number_rejected {ws sg ip fr ex ws' : List Nat} (h1 : Spaces ws) (h2 : Spaces ws')
    (hsg : sg = [] ∨ sg = [0x2D]) (hip : IntPart ip) (hfr : FracPart fr) (hex : ExpPart ex)
    (h : strconvParseFloat (sg ++ ip ++ fr ++ ex) = none
      ∨ ∃ f, strconvParseFloat (sg ++ ip ++ fr ++ ex) = some f ∧ fr = [] ∧ ex = []
          ∧ sg ++ ip ++ fr ++ ex ≠ formatF0 f) :
    ParseJSON (ws ++ (sg ++ ip ++ fr ++ ex) ++ ws') = .failure ⟨"número inválido",
      (lineColAt (ws ++ (sg ++ ip ++ fr ++ ex) ++ ws')
        (ws.length + (sg ++ ip ++ fr ++ ex).length)).1,
      (lineColAt (ws ++ (sg ++ ip ++ fr ++ ex) ++ ws')
        (ws.length + (sg ++ ip ++ fr ++ ex).length)).2⟩ := by
  obtain ⟨q, r1, r2, r3, r4⟩ := ParseJSON_number_run h1 h2 hsg hip hfr hex
  have hrej := @numberFinish_reject
    (skipWhitespace (NewJSONParser (ws ++ (sg ++ ip ++ fr ++ ex) ++ ws'))).pos
    (decide (fr ≠ [])) (decide (ex ≠ [])) q (by
      rw [r3]
      rcases h with h | ⟨f, g1, g2, g3, g4⟩
      · exact Or.inl h
      · exact Or.inr ⟨f, g1, by simp [g2], by simp [g3], g4⟩)
  have hlc := reach_lineColAt r1
  rw [r2] at hlc
  simp only [ParseJSON]
  rw [r4, hrej, hlc]
  rfl

/-! ## Every rule returns, at a cursor reached by `advance` -/

theorem landed_map {α β : Type} (g : α → β) {p : JSONParser} {r : Result α}
    (h : Landed p r) : Landed p (r.map g) := by
  cases r with
  | ok a q => exact h
  | error e => exact h
  | outOfFuel => exact h

theorem landed_from {α : Type} {p0 p : JSONParser} {r : Result α} (h0 : Reach p0 p)
    (h : Landed p r) : Landed p0 r := by
  cases r with
  | ok a q => exact h0.trans h
  | error e =>
    obtain ⟨q, h1, h2⟩ := h
    exact ⟨q, h0.trans h1, h2⟩
  | outOfFuel => exact h

theorem landed_error {α : Type} (p : JSONParser) (msg : String) :
    Landed p (Result.error (newError p msg) : Result α) :=
  ⟨p, Reach.refl p, rfl, rfl⟩

theorem landed_ok {α : Type} {p q : JSONParser} (a : α) (h : Reach p q) :
    Landed p (Result.ok a q) := h

/-- The loop of `parseString` returns within its step budget, at a cursor
reached by calls of `advance`. -/
theorem strBody_landed : ∀ (n : Nat) (p : JSONParser) (res : List Nat),
    p.input.length - p.pos ≤ n → Landed p (strBody p res) := by
  intro n
  induction n with
  | zero =>
    intro p res hn
    rw [strBody_step, if_pos (by omega)]
    exact landed_error p _
  | succ n ih =>
    intro p res hn
    rw [strBody_step]
    by_cases h0 : p.pos ≥ p.input.length
    · rw [if_pos h0]; exact landed_error p _
    · rw [if_neg h0]
      have hlt : p.pos < p.input.length := by omega
      have h1 := advance_pos_lt p hlt
      have hi1 := advance_input p
      have h2 := advance_pos_ge (advance p).2
      have hi2 := advance_input (advance p).2
      by_cases hq : peek p = 0x22
      · rw [if_pos hq]; exact landed_ok _ (Reach.single p)
      · rw [if_neg hq]
        by_cases hb : peek p = 0x5C
        · rw [if_pos hb]
          cases unescape (peek (advance p).2) with
          | none =>
            exact landed_from ((Reach.single p).trans (Reach.single _)) (landed_error _ _)
          | some d =>
            exact landed_from ((Reach.single p).trans (Reach.single _))
              (ih _ _ (by rw [hi2, hi1]; omega))
        · rw [if_neg hb]
          exact landed_from (Reach.single p) (ih _ _ (by rw [hi1]; omega))

theorem parseString_landed (p : JSONParser) : Landed p (parseString p) := by
  rw [parseString_eq]
  exact landed_from (Reach.single p) (strBody_landed _ _ _ (Nat.le_refl _))

theorem parseBoolean_landed (p : JSONParser) : Landed p (parseBoolean p) := by
  cases h : parseBoolean p with
  | ok b q =>
    rcases parseBoolean_sound h with ⟨_, hs⟩ | ⟨_, hs⟩
    · exact hs.1
    · exact hs.1
  | error e =>
    simp only [parseBoolean] at h
    split_ifs at h
    injection h with h
    subst h
    exact landed_error p _
  | outOfFuel =>
    simp only [parseBoolean] at h
    split_ifs at h

theorem parseNull_landed (p : JSONParser) : Landed p (parseNull p) := by
  cases h : parseNull p with
  | ok b q => exact (parseNull_sound h).2.1
  | error e =>
    simp only [parseNull] at h
    split_ifs at h
    injection h with h
    subst h
    exact landed_error p _
  | outOfFuel =>
    simp only [parseNull] at h
    split_ifs at h

theorem digitsLoop_reach (f : Nat) (p : JSONParser) : Reach p (digitsLoop f p) := by
  rw [digitsLoop_eq_advWhile]
  obtain ⟨ds, h, _⟩ := advWhile_span unicodeIsDigit unicodeIsDigit_zero f p
  exact h.1

theorem numberFinish_landed (start : Nat) (hd he : Bool) (p : JSONParser) :
    Landed p (numberFinish start hd he p) := by
  simp only [numberFinish]
  cases strconvParseFloat (slice p.input start p.pos) with
  | none => exact landed_error p _
  | some num =>
    simp only []
    split_ifs
    · exact landed_error p _
    · exact landed_ok _ (Reach.refl p)

theorem numberExponent_landed (start : Nat) (hd : Bool) (p : JSONParser) :
    Landed p (numberExponent start hd p) := by
  simp only [numberExponent]
  by_cases h : peek p = 0x65 ∨ peek p = 0x45
  · rw [if_pos h]
    obtain ⟨p2, hp2, r2⟩ : ∃ p2, p2 = (if peek (advance p).2 = 0x2B ∨ peek (advance p).2 = 0x2D
        then (advance (advance p).2).2 else (advance p).2) ∧ Reach p p2 := by
      refine ⟨_, rfl, ?_⟩
      by_cases hs : peek (advance p).2 = 0x2B ∨ peek (advance p).2 = 0x2D
      · rw [if_pos hs]; exact (Reach.single p).trans (Reach.single _)
      · rw [if_neg hs]; exact Reach.single p
    rw [← hp2]
    by_cases hdg : (!unicodeIsDigit (peek p2)) = true
    · rw [if_pos hdg]; exact landed_from r2 (landed_error _ _)
    · rw [if_neg hdg]
      exact landed_from (r2.trans (digitsLoop_reach _ _)) (numberFinish_landed _ _ _ _)
  · rw [if_neg h]
    exact numberFinish_landed _ _ _ _

theorem numberFraction_landed (start : Nat) (p : JSONParser) :
    Landed p (numberFraction start p) := by
  simp only [numberFraction]
  by_cases h : peek p = 0x2E
  · rw [if_pos h]
    by_cases hdg : (!unicodeIsDigit (peek (advance p).2)) = true
    · rw [if_pos hdg]; exact landed_from (Reach.single p) (landed_error _ _)
    · rw [if_neg hdg]
      exact landed_from ((Reach.single p).trans (digitsLoop_reach _ _))
        (numberExponent_landed _ _ _)
  · rw [if_neg h]
    exact numberExponent_landed _ _ _

theorem parseNumber_landed (p : JSONParser) : Landed p (parseNumber p) := by
  simp only [parseNumber]
  obtain ⟨p1, hp1, r1⟩ : ∃ p1, p1 = (if peek p = 0x2D then (advance p).2 else p) ∧ Reach p p1 := by
    refine ⟨_, rfl, ?_⟩
    by_cases hs : peek p = 0x2D
    · rw [if_pos hs]; exact Reach.single p
    · rw [if_neg hs]; exact Reach.refl p
  rw [← hp1]
  by_cases hz : peek p1 = 0x30
  · rw [if_pos hz]
    by_cases hdg : unicodeIsDigit (peek (advance p1).2) = true
    · rw [if_pos hdg]; exact landed_from (r1.trans (Reach.single _)) (landed_error _ _)
    · rw [if_neg hdg]; exact landed_from (r1.trans (Reach.single _)) (numberFraction_landed _ _)
  · rw [if_neg hz]
    by_cases hdg : unicodeIsDigit (peek p1) = true
    · rw [if_pos hdg]
      exact landed_from (r1.trans (digitsLoop_reach _ _)) (numberFraction_landed _ _)
    · rw [if_neg hdg]; exact landed_from r1 (landed_error _ _)

theorem Reach.pos_lt_len {p q : JSONParser} (h : Reach p q) (hlt : p.pos < q.pos) :
    p.pos < p.input.length ∧ q.pos ≤ q.input.length := by
  cases h with
  | refl => omega
  | head _ _ h1 h2 =>
    refine ⟨h1, ?_⟩
    exact h2.pos_le_len (by rw [advance_input]; exact advance_pos_le_len p (by omega))

/-- Progress of `parse`: a successful call consumes at least one byte. -/
theorem parse_progress {f : Nat} {p p' : JSONParser} {v : JSONValue}
    (h : parse f p = .ok v p') : Reach p p' ∧ p.pos < p'.pos := by
  obtain ⟨ws, w, h1, h2, h3⟩ := parse_sound f p p' v h
  refine ⟨h3.1, ?_⟩
  have hne := valN_ne_nil h2
  have hl : 0 < w.length := List.length_pos.mpr hne
  rw [h3.2.1, List.length_append]
  omega

theorem reach_remaining {p q : JSONParser} (h : Reach p q) :
    q.input.length - q.pos ≤ p.input.length - p.pos := by
  have h1 := h.input_eq
  have h2 := h.pos_le
  rw [h1]; omega

theorem reach_remaining_lt {p q : JSONParser} (h : Reach p q) (hlt : p.pos < q.pos) :
    q.input.length - q.pos < p.input.length - p.pos := by
  have h1 := h.input_eq
  have h2 := h.pos_lt_len hlt
  rw [h1] at h2 ⊢; omega

/-- The loop of `parseArray` returns within a step budget larger than the
unread input, when the value parser does and makes progress. -/
theorem parseArrayLoop_landed (pv : JSONParser → Result JSONValue) (B : Nat)
    (hpv : ∀ q, q.input.length - q.pos < B → Landed q (pv q))
    (hprog : ∀ q v q', pv q = .ok v q' → q.pos < q'.pos) :
    ∀ (k : Nat) (p : JSONParser) (acc : List JSONValue), p.input.length - p.pos < k →
      p.input.length - p.pos < B → Landed p (parseArrayLoop pv k p acc) := by
  intro k
  induction k with
  | zero => intro p acc h; omega
  | succ k ih =>
    intro p acc hk hB
    rw [parseArrayLoop_succ]
    have r1 := skipWhitespace_reach p
    have m1 := reach_remaining r1
    have hl := hpv (skipWhitespace p) (by omega)
    cases hres : pv (skipWhitespace p) with
    | outOfFuel => rw [hres] at hl; exact hl.elim
    | error e => rw [hres] at hl; exact landed_from r1 hl
    | ok val p2 =>
      rw [hres] at hl
      have r2 : Reach (skipWhitespace p) p2 := hl
      have m2 := reach_remaining_lt r2 (hprog _ _ _ hres)
      have r3 := skipWhitespace_reach p2
      have m3 := reach_remaining r3
      have r4 := Reach.single (skipWhitespace p2)
      have m4 := reach_remaining r4
      have r03 := (r1.trans r2).trans r3
      simp only [arrayTail]
      by_cases hc : peek (skipWhitespace p2) = 0x5D
      · rw [if_pos hc]; exact landed_ok _ (r03.trans r4)
      · rw [if_neg hc]
        by_cases hm : peek (skipWhitespace p2) ≠ 0x2C
        · rw [if_pos hm]; exact landed_from r03 (landed_error _ _)
        · rw [if_neg hm]
          exact landed_from (r03.trans r4) (ih _ _ (by omega) (by omega))

/-- The loop of `parseObject` returns within a step budget larger than the
unread input, when the value parser does and makes progress. -/
theorem parseObjectLoop_landed (pv : JSONParser → Result JSONValue) (B : Nat)
    (hpv : ∀ q, q.input.length - q.pos < B → Landed q (pv q))
    (hprog : ∀ q v q', pv q = .ok v q' → q.pos < q'.pos) :
    ∀ (k : Nat) (p : JSONParser) (obj : List (List Nat × JSONValue)),
      p.input.length - p.pos < k → p.input.length - p.pos < B →
      Landed p (parseObjectLoop pv k p obj) := by
  intro k
  induction k with
  | zero => intro p obj h; omega
  | succ k ih =>
    intro p obj hk hB
    rw [parseObjectLoop_succ]
    have r1 := skipWhitespace_reach p
    have m1 := reach_remaining r1
    by_cases hq : peek (skipWhitespace p) ≠ 0x22
    · rw [if_pos hq]; exact landed_from r1 (landed_error _ _)
    · rw [if_neg hq]
      have hs := parseString_landed (skipWhitespace p)
      cases hstr : parseString (skipWhitespace p) with
      | outOfFuel => rw [hstr] at hs; exact hs.elim
      | error e => rw [hstr] at hs; exact landed_from r1 hs
      | ok key p2 =>
        rw [hstr] at hs
        have r2 : Reach (skipWhitespace p) p2 := hs
        have m2 := reach_remaining r2
        have r3 := skipWhitespace_reach p2
        have m3 := reach_remaining r3
        have r03 := (r1.trans r2).trans r3
        simp only []
        by_cases hcol : peek (skipWhitespace p2) ≠ 0x3A
        · rw [if_pos hcol]; exact landed_from r03 (landed_error _ _)
        · rw [if_neg hcol]
          have r4 := Reach.single (skipWhitespace p2)
          have m4 := reach_remaining r4
          have r5 := skipWhitespace_reach (advance (skipWhitespace p2)).2
          have m5 := reach_remaining r5
          have r05 := (r03.trans r4).trans r5
          have hl := hpv (skipWhitespace (advance (skipWhitespace p2)).2) (by omega)
          cases hres : pv (skipWhitespace (advance (skipWhitespace p2)).2) with
          | outOfFuel => rw [hres] at hl; exact hl.elim
          | error e => rw [hres] at hl; exact landed_from r05 hl
          | ok val p5 =>
            rw [hres] at hl
            have r6 : Reach (skipWhitespace (advance (skipWhitespace p2)).2) p5 := hl
            have m6 := reach_remaining_lt r6 (hprog _ _ _ hres)
            have r7 := skipWhitespace_reach p5
            have m7 := reach_remaining r7
            have r8 := Reach.single (skipWhitespace p5)
            have m8 := reach_remaining r8
            have r07 := (r05.trans r6).trans r7
            simp only [objectTail]
            by_cases hc : peek (skipWhitespace p5) = 0x7D
            · rw [if_pos hc]; exact landed_ok _ (r07.trans r8)
            · rw [if_neg hc]
              by_cases hm : peek (skipWhitespace p5) ≠ 0x2C
              · rw [if_pos hm]; exact landed_from r07 (landed_error _ _)
              · rw [if_neg hm]
                exact landed_from (r07.trans r8) (ih _ _ (by omega) (by omega))

/-- The method `parse` returns within a step budget larger than the unread
input, at a cursor reached by calls of `advance`. -/
theorem parse_landed : ∀ (f : Nat) (p : JSONParser), p.input.length - p.pos < f →
    Landed p (parse f p) := by
  intro f
  induction f with
  | zero => intro p h; omega
  | succ f ih =>
    intro p hf
    rw [parse_succ]
    have r1 := skipWhitespace_reach p
    have m1 := reach_remaining r1
    by_cases h0 : (skipWhitespace p).pos ≥ (skipWhitespace p).input.length
    · rw [if_pos h0]; exact landed_from r1 (landed_error _ _)
    · rw [if_neg h0]
      have hlt : (skipWhitespace p).pos < (skipWhitespace p).input.length := by omega
      have r2 := Reach.single (skipWhitespace p)
      have m2 := reach_remaining_lt r2 (advance_pos_lt _ hlt)
      have r3 := skipWhitespace_reach (advance (skipWhitespace p)).2
      have m3 := reach_remaining r3
      have hprog : ∀ q v q', parse f q = .ok v q' → q.pos < q'.pos :=
        fun q v q' h => (parse_progress h).2
      by_cases hobj : peek (skipWhitespace p) = 0x7B
      · rw [if_pos hobj]
        refine landed_from r1 (landed_map _ ?_)
        simp only [parseObject]
        by_cases hc : peek (skipWhitespace (advance (skipWhitespace p)).2) = 0x7D
        · rw [if_pos hc]; exact landed_ok _ ((r2.trans r3).trans (Reach.single _))
        · rw [if_neg hc]
          exact landed_from (r2.trans r3)
            (parseObjectLoop_landed (parse f) f ih hprog f _ _ (by omega) (by omega))
      · rw [if_neg hobj]
        by_cases harr : peek (skipWhitespace p) = 0x5B
        · rw [if_pos harr]
          refine landed_from r1 (landed_map _ ?_)
          simp only [parseArray]
          by_cases hc : peek (skipWhitespace (advance (skipWhitespace p)).2) = 0x5D
          · rw [if_pos hc]; exact landed_ok _ ((r2.trans r3).trans (Reach.single _))
          · rw [if_neg hc]
            exact landed_from (r2.trans r3)
              (parseArrayLoop_landed (parse f) f ih hprog f _ _ (by omega) (by omega))
        · rw [if_neg harr]
          by_cases hstr : peek (skipWhitespace p) = 0x22
          · rw [if_pos hstr]
            exact landed_from r1 (landed_map _ (parseString_landed _))
          · rw [if_neg hstr]
            by_cases hb : peek (skipWhitespace p) = 0x74 ∨ peek (skipWhitespace p) = 0x66
            · rw [if_pos hb]
              exact landed_from r1 (landed_map _ (parseBoolean_landed _))
            · rw [if_neg hb]
              by_cases hn : peek (skipWhitespace p) = 0x6E
              · rw [if_pos hn]
                exact landed_from r1 (parseNull_landed _)
              · rw [if_neg hn]
                by_cases hnum : peek (skipWhitespace p) = 0x2D
                    ∨ unicodeIsDigit (peek (skipWhitespace p)) = true
                · rw [if_pos hnum]
                  exact landed_from r1 (landed_map _ (parseNumber_landed _))
                · rw [if_neg hnum]
                  exact landed_from r1 (landed_error _ _)

/-- The function `ParseJSON` returns on every input: the step budget of the
model is never used up. -/
theorem ParseJSON_total (input : List Nat) : ParseJSON input ≠ .outOfFuel := by
  have hl := parse_landed (input.length + 1) (NewJSONParser input) (by simp [NewJSONParser])
  simp only [ParseJSON]
  cases hres : parse (input.length + 1) (NewJSONParser input) with
  | outOfFuel => rw [hres] at hl; exact hl.elim
  | error e => simp
  | ok v q =>
    simp only []
    split_ifs <;> simp

/-- Every error of `ParseJSON` carries the line and column of a cursor reached
from the start of the input by calls of `advance`. -/
theorem ParseJSON_failure_reach {input : List Nat} {e : JSONError}
    (h : ParseJSON input = .failure e) :
    ∃ q, Reach (NewJSONParser input) q ∧ e.Line = q.line ∧ e.Column = q.col := by
  have hl := parse_landed (input.length + 1) (NewJSONParser input) (by simp [NewJSONParser])
  simp only [ParseJSON] at h
  cases hres : parse (input.length + 1) (NewJSONParser input) with
  | outOfFuel => rw [hres] at hl; exact hl.elim
  | error e' =>
    rw [hres] at hl h
    injection h with h
    subst h
    exact hl
  | ok v q =>
    rw [hres] at hl h
    simp only [] at h
    split_ifs at h
    injection h with h
    subst h
    exact ⟨_, Reach.trans hl (skipWhitespace_reach q), rfl, rfl⟩

/-- Either a value or an error: the outcome of `ParseJSON` that is no value is
an error. -/
theorem ParseJSON_cases (input : List Nat) :
    (∃ v, ParseJSON input = .value v) ∨ (∃ e, ParseJSON input = .failure e) := by
  cases h : ParseJSON input with
  | value v => exact Or.inl ⟨v, rfl⟩
  | failure e => exact Or.inr ⟨e, rfl⟩
  | outOfFuel => exact absurd h (ParseJSON_total input)

/-! ## Line and column in characters -/

theorem utf8_append (a b : List Char) : utf8 (a ++ b) = utf8 a ++ utf8 b := by
  simp [utf8, encodeRunes]

theorem utf8_cons (c : Char) (cs : List Char) : utf8 (c :: cs) = encodeRune c.toNat ++ utf8 cs := by
  simp [utf8, encodeRunes]

theorem char_lf_iff (c : Char) : c.toNat = 0x0A ↔ c = Char.ofNat 0x0A := by
  constructor
  · intro h
    apply Char.ext
    apply UInt32.ext
    exact h
  · intro h; rw [h]; rfl

theorem lineOf_snoc (pre : List Char) (c : Char) :
    lineOf (pre ++ [c]) = if c.toNat = 0x0A then lineOf pre + 1 else lineOf pre := by
  simp only [lineOf, List.count_append]
  by_cases h : c.toNat = 0x0A
  · rw [if_pos h, (char_lf_iff c).mp h]; simp; omega
  · rw [if_neg h]
    have : c ≠ Char.ofNat 0x0A := fun hc => h ((char_lf_iff c).mpr hc)
    simp [List.count_cons, this]

theorem colOf_snoc (pre : List Char) (c : Char) :
    colOf (pre ++ [c]) = if c.toNat = 0x0A then 1 else colOf pre + 1 := by
  simp only [colOf, List.reverse_append, List.reverse_cons, List.reverse_nil, List.nil_append,
    List.singleton_append]
  by_cases h : c.toNat = 0x0A
  · rw [if_pos h, (char_lf_iff c).mp h]; simp [List.takeWhile]
  · rw [if_neg h]
    have hne : (c != Char.ofNat 0x0A) = true := by
      simp only [bne_iff_ne, ne_eq]
      exact fun hc => h ((char_lf_iff c).mpr hc)
    rw [List.takeWhile_cons_of_pos (p := fun c => c != Char.ofNat 0x0A) hne, List.length_cons]
    omega

/-- Line and column on well-formed UTF-8: from a cursor that stands after the
characters `cs1` of the input `utf8 (cs1 ++ cs2)` with their line and column,
calls of `advance` lead to a cursor that stands after a longer prefix of the
characters, with its line and column. -/
theorem reach_chars {p q : JSONParser} (h : Reach p q) : ∀ (cs1 cs2 : List Char),
    p.input = utf8 (cs1 ++ cs2) → p.pos = (utf8 cs1).length → p.line = lineOf cs1 →
    p.col = colOf cs1 →
    ∃ pre post, cs1 ++ cs2 = pre ++ post ∧ q.pos = (utf8 pre).length ∧ q.line = lineOf pre
      ∧ q.col = colOf pre := by
  induction h with
  | refl p => intro cs1 cs2 _ h2 h3 h4; exact ⟨cs1, cs2, rfl, h2, h3, h4⟩
  | head p q hlt _ ih =>
    intro cs1 cs2 h1 h2 h3 h4
    cases cs2 with
    | nil =>
      rw [h1, h2, List.append_nil] at hlt
      omega
    | cons c cs2 =>
      have hrest : rest p = encodeRune c.toNat ++ utf8 cs2 := by
        simp only [rest]
        rw [h1, h2, utf8_append, List.drop_left, utf8_cons]
      obtain ⟨a1, a2, a3⟩ := advance_rune (char_valid c) hrest
      have hstep := advance_of_lt p hlt
      have hd : (decodeRuneInString (List.drop p.pos p.input)).1 = c.toNat := by
        have := decode_encode c.toNat (char_valid c) (utf8 cs2)
        have hr : List.drop p.pos p.input = encodeRune c.toNat ++ utf8 cs2 := hrest
        rw [hr, this]
      rw [hd] at hstep
      have hpos' : (advance p).2.pos = (utf8 (cs1 ++ [c])).length := by
        rw [a2, h2, utf8_append, utf8_cons]; simp [utf8, encodeRunes]
      have hline : (advance p).2.line = lineOf (cs1 ++ [c]) := by
        rw [lineOf_snoc, hstep]
        by_cases hc : c.toNat = 0x0A
        · rw [if_pos hc, if_pos hc, h3]
        · rw [if_neg hc, if_neg hc, h3]
      have hcol : (advance p).2.col = colOf (cs1 ++ [c]) := by
        rw [colOf_snoc, hstep]
        by_cases hc : c.toNat = 0x0A
        · rw [if_pos hc, if_pos hc]
        · rw [if_neg hc, if_neg hc, h4]
      obtain ⟨pre, post, e1, e2, e3, e4⟩ := ih (cs1 ++ [c]) cs2
        (by rw [advance_input, h1]; simp) hpos' hline hcol
      exact ⟨pre, post, by rw [← e1]; simp, e2, e3, e4⟩

/-- Line and column of a reachable cursor on a well-formed UTF-8 input: the
bytes before the cursor are the encoding of a prefix `pre` of the characters,
the line is one more than the number of line feeds in `pre` and the column one
more than the number of characters of `pre` after its last line feed. -/
theorem reach_lineOf_colOf {cs : List Char} {q : JSONParser}
    (h : Reach (NewJSONParser (utf8 cs)) q) :
    ∃ pre post, cs = pre ++ post ∧ (utf8 cs).take q.pos = utf8 pre ∧ q.line = lineOf pre
      ∧ q.col = colOf pre := by
  obtain ⟨pre, post, e1, e2, e3, e4⟩ := reach_chars h [] cs rfl rfl rfl rfl
  simp only [List.nil_append] at e1
  refine ⟨pre, post, e1, ?_, e3, e4⟩
  rw [e1, utf8_append, e2, List.take_left]

theorem parseString_reach {p p' : JSONParser} {s : List Nat} (h : parseString p = .ok s p') :
    Reach p p' := by
  have := parseString_landed p
  rw [h] at this
  exact this

theorem parseNumber_reach {p p' : JSONParser} {f : Float64} (h : parseNumber p = .ok f p') :
    Reach p p' := by
  have := parseNumber_landed p
  rw [h] at this
  exact this

theorem reach_new_pos_le {input : List Nat} {q : JSONParser}
    (h : Reach (NewJSONParser input) q) : q.pos ≤ input.length := by
  have h1 := h.pos_le_len (by simp [NewJSONParser])
  have h2 := h.input_eq
  rw [h2] at h1
  exact h1

/-! ## Decimal digits -/

theorem digitChar_eq (d : Nat) (h : d < 10) : Nat.digitChar d = Char.ofNat (0x30 + d) := by
  interval_cases d <;> rfl

theorem toDigitsCore_decimalAux : ∀ (fuel n : Nat) (acc : List Nat),
    Nat.toDigitsCore 10 fuel n (acc.map Char.ofNat) = (decimalAux fuel n acc).map Char.ofNat := by
  intro fuel
  induction fuel with
  | zero => intro n acc; rfl
  | succ fuel ih =>
    intro n acc
    simp only [Nat.toDigitsCore, decimalAux]
    by_cases h : n < 10
    · rw [if_pos (by omega : n / 10 = 0), if_pos h, Nat.mod_eq_of_lt h, digitChar_eq n h]
      rfl
    · rw [if_neg (by omega : ¬ n / 10 = 0), if_neg h, digitChar_eq _ (Nat.mod_lt _ (by decide)),
        ← ih]
      rfl

/-- The rendering of `%d` (`Nat.repr`) is the text of the digits `decimal`. -/
theorem repr_eq_decimalText (n : Nat) : Nat.repr n = decimalText n := by
  simp only [Nat.repr, Nat.toDigits, decimalText, decimal, List.asString]
  rw [← toDigitsCore_decimalAux]
  rfl

/-- The digits `decimalAux` pushes in front of `acc`: ASCII digits without a
leading zero (for a positive number) that read back as the number. -/
theorem decimalAux_spec : ∀ (fuel n : Nat) (acc : List Nat), n < fuel →
    ∃ ds, decimalAux fuel n acc = ds ++ acc ∧ readDigits ds = n ∧ DigitText ds ∧ ds ≠ []
      ∧ (n ≠ 0 → ds.head? ≠ some 0x30) := by
  intro fuel
  induction fuel with
  | zero => intro n acc h; omega
  | succ fuel ih =>
    intro n acc hn
    simp only [decimalAux]
    by_cases h : n < 10
    · rw [if_pos h]
      refine ⟨[0x30 + n], rfl, by simp [readDigits], ?_, by simp, ?_⟩
      · intro b hb
        simp only [List.mem_singleton] at hb
        subst hb
        simp only [isAsciiDigit, decide_eq_true_eq]
        omega
      · intro h0
        simp only [List.head?_cons, ne_eq, Option.some.injEq]
        omega
    · rw [if_neg h]
      obtain ⟨ds, e1, e2, e3, e4, e5⟩ := ih (n / 10) ((0x30 + n % 10) :: acc) (by omega)
      refine ⟨ds ++ [0x30 + n % 10], by rw [e1]; simp, ?_, ?_, by simp, ?_⟩
      · simp only [readDigits] at e2 ⊢
        rw [List.foldl_append, e2]
        simp only [List.foldl_cons, List.foldl_nil]
        omega
      · intro b hb
        rcases List.mem_append.mp hb with hb | hb
        · exact e3 b hb
        · simp only [List.mem_singleton] at hb
          subst hb
          simp only [isAsciiDigit, decide_eq_true_eq]
          omega
      · intro h0
        have := e5 (by omega)
        cases ds with
        | nil => exact absurd rfl e4
        | cons d ds => simpa using this

/-- The digits `decimal n` are the decimal representation of `n`. -/
theorem decimal_spec (n : Nat) :
    readDigits (decimal n) = n ∧ DigitText (decimal n) ∧ decimal n ≠ []
      ∧ (n ≠ 0 → (decimal n).head? ≠ some 0x30) := by
  obtain ⟨ds, e1, e2, e3, e4, e5⟩ := decimalAux_spec (n + 1) n [] (by omega)
  simp only [decimal]
  rw [e1, List.append_nil]
  exact ⟨e2, e3, e4, e5⟩

/-! ## Progress -/

theorem span_progress {p q : JSONParser} {w : List Nat} (h : Span p q w) (hne : w ≠ []) :
    p.pos < q.pos := by
  have hl : 0 < w.length := List.length_pos.mpr hne
  rw [h.2.1]; omega

theorem parseString_progress {p p' : JSONParser} {s : List Nat}
    (h : parseString p = .ok s p') : p.pos < p'.pos := by
  by_cases hlt : p.pos < p.input.length
  · have h1 := advance_pos_lt p hlt
    rw [parseString_eq] at h
    have hl := strBody_landed _ (advance p).2 [] (Nat.le_refl _)
    rw [h] at hl
    have h2 : Reach (advance p).2 p' := hl
    have := h2.pos_le
    omega
  · exfalso
    rw [parseString_eq, advance_eof p (by omega)] at h
    dsimp only at h
    rw [strBody_step, if_pos (by omega)] at h
    cases h

theorem parseNumber_progress {p p' : JSONParser} {f : Float64}
    (h : parseNumber p = .ok f p') : p.pos < p'.pos := by
  obtain ⟨w, hw, hs⟩ := parseNumber_sound h
  obtain ⟨b, t, rfl, _⟩ := numLit_head hw
  exact span_progress hs (by simp)

theorem parseBoolean_progress {p p' : JSONParser} {b : Bool}
    (h : parseBoolean p = .ok b p') : p.pos < p'.pos := by
  rcases parseBoolean_sound h with ⟨_, hs⟩ | ⟨_, hs⟩
  · exact span_progress hs (by simp)
  · exact span_progress hs (by simp)

theorem parseNull_progress {p p' : JSONParser} {v : JSONValue}
    (h : parseNull p = .ok v p') : p.pos < p'.pos :=
  span_progress (parseNull_sound h).2 (by simp)

/-- A turn of the loop of `parseArray` that goes on: the next turn starts
strictly further in the input. -/
theorem parseArrayLoop_turn {f k : Nat} {p p2 : JSONParser} {acc : List JSONValue}
    {val : JSONValue} (h1 : parse f (skipWhitespace p) = .ok val p2)
    (h2 : peek (skipWhitespace p2) = 0x2C) :
    parseArrayLoop (parse f) (k + 1) p acc
        = parseArrayLoop (parse f) k (advance (skipWhitespace p2)).2 (acc ++ [val])
    ∧ p.pos < (advance (skipWhitespace p2)).2.pos := by
  constructor
  · rw [parseArrayLoop_succ, h1]
    exact arrayTail_comma h2
  · have a1 := skipWhitespace_pos_ge p
    have a2 := (parse_progress h1).2
    have a3 := skipWhitespace_pos_ge p2
    have a4 := advance_pos_ge (skipWhitespace p2)
    omega

/-- A turn of the loop of `parseObject` that goes on: the next turn starts
strictly further in the input. -/
theorem parseObjectLoop_turn {f k : Nat} {p p2 p5 : JSONParser}
    {obj : List (List Nat × JSONValue)} {key : List Nat} {val : JSONValue}
    (h0 : peek (skipWhitespace p) = 0x22)
    (h1 : parseString (skipWhitespace p) = .ok key p2)
    (h2 : peek (skipWhitespace p2) = 0x3A)
    (h3 : parse f (skipWhitespace (advance (skipWhitespace p2)).2) = .ok val p5)
    (h4 : peek (skipWhitespace p5) = 0x2C) :
    parseObjectLoop (parse f) (k + 1) p obj
        = parseObjectLoop (parse f) k (advance (skipWhitespace p5)).2 (mapInsert obj key val)
    ∧ p.pos < (advance (skipWhitespace p5)).2.pos := by
  constructor
  · rw [parseObjectLoop_succ, if_neg (by rw [h0]; decide), h1]
    simp only []
    rw [if_neg (by rw [h2]; decide), h3]
    exact objectTail_comma h4
  · have a1 := skipWhitespace_pos_ge p
    have a2 := parseString_progress h1
    have a3 := skipWhitespace_pos_ge p2
    have a4 := advance_pos_ge (skipWhitespace p2)
    have a5 := skipWhitespace_pos_ge (advance (skipWhitespace p2)).2
    have a6 := (parse_progress h3).2
    have a7 := skipWhitespace_pos_ge p5
    have a8 := advance_pos_ge (skipWhitespace p5)
    omega

/-- A turn of the loop of `parseString`: it returns, or the next turn starts
strictly further in the input. -/
theorem parseStringLoop_turn (f : Nat) (p : JSONParser) (res : List Nat) :
    (∃ s p', parseStringLoop (f + 1) p res = .ok s p')
    ∨ (∃ e, parseStringLoop (f + 1) p res = .error e)
    ∨ (∃ q res', parseStringLoop (f + 1) p res = parseStringLoop f q res' ∧ p.pos < q.pos) := by
  rw [parseStringLoop_step]
  by_cases h0 : p.pos ≥ p.input.length
  · rw [if_pos h0]; exact Or.inr (Or.inl ⟨_, rfl⟩)
  · rw [if_neg h0]
    have h1 := advance_pos_lt p (by omega)
    have h2 := advance_pos_ge (advance p).2
    by_cases hq : peek p = 0x22
    · rw [if_pos hq]; exact Or.inl ⟨_, _, rfl⟩
    · rw [if_neg hq]
      by_cases hb : peek p = 0x5C
      · rw [if_pos hb]
        cases unescape (peek (advance p).2) with
        | none => exact Or.inr (Or.inl ⟨_, rfl⟩)
        | some d => exact Or.inr (Or.inr ⟨_, _, rfl, by omega⟩)
      · rw [if_neg hb]
        exact Or.inr (Or.inr ⟨_, _, rfl, h1⟩)

/-! ## Truncated documents -/

/-- The last byte of a value text is no whitespace. -/
theorem valN_last {n : Nat} {w : List Nat} {v : JSONValue} (h : ValN n w v) :
    ∃ u d, w = u ++ [d] ∧ isSpace d = false := by
  cases n with
  | zero => exact absurd h (by simp [ValN])
  | succ n =>
    simp only [ValN] at h
    rcases h with ⟨rfl, _⟩ | ⟨rfl, _⟩ | ⟨rfl, _⟩ | ⟨f, hf, _⟩ | ⟨s', hs, _⟩
      | ⟨ws, _, rfl, _⟩ | ⟨body, xs, _, rfl, _⟩ | ⟨ws, _, rfl, _⟩ | ⟨body, kvs, _, rfl, _⟩
    · exact ⟨[0x6E, 0x75, 0x6C], 0x6C, rfl, by decide⟩
    · exact ⟨[0x74, 0x72, 0x75], 0x65, rfl, by decide⟩
    · exact ⟨[0x66, 0x61, 0x6C, 0x73], 0x65, rfl, by decide⟩
    · obtain ⟨u, d, hw, hd⟩ := numLit_last hf
      exact ⟨u, d, hw, isAsciiDigit_not_space hd⟩
    · obtain ⟨body, rs, rfl, _, _⟩ := hs
      exact ⟨0x22 :: body, 0x22, by simp, by decide⟩
    · exact ⟨0x5B :: ws, 0x5D, by simp, by decide⟩
    · exact ⟨0x5B :: body, 0x5D, by simp, by decide⟩
    · exact ⟨0x7B :: ws, 0x7D, by simp, by decide⟩
    · exact ⟨0x7B :: body, 0x7D, by simp, by decide⟩

/-- The first byte of a value text tells whether the value is a number. -/
theorem valN_head_number {n : Nat} {w : List Nat} {v : JSONValue} (h : ValN n w v) :
    ∃ b t, w = b :: t ∧ isSpace b = false
      ∧ (v.isNumber = true ↔ (b = 0x2D ∨ isAsciiDigit b = true)) := by
  cases n with
  | zero => exact absurd h (by simp [ValN])
  | succ n =>
    simp only [ValN] at h
    rcases h with ⟨rfl, rfl⟩ | ⟨rfl, rfl⟩ | ⟨rfl, rfl⟩ | ⟨f, hf, rfl⟩ | ⟨s', hs, rfl⟩
      | ⟨ws, _, rfl, rfl⟩ | ⟨body, xs, _, rfl, rfl⟩ | ⟨ws, _, rfl, rfl⟩ | ⟨body, kvs, _, rfl, rfl⟩
    · exact ⟨_, _, rfl, by decide, by simp [JSONValue.isNumber, isAsciiDigit]⟩
    · exact ⟨_, _, rfl, by decide, by simp [JSONValue.isNumber, isAsciiDigit]⟩
    · exact ⟨_, _, rfl, by decide, by simp [JSONValue.isNumber, isAsciiDigit]⟩
    · obtain ⟨b, t, rfl, hb⟩ := numLit_head hf
      refine ⟨b, t, rfl, ?_, by simp [JSONValue.isNumber, hb]⟩
      rcases hb with rfl | hb
      · decide
      · exact isAsciiDigit_not_space hb
    · obtain ⟨body, rs, rfl, _, _⟩ := hs
      exact ⟨_, _, rfl, by decide, by simp [JSONValue.isNumber, isAsciiDigit]⟩
    · exact ⟨_, _, rfl, by decide, by simp [JSONValue.isNumber, isAsciiDigit]⟩
    · exact ⟨_, _, rfl, by decide, by simp [JSONValue.isNumber, isAsciiDigit]⟩
    · exact ⟨_, _, rfl, by decide, by simp [JSONValue.isNumber, isAsciiDigit]⟩
    · exact ⟨_, _, rfl, by decide, by simp [JSONValue.isNumber, isAsciiDigit]⟩

theorem dropWhile_spaces : ∀ (X : List Nat) (d : Nat) (Y : List Nat), Spaces X →
    isSpace d = false → (X ++ d :: Y).dropWhile isSpace = d :: Y := by
  intro X
  induction X with
  | nil => intro d Y _ hd; simp [List.dropWhile, hd]
  | cons x X ih =>
    intro d Y hX hd
    have hx := hX x (by simp)
    simp only [List.cons_append, List.dropWhile, hx]
    exact ih d Y (fun b hb => hX b (by simp [hb])) hd

/-- The text without trailing whitespace of whitespace-terminated text. -/
theorem trimRight_eq {A ws' : List Nat} {d : Nat} (hws : Spaces ws') (hd : isSpace d = false) :
    trimRight (A ++ [d] ++ ws') = A ++ [d] := by
  simp only [trimRight, List.reverse_append, List.reverse_cons, List.reverse_nil,
    List.nil_append, List.singleton_append]
  rw [dropWhile_spaces ws'.reverse d A.reverse (fun b hb => hws b (List.mem_reverse.mp hb)) hd]
  simp

/-- No proper prefix of an accepted document that is no number, cut of its
trailing whitespace, is accepted. -/
theorem prefix_rejected {s p u : List Nat} {v : JSONValue} (hs : ParseJSON s = .value v)
    (hnn : v.isNumber = false) (hp : trimRight s = p ++ u) (hu : u ≠ []) :
    ∃ e, ParseJSON p = .failure e := by
  rcases ParseJSON_cases p with ⟨v', hv'⟩ | hfail
  swap
  · exact hfail
  exfalso
  obtain ⟨ws, w, ws', h1, h2, h3, rfl⟩ := ParseJSON_sound hs
  obtain ⟨a, d, rfl, hd⟩ := valN_last h3
  rw [← List.append_assoc, trimRight_eq h2 hd] at hp
  obtain ⟨ws1, w1, ws1', g1, g2, g3, rfl⟩ := ParseJSON_sound hv'
  obtain ⟨b, t, hw, hb, hnum⟩ := valN_head_number h3
  obtain ⟨b1, t1, rfl, hb1, hnum1⟩ := valN_head_number g3
  have e : ws ++ b :: t = ws1 ++ b1 :: (t1 ++ ws1' ++ u) := by
    rw [← hw]; simpa [List.append_assoc] using hp
  obtain ⟨rfl, rfl, ht⟩ := first_nonspace_unique ws ws1 b b1 t _ h1 g1 hb hb1 e
  have hv1 : v'.isNumber = false := by
    cases hx : v'.isNumber with
    | false => rfl
    | true =>
      have := hnum.mpr (hnum1.mp hx)
      rw [hnn] at this
      cases this
  obtain ⟨F, hF⟩ : ∃ F, F = (ws ++ (a ++ [d])).length + 1 := ⟨_, rfl⟩
  obtain ⟨pA, rA, sA⟩ := parse_complete _ _ _ h3 F (by rw [hF]; simp; omega)
    (NewJSONParser (ws ++ (a ++ [d]))) ws [] h1 (by rw [rest_new]; simp) (look_nil _)
  obtain ⟨pB, rB, sB⟩ := parse_complete _ _ _ g3 F
    (by rw [hF, hw, ht]; simp; omega)
    (NewJSONParser (ws ++ (a ++ [d]))) ws (ws1' ++ u) h1
    (by rw [rest_new, hw, ht]; simp) (fun hx => by rw [hv1] at hx; cases hx)
  rw [rA] at rB
  injection rB with _ hpp
  have hA := sA.2.1
  have hB := sB.2.1
  rw [hpp, hB, hw, ht] at hA
  simp at hA
  exact hu hA.2

/-! ## The claims -/

/-- C1: after an accepted input `s`, a rest that starts with a non-whitespace
byte `b` is rejected with the trailing-content error at the line and column of
`b`, provided `s` ends with whitespace or the value of `s` is not a number. -/
theorem C1_trailing_content_rejected (s : List Nat) (v : JSONValue) (b : Nat) (t : List Nat)
    (hs : ParseJSON s = .value v) (hb : isSpace b = false)
    (hc : (∃ c, s.getLast? = some c ∧ isSpace c = true) ∨ v.isNumber = false) :
    ParseJSON (s ++ b :: t) = .failure ⟨"caracter inesperado después del valor JSON",
      (lineColAt (s ++ b :: t) s.length).1, (lineColAt (s ++ b :: t) s.length).2⟩ := by
  obtain ⟨ws, w, ws', h1, h2, h3, rfl⟩ := ParseJSON_sound hs
  refine ParseJSON_trailing h1 h3 h2 (by simp) (peekOf_not_space t hb) ?_
  intro hnum
  cases ws' with
  | cons c ws'' =>
    have hsp := h2 c (by simp)
    simp only [List.cons_append]
    rw [peekOf_ascii c _ (isSpace_ascii c hsp)]
    exact isNumberStop_space hsp
  | nil =>
    exfalso
    rcases hc with ⟨c, hc1, hc2⟩ | hc
    · obtain ⟨f, hf, _⟩ := valN_number h3 hnum
      obtain ⟨u, d, rfl, hd⟩ := numLit_last hf
      have hl : (ws ++ (u ++ [d]) ++ []).getLast? = some d := by
        rw [List.append_nil, ← List.append_assoc, List.getLast?_concat]
      rw [hl] at hc1
      injection hc1 with hc1
      subst hc1
      rw [isAsciiDigit_not_space hd] at hc2
      cases hc2
    · rw [hc] at hnum; cases hnum

/-- Witness for C1: `truee` fails at line 1, column 5. -/
theorem C1_trailing_content_witness :
    ParseJSON (bytes "truee") = .failure ⟨"caracter inesperado después del valor JSON", 1, 5⟩ :=
  C1_trailing_content_rejected (bytes "true") (.bool true) 0x65 [] (by rfl) (by decide)
    (Or.inr rfl)

/-- C2 (amended): at a reachable cursor where a value is expected, a lookahead
`c` that exists and is none of the characters on which `parse` dispatches (the
six structural and keyword characters, `-`, and every decimal digit in the sense
of `unicode.IsDigit`) makes `parse` fail with the line and column of `c`; at top
level, `ParseJSON (w ++ r)` with `w` whitespace and `c` the first character of
`r` fails at the position of `c`; and the input with a missing member value
fails at line 1, column 13. -/
theorem C2_unexpected_character_at_its_position :
    (∀ (input : List Nat) (fuel : Nat) (p : JSONParser),
        Reach (NewJSONParser input) p →
        (skipWhitespace p).pos < input.length →
        isValueStart (peek (skipWhitespace p)) = false →
        parse (fuel + 1) p = .error ⟨unexpectedMessage (peek (skipWhitespace p)),
          (lineColAt input (skipWhitespace p).pos).1, (lineColAt input (skipWhitespace p).pos).2⟩)
    ∧ (∀ (w r : List Nat), (∀ b ∈ w, isSpace b = true) → r ≠ [] →
        isSpace (decodeRuneInString r).1 = false →
        isValueStart (decodeRuneInString r).1 = false →
        ParseJSON (w ++ r) = .failure ⟨unexpectedMessage (decodeRuneInString r).1,
          (lineColAt (w ++ r) w.length).1, (lineColAt (w ++ r) w.length).2⟩)
    ∧ ParseJSON (bytes "\x7b\"invalid\": \x7d") = .failure ⟨unexpectedMessage 0x7D, 1, 13⟩ := by
  have general : ∀ (input : List Nat) (fuel : Nat) (p : JSONParser),
        Reach (NewJSONParser input) p →
        (skipWhitespace p).pos < input.length →
        isValueStart (peek (skipWhitespace p)) = false →
        parse (fuel + 1) p = .error ⟨unexpectedMessage (peek (skipWhitespace p)),
          (lineColAt input (skipWhitespace p).pos).1,
          (lineColAt input (skipWhitespace p).pos).2⟩ := by
    intro input fuel p hr hlt hc
    have hi : p.input = input := hr.input_eq
    rw [parse_unexpected fuel p (by rw [hi]; exact hlt) hc,
      reach_lineColAt (hr.trans (skipWhitespace_reach p))]
  refine ⟨general, ?_, by rfl⟩
  intro w r hw hr hs hc
  have hpos : (skipWhitespace (NewJSONParser (w ++ r))).pos = w.length := by
    have := skipWhitespace_run w (NewJSONParser (w ++ r)) r (by simp [rest, NewJSONParser]) hw
      (by simpa [NewJSONParser, peekAt_append_left w r hr] using hs)
    simpa [NewJSONParser] using this
  have hpk : peek (skipWhitespace (NewJSONParser (w ++ r))) = (decodeRuneInString r).1 := by
    rw [peek_eq_peekAt, skipWhitespace_input, hpos]
    exact peekAt_append_left w r hr
  have hlen : w.length < (w ++ r).length := by
    have := List.length_pos.mpr hr
    simp; omega
  have := general (w ++ r) (w ++ r).length (NewJSONParser (w ++ r)) (Reach.refl _)
    (by rw [hpos]; exact hlen) (by rw [hpk]; exact hc)
  rw [hpk, hpos] at this
  simp only [ParseJSON, this]

/-- Witness for C2: a space followed by `@`. -/
theorem C2_unexpected_character_witness :
    ParseJSON (bytes " @") = .failure ⟨unexpectedMessage 0x40, 1, 2⟩ :=
  C2_unexpected_character_at_its_position.2.1 [0x20] [0x40] (by decide) (by decide) (by decide)
    (by decide)

/-- C2 as stated fails: the Arabic-Indic digit three (U+0663) is none of the
listed characters, yet the error is reported one column after it. -/
theorem C2_counterexample_unicode_digit :
    (decodeRuneInString (bytes "٣")).1 = 0x663
    ∧ lineColAt (bytes "٣") 0 = (1, 1)
    ∧ ParseJSON (bytes "٣") = .failure ⟨"número inválido", 1, 2⟩ := by
  refine ⟨by rfl, by rfl, by rfl⟩

/-- C3: on the input with a missing member value the rendered error is the
Spanish text of the code, not the English text the test
`TestJSONError_ErrorMessage` expects. -/
theorem C3_error_text_differs_from_test :
    ∃ e, ParseJSON (bytes "\x7b\"invalid\": \x7d") = .failure e
      ∧ e.Error = "JSON parsing error at line 1, column 13: carácter inesperado \x27\x7d\x27"
      ∧ e.Error ≠ "JSON parsing error at line 1, column 13: unexpected character \x27\x7d\x27" :=
  ⟨⟨unexpectedMessage 0x7D, 1, 13⟩, by rfl, by rfl, by decide⟩

/-- C4: a string literal whose body is a sequence of plain characters (other
than the quote and the backslash) and escapes of the escape table parses to
the string of the characters the items stand for, in order. -/
theorem C4_string_literal_decodes_by_escape_table (items : List StrItem)
    (hw : ∀ i ∈ items, i.wellFormed) :
    ParseJSON ([0x22] ++ itemsText items ++ [0x22])
      = .value (.string (encodeRunes (items.map StrItem.char))) := by
  have hrest : rest (NewJSONParser ([0x22] ++ itemsText items ++ [0x22]))
      = 0x22 :: (itemsText items ++ [0x22]) := by simp [rest, NewJSONParser]
  have hsk := skipWhitespace_of_byte hrest (by decide) (by decide)
  have hpk := (advance_ascii hrest (by decide)).1
  obtain ⟨q, hq1, hq2, hq3, hq4⟩ := parseString_items _ items [0x22] hrest hw
  have hqi : q.input = [0x22] ++ itemsText items ++ [0x22] := hq2.input_eq
  obtain ⟨b1, b2, b3, b4⟩ := advance_ascii (p := q) hq4 (by decide)
  have hqlt : ¬ q.pos ≥ q.input.length := by
    have := rest_ne_nil_lt (p := q) (by rw [hq4]; simp); omega
  have hend : (advance q).2.input.length ≤ (advance q).2.pos := by
    exact (rest_eq_nil_iff _).mp b4
  have hparse : parse (([0x22] ++ itemsText items ++ [0x22]).length + 1)
      (NewJSONParser ([0x22] ++ itemsText items ++ [0x22]))
      = .ok (.string (encodeRunes (items.map StrItem.char))) (advance q).2 := by
    rw [parse_string _ _ (by rw [hsk]; exact hpk), hsk, hq1, strBody_eq, if_neg hqlt,
      advance_fst, b1]
    simp [Result.map]
  simp only [ParseJSON, hparse, skipWhitespace_eof _ hend]
  rw [if_neg (by omega)]

/-- Witness for C4: the literal of the test "multiple escapes". -/
theorem C4_string_literal_witness :
    ParseJSON (bytes "\"\\\"hello\\\"\\n\\t\\\"world\\\"\"")
      = .value (.string (bytes "\"hello\"\n\t\"world\"")) :=
  C4_string_literal_decodes_by_escape_table
    [.escape 0x22 0x22, .plain 'h', .plain 'e', .plain 'l', .plain 'l', .plain 'o',
     .escape 0x22 0x22, .escape 0x6E 0x0A, .escape 0x74 0x09, .escape 0x22 0x22,
     .plain 'w', .plain 'o', .plain 'r', .plain 'l', .plain 'd', .escape 0x22 0x22]
    (by decide)

/-- C5: the texts of accepted string documents (keys) and accepted documents
(values), joined by colons and commas between braces, parse to the object
built by assigning the members in source order, which maps every key to the
value of the last member carrying it and holds no other key; `\x7b\x7d` is the
empty object. -/
theorem C5_object_of_documents (pairs : List (List Nat × List Nat))
    (kvs : List (List Nat × JSONValue))
    (h : List.Forall₂ (fun (kv : List Nat × List Nat) (r : List Nat × JSONValue) =>
      ParseJSON kv.1 = .value (.string r.1) ∧ ParseJSON kv.2 = .value r.2) pairs kvs)
    (hne : pairs ≠ []) :
    ParseJSON (0x7B :: (commaSep (pairs.map memberText) ++ [0x7D]))
        = .value (.object (insertAll [] kvs))
    ∧ (∀ key, mapLookup (insertAll [] kvs) key = lastValue kvs key)
    ∧ ParseJSON [0x7B, 0x7D] = .value (.object []) := by
  refine ⟨?_, ?_, by rfl⟩
  · obtain ⟨N, hN⟩ := members_of_documents h hne
    have hv : ValN (N + 1) (0x7B :: (commaSep (pairs.map memberText) ++ [0x7D]))
        (.object (insertAll [] kvs)) := by
      simp only [ValN]
      exact Or.inr (Or.inr (Or.inr (Or.inr (Or.inr (Or.inr (Or.inr (Or.inr
        ⟨_, kvs, hN, rfl, rfl⟩)))))))
    have := @ParseJSON_complete _ [] _ [] _ spaces_nil hv spaces_nil
    simpa using this
  · intro key
    rw [mapLookup_insertAll]
    cases lastValue kvs key <;> rfl

/-- Witness for C5: a duplicate key, the last write wins. -/
theorem C5_object_witness :
    ParseJSON (bytes "\x7b\"a\":1,\"a\":2\x7d")
        = .value (.object [(bytes "a", .number ⟨false, 1, 1⟩)])
    ∧ (∀ key, mapLookup [(bytes "a", JSONValue.number ⟨false, 1, 1⟩)] key
        = lastValue [(bytes "a", .number ⟨false, 1, 0⟩), (bytes "a", .number ⟨false, 1, 1⟩)] key)
    ∧ ParseJSON [0x7B, 0x7D] = .value (.object []) :=
  C5_object_of_documents [(bytes "\"a\"", bytes "1"), (bytes "\"a\"", bytes "2")]
    [(bytes "a", .number ⟨false, 1, 0⟩), (bytes "a", .number ⟨false, 1, 1⟩)]
    (.cons ⟨by rfl, by rfl⟩ (.cons ⟨by rfl, by rfl⟩ .nil)) (by simp)

/-- C6: the texts of accepted documents, joined by commas between brackets,
parse to the array of their values, in source order; with no text at all the
input is `[]` and the array is empty. -/
theorem C6_array_of_documents (vs : List (List Nat)) (xs : List JSONValue)
    (h : List.Forall₂ (fun t x => ParseJSON t = .value x) vs xs) :
    ParseJSON (0x5B :: (commaSep vs ++ [0x5D])) = .value (.array xs) := by
  by_cases hne : vs = []
  · subst hne
    cases h
    rfl
  · obtain ⟨N, hN⟩ := elems_of_documents h hne
    have hv : ValN (N + 1) (0x5B :: (commaSep vs ++ [0x5D])) (.array xs) := by
      simp only [ValN]
      exact Or.inr (Or.inr (Or.inr (Or.inr (Or.inr (Or.inr (Or.inl ⟨_, xs, hN, rfl, rfl⟩))))))
    have := @ParseJSON_complete _ [] _ [] _ spaces_nil hv spaces_nil
    simpa using this

/-- Witness for C6: the mixed array of the tests. -/
theorem C6_array_witness :
    ParseJSON (bytes "[1, \"hello\", true, null]")
      = .value (.array [.number ⟨false, 1, 0⟩, .string (bytes "hello"), .bool true, .null]) :=
  C6_array_of_documents [bytes "1", bytes " \"hello\"", bytes " true", bytes " null"]
    [.number ⟨false, 1, 0⟩, .string (bytes "hello"), .bool true, .null]
    (.cons (by rfl) (.cons (by rfl) (.cons (by rfl) (.cons (by rfl) .nil))))

/-- C7 (amended): a literal that opens with a quote and whose body is a
sequence of plain characters and escapes of the escape table, with no closing
quote, fails with the unterminated-string error at the end-of-input position;
if such a body is followed by one more backslash that ends the input, the
error is the invalid-escape error instead, again at the end-of-input
position. -/
theorem C7_unterminated_string (items : List StrItem) (hw : ∀ i ∈ items, i.wellFormed) :
    ParseJSON ([0x22] ++ itemsText items)
        = .failure ⟨"cadena no terminada",
            (lineColAt ([0x22] ++ itemsText items) ([0x22] ++ itemsText items).length).1,
            (lineColAt ([0x22] ++ itemsText items) ([0x22] ++ itemsText items).length).2⟩
    ∧ ParseJSON ([0x22] ++ itemsText items ++ [0x5C])
        = .failure ⟨"escape inválido en string",
            (lineColAt ([0x22] ++ itemsText items ++ [0x5C])
              ([0x22] ++ itemsText items ++ [0x5C]).length).1,
            (lineColAt ([0x22] ++ itemsText items ++ [0x5C])
              ([0x22] ++ itemsText items ++ [0x5C]).length).2⟩ := by
  constructor
  · have hrest : rest (NewJSONParser ([0x22] ++ itemsText items))
        = 0x22 :: (itemsText items ++ []) := by simp [rest, NewJSONParser]
    have hsk := skipWhitespace_of_byte hrest (by decide) (by decide)
    have hpk := (advance_ascii hrest (by decide)).1
    obtain ⟨q, hq1, hq2, hq3, hq4⟩ := parseString_items _ items [] hrest hw
    have hpos : q.pos = ([0x22] ++ itemsText items).length := by
      rw [hq3]; simp [NewJSONParser]; omega
    have hlc := reach_lineColAt hq2
    rw [hpos] at hlc
    have hparse : parse (([0x22] ++ itemsText items).length + 1)
        (NewJSONParser ([0x22] ++ itemsText items))
        = .error ⟨"cadena no terminada", q.line, q.col⟩ := by
      rw [parse_string _ _ (by rw [hsk]; exact hpk), hsk, hq1, strBody_eof q _ hq4]
      rfl
    simp only [ParseJSON, hparse, hlc]
  · have hrest : rest (NewJSONParser ([0x22] ++ itemsText items ++ [0x5C]))
        = 0x22 :: (itemsText items ++ [0x5C]) := by simp [rest, NewJSONParser]
    have hsk := skipWhitespace_of_byte hrest (by decide) (by decide)
    have hpk := (advance_ascii hrest (by decide)).1
    obtain ⟨q, hq1, hq2, hq3, hq4⟩ := parseString_items _ items [0x5C] hrest hw
    obtain ⟨e1, e2⟩ := strBody_backslash_eof q (items.map StrItem.char) hq4
    have hpos : (advance q).2.pos = ([0x22] ++ itemsText items ++ [0x5C]).length := by
      rw [e2, hq3]; simp [NewJSONParser]; omega
    have hlc := reach_lineColAt (hq2.trans (Reach.single q))
    rw [hpos] at hlc
    have hparse : parse (([0x22] ++ itemsText items ++ [0x5C]).length + 1)
        (NewJSONParser ([0x22] ++ itemsText items ++ [0x5C]))
        = .error ⟨"escape inválido en string", (advance q).2.line, (advance q).2.col⟩ := by
      rw [parse_string _ _ (by rw [hsk]; exact hpk), hsk, hq1, e1]
      rfl
    simp only [ParseJSON, hparse, hlc]

/-- Witness for C7: the unterminated literal of the spec (`"abc`). -/
theorem C7_unterminated_string_witness :
    ParseJSON (bytes "\"abc") = .failure ⟨"cadena no terminada", 1, 5⟩ :=
  (C7_unterminated_string [.plain 'a', .plain 'b', .plain 'c'] (by decide)).1

/-- C7 as stated fails: an input that ends immediately after a backslash is
rejected with the invalid-escape error, not the unterminated-string error. -/
theorem C7_counterexample_trailing_backslash :
    ParseJSON (bytes "\"abc\\") = .failure ⟨"escape inválido en string", 1, 6⟩
    ∧ ParseJSON (bytes "\"abc\\") ≠ .failure ⟨"cadena no terminada", 1, 6⟩ := by
  refine ⟨by rfl, ?_⟩
  rw [show ParseJSON (bytes "\"abc\\") = .failure ⟨"escape inválido en string", 1, 6⟩ from by rfl]
  intro h
  injection h with h
  exact absurd h (by decide)

/-- C8: a literal whose body starts with characters other than the quote and
the backslash, followed by a backslash and a character outside the escape
table, fails with the invalid-escape error (reported right after that
character), whatever follows. -/
theorem C8_invalid_escape (b : List Char) (cr : List Nat)
    (hb : ∀ c ∈ b, c.toNat ≠ 0x22 ∧ c.toNat ≠ 0x5C) (hcr : cr ≠ [])
    (hc : isEscapeChar (decodeRuneInString cr).1 = false) :
    ParseJSON ([0x22] ++ utf8 b ++ [0x5C] ++ cr)
      = .failure ⟨"escape inválido en string",
          (lineColAt ([0x22] ++ utf8 b ++ [0x5C] ++ cr)
            (1 + (utf8 b).length + 1 + (decodeRuneInString cr).2)).1,
          (lineColAt ([0x22] ++ utf8 b ++ [0x5C] ++ cr)
            (1 + (utf8 b).length + 1 + (decodeRuneInString cr).2)).2⟩ := by
  have hrest : rest (NewJSONParser ([0x22] ++ utf8 b ++ [0x5C] ++ cr))
      = 0x22 :: (itemsText (b.map StrItem.plain) ++ 0x5C :: cr) := by
    simp [rest, NewJSONParser, itemsText_plain]
  have hw : ∀ i ∈ b.map StrItem.plain, i.wellFormed := by
    intro i hi
    obtain ⟨c, hc1, rfl⟩ := List.mem_map.mp hi
    exact hb c hc1
  have hsk := skipWhitespace_of_byte hrest (by decide) (by decide)
  have hpk := (advance_ascii hrest (by decide)).1
  obtain ⟨q, hq1, hq2, hq3, hq4⟩ := parseString_items _ _ (0x5C :: cr) hrest hw
  obtain ⟨e1, e2⟩ := strBody_bad_escape q ((b.map StrItem.plain).map StrItem.char) cr hq4 hcr hc
  have hpos : (advance (advance q).2).2.pos
      = 1 + (utf8 b).length + 1 + (decodeRuneInString cr).2 := by
    rw [e2, hq3, itemsText_plain]; simp [NewJSONParser]
  have hlc := reach_lineColAt ((hq2.trans (Reach.single q)).trans (Reach.single _))
  rw [hpos] at hlc
  have hparse : parse (([0x22] ++ utf8 b ++ [0x5C] ++ cr).length + 1)
      (NewJSONParser ([0x22] ++ utf8 b ++ [0x5C] ++ cr))
      = .error ⟨"escape inválido en string", (advance (advance q).2).2.line,
          (advance (advance q).2).2.col⟩ := by
    rw [parse_string _ _ (by rw [hsk]; exact hpk), hsk, hq1, e1]
    rfl
  simp only [ParseJSON, hparse, hlc]

/-- Witness for C8: the literal of the test "invalid escape". -/
theorem C8_invalid_escape_witness :
    ParseJSON (bytes "\"invalid \\x escape\"") = .failure ⟨"escape inválido en string", 1, 12⟩ :=
  C8_invalid_escape "invalid ".data (bytes "x escape\"") (by decide) (by decide) (by decide)

/-- C9: when `s` followed by `]` is accepted as a non-empty array, `s` followed
by `,]` is rejected: the comma makes the loop ask for another element, and
`parse` fails on the final `]` with the unexpected-character error at the line
and column of that `]`, the character right after the comma. -/
theorem C9_array_trailing_comma (s : List Nat) (xs : List JSONValue)
    (hs : ParseJSON (s ++ [0x5D]) = .value (.array xs)) (hne : xs ≠ []) :
    ParseJSON (s ++ [0x2C, 0x5D]) = .failure ⟨unexpectedMessage 0x5D,
      (lineColAt (s ++ [0x2C, 0x5D]) (s.length + 1)).1,
      (lineColAt (s ++ [0x2C, 0x5D]) (s.length + 1)).2⟩ := by
  obtain ⟨ws, w, ws', h1, h2, h3, hsplit⟩ := ParseJSON_sound hs
  have hnil := closing_split hsplit h2 (by decide)
  subst hnil
  obtain ⟨body, hb, rfl⟩ := valN_array h3 hne
  have hcut := closing_cut hsplit
  subst hcut
  obtain ⟨q, r1, r2, r3, r4, r5⟩ := array_body_run (y := [0x2C, 0x5D]) h1 hb (by decide) (by decide)
  have hI : ws ++ 0x5B :: (body ++ [0x2C, 0x5D]) = (ws ++ 0x5B :: body) ++ [0x2C, 0x5D] := by simp
  rw [hI] at r1 r4 r5
  obtain ⟨f, hf⟩ : ∃ f, f = ((ws ++ 0x5B :: body) ++ [0x2C, 0x5D]).length := ⟨_, rfl⟩
  rw [← hf] at r4 r5
  obtain ⟨c1, c2, c3⟩ := span_byte r3 (by decide)
  obtain ⟨j, hj⟩ : ∃ j, f - xs.length = j + 1 := ⟨f - xs.length - 1, by omega⟩
  obtain ⟨f', hf'⟩ : ∃ f', f = f' + 1 := ⟨f - 1, by omega⟩
  have hsk : skipWhitespace (advance q).2 = (advance q).2 :=
    skipWhitespace_of_byte c3 (by decide) (by decide)
  have hpk : peek (advance q).2 = 0x5D := by
    rw [peek_rest, c3]; rfl
  have hreach : Reach (NewJSONParser ((ws ++ 0x5B :: body) ++ [0x2C, 0x5D])) (advance q).2 :=
    r1.trans c2.1
  have hpos : (advance q).2.pos = (ws ++ 0x5B :: body).length + 1 := by
    rw [c2.2.1, r2]; rfl
  have hin : (advance q).2.input = (ws ++ 0x5B :: body) ++ [0x2C, 0x5D] := by
    rw [hreach.input_eq]; rfl
  have herr := parse_unexpected f' (advance q).2
    (by rw [hsk, hpos, hin]; simp; omega) (by rw [hsk, hpk]; decide)
  rw [hsk, hpk, ← hf'] at herr
  rw [arrayTail_comma c1, hj, parseArrayLoop_succ, parse_skip, herr] at r5
  have hlc := reach_lineColAt hreach
  rw [hpos] at hlc
  simp only [ParseJSON]
  rw [← hf, r5, hlc]
  rfl

/-- Witness for C9: `[1,2,]` fails at line 1, column 6. -/
theorem C9_array_trailing_comma_witness :
    ParseJSON (bytes "[1,2,]") = .failure ⟨unexpectedMessage 0x5D, 1, 6⟩ :=
  C9_array_trailing_comma (bytes "[1,2") [.number ⟨false, 1, 0⟩, .number ⟨false, 1, 1⟩]
    (by rfl) (by simp)

/-- C10: a turn of the loop of `parseObject` that finds no opening quote fails
with the expected-string-key error at the line and column of the character
found; so `s` followed by `,`, whitespace and a rest not starting with a quote
is rejected with that error at that rest when `s` followed by a closing brace
is accepted as a non-empty object (the trailing comma is the rest `\x7d`), and
so is an opening brace followed by whitespace and a rest that starts neither
with a quote nor with a closing brace, as an unquoted or single-quoted key. -/
theorem C10_object_key_expected :
    (∀ (input : List Nat) (pv : JSONParser → Result JSONValue) (k : Nat) (p : JSONParser)
        (obj : List (List Nat × JSONValue)),
        Reach (NewJSONParser input) p → peek (skipWhitespace p) ≠ 0x22 →
        parseObjectLoop pv (k + 1) p obj = .error ⟨"se esperaba una clave string",
          (lineColAt input (skipWhitespace p).pos).1, (lineColAt input (skipWhitespace p).pos).2⟩)
    ∧ (∀ (s : List Nat) (m : List (List Nat × JSONValue)),
        ParseJSON (s ++ [0x7D]) = .value (.object m) → m ≠ [] →
        ParseJSON (s ++ [0x2C, 0x7D]) = .failure ⟨"se esperaba una clave string",
          (lineColAt (s ++ [0x2C, 0x7D]) (s.length + 1)).1,
          (lineColAt (s ++ [0x2C, 0x7D]) (s.length + 1)).2⟩)
    ∧ (∀ (s : List Nat) (m : List (List Nat × JSONValue)) (w r : List Nat),
        ParseJSON (s ++ [0x7D]) = .value (.object m) → m ≠ [] →
        (∀ b ∈ w, isSpace b = true) → isSpace (peekOf r) = false → peekOf r ≠ 0x22 →
        ParseJSON (s ++ 0x2C :: (w ++ r)) = .failure ⟨"se esperaba una clave string",
          (lineColAt (s ++ 0x2C :: (w ++ r)) (s.length + 1 + w.length)).1,
          (lineColAt (s ++ 0x2C :: (w ++ r)) (s.length + 1 + w.length)).2⟩)
    ∧ (∀ (ws0 w r : List Nat),
        (∀ b ∈ ws0, isSpace b = true) → (∀ b ∈ w, isSpace b = true) →
        isSpace (peekOf r) = false → peekOf r ≠ 0x22 → peekOf r ≠ 0x7D →
        ParseJSON (ws0 ++ 0x7B :: (w ++ r)) = .failure ⟨"se esperaba una clave string",
          (lineColAt (ws0 ++ 0x7B :: (w ++ r)) (ws0.length + 1 + w.length)).1,
          (lineColAt (ws0 ++ 0x7B :: (w ++ r)) (ws0.length + 1 + w.length)).2⟩)
    ∧ ParseJSON (bytes "\x7bkey: \"value\"\x7d")
        = .failure ⟨"se esperaba una clave string", 1, 2⟩
    ∧ ParseJSON (bytes "\x7b\x27key\x27: \x27value\x27\x7d")
        = .failure ⟨"se esperaba una clave string", 1, 2⟩ := by
  refine ⟨?_, ?_, ?_, ?_, by rfl, by rfl⟩
  · intro input pv k p obj hr hq
    rw [parseObjectLoop_no_key pv k p obj hq, reach_lineColAt (hr.trans (skipWhitespace_reach p))]
    rfl
  · intro s m hs hne
    exact object_comma_no_key s m hs hne [] [0x7D] spaces_nil (by decide) (by decide)
  · intro s m w r hs hne hw hsp hq
    exact object_comma_no_key s m hs hne w r hw hsp hq
  · intro ws0 w r h0 hw hsp hq hc
    exact object_open_no_key ws0 w r h0 hw hsp hq hc

/-- Witness for C10: the trailing comma after the member `a: 1` fails at
line 1, column 8. -/
theorem C10_object_key_expected_witness :
    ParseJSON (bytes "\x7b\"a\":1,\x7d") = .failure ⟨"se esperaba una clave string", 1, 8⟩ :=
  C10_object_key_expected.2.1 (bytes "\x7b\"a\":1") [(bytes "a", .number ⟨false, 1, 0⟩)]
    (by rfl) (by simp)

/-- C11: whitespace, an optional minus sign, a `0` and a digit `0`-`9`,
whatever follows, is rejected with the leading-zero error at the line and
column of that digit; `0` alone is the number zero and `0.5` is accepted. -/
theorem C11_leading_zero (w m : List Nat) (d : Nat) (r : List Nat)
    (hw : ∀ b ∈ w, isSpace b = true) (hm : m = [] ∨ m = [0x2D])
    (hd : 0x30 ≤ d ∧ d ≤ 0x39) :
    ParseJSON (w ++ m ++ 0x30 :: d :: r) = .failure ⟨"número inválido con cero inicial",
        (lineColAt (w ++ m ++ 0x30 :: d :: r) (w.length + m.length + 1)).1,
        (lineColAt (w ++ m ++ 0x30 :: d :: r) (w.length + m.length + 1)).2⟩
    ∧ ParseJSON (bytes "0") = .value (.number ⟨false, 0, 0⟩)
    ∧ ParseJSON (bytes "0.5") = .value (.number ⟨false, 1, -1⟩) := by
  refine ⟨?_, by rfl, by rfl⟩
  have hda : isAsciiDigit d = true := by simp [isAsciiDigit, hd]
  have hsp : isSpace (peekOf (m ++ 0x30 :: d :: r)) = false := by
    rcases hm with rfl | rfl
    · exact peekOf_not_space _ (by decide)
    · exact peekOf_not_space _ (by decide)
  obtain ⟨s0, s1⟩ := @skipWhitespace_spaces (NewJSONParser (w ++ m ++ 0x30 :: d :: r)) w
    (m ++ 0x30 :: d :: r) (by rw [rest_new, List.append_assoc]) hw hsp
  obtain ⟨q, q1, q2⟩ := parseNumber_leading_zero hm hda s1
  have hpk : peek (skipWhitespace (NewJSONParser (w ++ m ++ 0x30 :: d :: r))) = 0x2D
      ∨ isAsciiDigit (peek (skipWhitespace (NewJSONParser (w ++ m ++ 0x30 :: d :: r)))) = true := by
    rw [peek_rest, s1]
    rcases hm with rfl | rfl
    · right; rfl
    · left; rfl
  have hreach := s0.1.trans q2.1
  have hpos : q.pos = w.length + m.length + 1 := by
    rw [q2.2.1, s0.2.1]; simp [NewJSONParser]; omega
  have hlc := reach_lineColAt hreach
  rw [hpos] at hlc
  simp only [ParseJSON]
  rw [parse_dispatch_number _ _ hpk, q1, hlc]
  rfl

/-- Witness for C11: `01` fails at line 1, column 2. -/
theorem C11_leading_zero_witness :
    ParseJSON (bytes "01") = .failure ⟨"número inválido con cero inicial", 1, 2⟩ :=
  (C11_leading_zero [] [] 0x31 [] (by simp) (Or.inl rfl) (by decide)).1

/-- C12: an input accepted as a number is, between its leading and trailing
whitespace, a text of the JSON number grammar over ASCII characters (so every
byte of the input is ASCII); the ten malformed literals of the tests and a
literal with a non-ASCII digit are rejected. -/
theorem C12_number_soundness :
    (∀ (s : List Nat) (f : Float64), ParseJSON s = .value (.number f) →
      ∃ ws w ws', s = ws ++ w ++ ws' ∧ (∀ b ∈ ws, isSpace b = true)
        ∧ (∀ b ∈ ws', isSpace b = true) ∧ NumGrammar w ∧ (∀ b ∈ s, b < 0x80))
    ∧ ParseJSON (bytes "01") = .failure ⟨"número inválido con cero inicial", 1, 2⟩
    ∧ ParseJSON (bytes "1.") = .failure ⟨"se esperaba dígito después del punto decimal", 1, 3⟩
    ∧ ParseJSON (bytes "1e") = .failure ⟨"se esperaba dígito después del exponente", 1, 3⟩
    ∧ ParseJSON (bytes "1e+") = .failure ⟨"se esperaba dígito después del exponente", 1, 4⟩
    ∧ ParseJSON (bytes "1e-") = .failure ⟨"se esperaba dígito después del exponente", 1, 4⟩
    ∧ ParseJSON (bytes ".5") = .failure ⟨unexpectedMessage 0x2E, 1, 1⟩
    ∧ ParseJSON (bytes "1.2.3") = .failure ⟨"caracter inesperado después del valor JSON", 1, 4⟩
    ∧ ParseJSON (bytes "-") = .failure ⟨"número mal formado", 1, 2⟩
    ∧ ParseJSON (bytes "+1") = .failure ⟨unexpectedMessage 0x2B, 1, 1⟩
    ∧ ParseJSON (bytes "1.e5") = .failure ⟨"se esperaba dígito después del punto decimal", 1, 3⟩
    ∧ ParseJSON (bytes "1٣") = .failure ⟨"número inválido", 1, 3⟩ := by
  refine ⟨?_, by rfl, by rfl, by rfl, by rfl, by rfl, by rfl, by rfl, by rfl, by rfl, by rfl, by rfl⟩
  intro s f h
  obtain ⟨ws, w, ws', h1, h2, h3, rfl⟩ := ParseJSON_sound h
  obtain ⟨g, hg, hv⟩ := valN_number h3 rfl
  refine ⟨ws, w, ws', rfl, h1, h2, numLit_grammar hg, ?_⟩
  intro b hb
  rcases List.mem_append.mp hb with hb | hb
  · rcases List.mem_append.mp hb with hb | hb
    · exact spaces_ascii h1 b hb
    · exact numLit_ascii hg b hb
  · exact spaces_ascii h2 b hb

/-- Witness for C12: ` -1.5e2 ` is accepted as a number, so it is whitespace
around a text of the number grammar. -/
theorem C12_number_soundness_witness :
    ∃ ws w ws', bytes " -1.5e2 " = ws ++ w ++ ws' ∧ (∀ b ∈ ws, isSpace b = true)
      ∧ (∀ b ∈ ws', isSpace b = true) ∧ NumGrammar w ∧ (∀ b ∈ bytes " -1.5e2 ", b < 0x80) :=
  C12_number_soundness.1 (bytes " -1.5e2 ") ⟨true, 75, 1⟩ (by rfl)

/-- C13 (amended): a text of the number grammar (sign `sg`, integer part `ip`
of at most 800 digits, fraction `fr`, exponent `ex`) that `strconv.ParseFloat`
converts to `f`, and that, when it has neither a fraction nor an exponent, is
its own `%.0f` rendering, is accepted with the number `f`, also between
whitespace; a text without fraction and exponent whose conversion fails or
that differs from the `%.0f` rendering of its conversion is rejected with the
invalid-number error right after the text, and so is any such text whose
conversion fails; the six literals of the tests are accepted with their
conversions and the two long integral literals are rejected. -/
theorem C13_number_completeness :
    (∀ (ws sg ip fr ex ws' : List Nat) (f : Float64),
      (∀ b ∈ ws, isSpace b = true) → (∀ b ∈ ws', isSpace b = true) →
      (sg = [] ∨ sg = [0x2D]) → IntPart ip → FracPart fr → ExpPart ex → ip.length ≤ 800 →
      strconvParseFloat (sg ++ ip ++ fr ++ ex) = some f →
      (fr = [] → ex = [] → sg ++ ip ++ fr ++ ex = formatF0 f) →
      ParseJSON (ws ++ (sg ++ ip ++ fr ++ ex) ++ ws') = .value (.number f))
    ∧ (∀ (ws sg ip ws' : List Nat),
      (∀ b ∈ ws, isSpace b = true) → (∀ b ∈ ws', isSpace b = true) →
      (sg = [] ∨ sg = [0x2D]) → IntPart ip →
      (strconvParseFloat (sg ++ ip) = none
        ∨ ∃ f, strconvParseFloat (sg ++ ip) = some f ∧ sg ++ ip ≠ formatF0 f) →
      ParseJSON (ws ++ (sg ++ ip) ++ ws') = .failure ⟨"número inválido",
        (lineColAt (ws ++ (sg ++ ip) ++ ws') (ws.length + (sg ++ ip).length)).1,
        (lineColAt (ws ++ (sg ++ ip) ++ ws') (ws.length + (sg ++ ip).length)).2⟩)
    ∧ (∀ (ws sg ip fr ex ws' : List Nat),
      (∀ b ∈ ws, isSpace b = true) → (∀ b ∈ ws', isSpace b = true) →
      (sg = [] ∨ sg = [0x2D]) → IntPart ip → FracPart fr → ExpPart ex → ip.length ≤ 800 →
      strconvParseFloat (sg ++ ip ++ fr ++ ex) = none →
      ParseJSON (ws ++ (sg ++ ip ++ fr ++ ex) ++ ws') = .failure ⟨"número inválido",
        (lineColAt (ws ++ (sg ++ ip ++ fr ++ ex) ++ ws')
          (ws.length + (sg ++ ip ++ fr ++ ex).length)).1,
        (lineColAt (ws ++ (sg ++ ip ++ fr ++ ex) ++ ws')
          (ws.length + (sg ++ ip ++ fr ++ ex).length)).2⟩)
    ∧ ParseJSON (bytes "42") = .value (.number ⟨false, 21, 1⟩)
    ∧ ParseJSON (bytes "-456") = .value (.number ⟨true, 57, 3⟩)
    ∧ ParseJSON (bytes "123.45") = .value (.number ⟨false, 8687021468732621, -46⟩)
    ∧ ParseJSON (bytes "1e5") = .value (.number ⟨false, 3125, 5⟩)
    ∧ ParseJSON (bytes "1.23e-4") = .value (.number ⟨false, 2268949521066275, -64⟩)
    ∧ ParseJSON (bytes "1E5") = .value (.number ⟨false, 3125, 5⟩)
    ∧ ParseJSON (bytes "9007199254740993") = .failure ⟨"número inválido", 1, 17⟩
    ∧ ParseJSON (bytes "12345678901234567890") = .failure ⟨"número inválido", 1, 21⟩ := by
  refine ⟨?_, ?_, ?_, by rfl, by rfl, by rfl, by rfl, by rfl, by rfl, by rfl, by rfl⟩
  · intro ws sg ip fr ex ws' f h1 h2 hsg hip hfr hex _ hf hi
    have hv : ValN 1 (sg ++ ip ++ fr ++ ex) (.number f) := by
      simp only [ValN]
      exact Or.inr (Or.inr (Or.inr (Or.inl
        ⟨f, ⟨sg, ip, fr, ex, rfl, hsg, hip, hfr, hex, hf, hi⟩, rfl⟩)))
    exact ParseJSON_complete h1 hv h2
  · intro ws sg ip ws' h1 h2 hsg hip h
    have e : sg ++ ip ++ [] ++ [] = sg ++ ip := by simp
    have := @number_rejected ws sg ip [] [] ws' h1 h2 hsg hip (Or.inl rfl) (Or.inl rfl) (by
      rw [e]
      rcases h with h | ⟨f, g1, g2⟩
      · exact Or.inl h
      · exact Or.inr ⟨f, g1, rfl, rfl, g2⟩)
    rw [e] at this
    exact this
  · intro ws sg ip fr ex ws' h1 h2 hsg hip hfr hex _ hf
    exact number_rejected h1 h2 hsg hip hfr hex (Or.inl hf)

/-- Witness for C13: ` 42` is accepted with the number 42. -/
theorem C13_number_completeness_witness :
    ParseJSON (bytes " 42") = .value (.number ⟨false, 21, 1⟩) :=
  C13_number_completeness.1 [0x20] [] (bytes "42") [] [] [] ⟨false, 21, 1⟩ (by decide) (by simp)
    (Or.inl rfl) (Or.inr ⟨by decide, by decide, by unfold DigitText; decide⟩) (Or.inl rfl)
    (Or.inl rfl) (by decide) (by rfl) (fun _ _ => by rfl)

/-- C13 as stated fails: `9007199254740993` follows the number grammar and
converts without error (to 2^53, the nearest `float64`), yet it is rejected,
because it differs from the `%.0f` rendering of its conversion. -/
theorem C13_counterexample_long_integer :
    NumGrammar (bytes "9007199254740993")
    ∧ strconvParseFloat (bytes "9007199254740993") = some ⟨false, 1, 53⟩
    ∧ formatF0 ⟨false, 1, 53⟩ = bytes "9007199254740992"
    ∧ ParseJSON (bytes "9007199254740993") = .failure ⟨"número inválido", 1, 17⟩ :=
  ⟨⟨[], bytes "9007199254740993", [], [], by rfl, Or.inl rfl,
      Or.inr ⟨by decide, by decide, by unfold DigitText; decide⟩, Or.inl rfl, Or.inl rfl⟩,
    by rfl, by rfl, by rfl⟩

/-- C14: an input of whitespace characters only, the empty input included, is
rejected with the empty-input error at the end-of-input position. -/
theorem C14_whitespace_only (s : List Nat) (h : ∀ b ∈ s, isSpace b = true) :
    ParseJSON s = .failure ⟨"entrada vacía o solo espacios en blanco",
      (lineColAt s s.length).1, (lineColAt s s.length).2⟩ := by
  obtain ⟨s0, s1⟩ := @skipWhitespace_spaces (NewJSONParser s) s [] (by rw [rest_new]; simp) h
    (by decide)
  have hpos : (skipWhitespace (NewJSONParser s)).pos = s.length := by
    rw [s0.2.1]; simp [NewJSONParser]
  have hlc := reach_lineColAt s0.1
  rw [hpos] at hlc
  simp only [ParseJSON]
  rw [parse_succ, if_pos (by rw [skipWhitespace_input, hpos]; exact Nat.le_refl _), hlc]
  rfl

/-- Witness for C14: a space, a tab, a line feed and a carriage return fail
at line 2, column 2, the end of the input. -/
theorem C14_whitespace_only_witness :
    ParseJSON [0x20, 0x09, 0x0A, 0x0D]
      = .failure ⟨"entrada vacía o solo espacios en blanco", 2, 2⟩ :=
  C14_whitespace_only [0x20, 0x09, 0x0A, 0x0D] (by decide)

/-- C15: a one-member object whose key text and value text are accepted
documents parses to the same object, the key bound to the value, whatever
whitespace surrounds the braces, the key, the colon and the value. -/
theorem C15_whitespace_insensitive (k v ks : List Nat) (x : JSONValue)
    (w0 w1 w2 w3 w4 w5 : List Nat)
    (hk : ParseJSON k = .value (.string ks)) (hv : ParseJSON v = .value x)
    (h0 : ∀ b ∈ w0, isSpace b = true) (h1 : ∀ b ∈ w1, isSpace b = true)
    (h2 : ∀ b ∈ w2, isSpace b = true) (h3 : ∀ b ∈ w3, isSpace b = true)
    (h4 : ∀ b ∈ w4, isSpace b = true) (h5 : ∀ b ∈ w5, isSpace b = true) :
    ParseJSON (w0 ++ [0x7B] ++ w1 ++ k ++ w2 ++ [0x3A] ++ w3 ++ v ++ w4 ++ [0x7D] ++ w5)
        = .value (.object [(ks, x)])
    ∧ ParseJSON ([0x7B] ++ k ++ [0x3A] ++ v ++ [0x7D]) = .value (.object [(ks, x)]) := by
  obtain ⟨a, kw, b, a1, a2, a3, rfl⟩ := ParseJSON_sound hk
  obtain ⟨c, e, d, b1, b2, b3, rfl⟩ := ParseJSON_sound hv
  have hks := valN_string a3
  have key : ∀ u0 u1 u2 u3 u4 u5 : List Nat, Spaces u0 → Spaces u1 → Spaces u2 → Spaces u3 →
      Spaces u4 → Spaces u5 →
      ParseJSON (u0 ++ [0x7B] ++ u1 ++ (a ++ kw ++ b) ++ u2 ++ [0x3A] ++ u3 ++ (c ++ e ++ d) ++ u4
        ++ [0x7D] ++ u5) = .value (.object [(ks, x)]) := by
    intro u0 u1 u2 u3 u4 u5 g0 g1 g2 g3 g4 g5
    have hm := Members.last (V := ValN ((c ++ e ++ d).length + 1)) (u1 ++ a) kw (b ++ u2) (u3 ++ c)
      e (d ++ u4) ks x (spaces_append g1 a1) hks (spaces_append a2 g2) (spaces_append g3 b1) b3
      (spaces_append b2 g4)
    have hval : ValN ((c ++ e ++ d).length + 1 + 1)
        (0x7B :: ((u1 ++ a ++ kw ++ (b ++ u2) ++ 0x3A :: (u3 ++ c ++ e ++ (d ++ u4))) ++ [0x7D]))
        (.object (insertAll [] [(ks, x)])) := by
      simp only [ValN]
      exact Or.inr (Or.inr (Or.inr (Or.inr (Or.inr (Or.inr (Or.inr (Or.inr
        ⟨_, _, hm, rfl, rfl⟩)))))))
    have := ParseJSON_complete g0 hval g5
    simpa [List.append_assoc, insertAll, mapInsert] using this
  refine ⟨key w0 w1 w2 w3 w4 w5 h0 h1 h2 h3 h4 h5, ?_⟩
  have := key [] [] [] [] [] [] spaces_nil spaces_nil spaces_nil spaces_nil spaces_nil spaces_nil
  simpa using this

/-- Witness for C15: the spaced and the compact form of the object with the
key `a` bound to 1. -/
theorem C15_whitespace_insensitive_witness :
    ParseJSON (bytes "\x7b \"a\" : 1 \x7d") = .value (.object [(bytes "a", .number ⟨false, 1, 0⟩)])
    ∧ ParseJSON (bytes "\x7b\"a\":1\x7d") = .value (.object [(bytes "a", .number ⟨false, 1, 0⟩)]) :=
  C15_whitespace_insensitive (bytes "\"a\"") (bytes "1") (bytes "a") (.number ⟨false, 1, 0⟩)
    [] [0x20] [0x20] [0x20] [0x20] [] (by rfl) (by rfl) (by simp) (by decide) (by decide)
    (by decide) (by decide) (by simp)

/-- C16: an accepted array or object document cut just before its final
closing bracket or brace (dropping it and the whitespace after it) is
rejected, and the error carries the line and column of the end of the cut
input. -/
theorem C16_unterminated_container (p : List Nat) (c : Nat) (t : List Nat) (v : JSONValue)
    (hc : c = 0x5D ∨ c = 0x7D) (ht : ∀ b ∈ t, isSpace b = true) (hv : v.isContainer = true)
    (h : ParseJSON (p ++ c :: t) = .value v) :
    ∃ msg, msg ∈ ["entrada vacía o solo espacios en blanco",
          "se esperaba \x27,\x27 entre elementos del arreglo", "se esperaba una clave string",
          "se esperaba \x27,\x27 entre pares clave-valor"]
      ∧ ParseJSON p = .failure ⟨msg, (lineColAt p p.length).1, (lineColAt p p.length).2⟩ := by
  obtain ⟨ws, w, ws', h1, h2, h3, hs⟩ := ParseJSON_sound h
  have hcs : isSpace c = false := by rcases hc with rfl | rfl <;> decide
  cases v with
  | null => cases hv
  | bool b => cases hv
  | number f => cases hv
  | string s => cases hv
  | array xs =>
    rcases valN_array_cases h3 with ⟨u, hu, rfl, _⟩ | ⟨body, hb, rfl⟩
    · have e : p ++ c :: t = (ws ++ 0x5B :: u) ++ 0x5D :: ws' := by rw [hs]; simp
      obtain ⟨rfl, _, _⟩ := last_nonspace_unique ht h2 hcs (by decide) e
      exact ⟨_, by simp, array_open_eof h1 hu⟩
    · have e : p ++ c :: t = (ws ++ 0x5B :: body) ++ 0x5D :: ws' := by rw [hs]; simp
      obtain ⟨rfl, _, _⟩ := last_nonspace_unique ht h2 hcs (by decide) e
      exact ⟨_, by simp, array_unterminated h1 hb⟩
  | object m =>
    rcases valN_object_cases h3 with ⟨u, hu, rfl, _⟩ | ⟨body, kvs, hb, rfl, _⟩
    · have e : p ++ c :: t = (ws ++ 0x7B :: u) ++ 0x7D :: ws' := by rw [hs]; simp
      obtain ⟨rfl, _, _⟩ := last_nonspace_unique ht h2 hcs (by decide) e
      have := object_open_no_key ws u [] h1 hu (by decide) (by decide) (by decide)
      simp only [List.append_nil] at this
      have hl : (ws ++ 0x7B :: u).length = ws.length + 1 + u.length := by simp; omega
      refine ⟨"se esperaba una clave string", by simp, ?_⟩
      rw [this, hl]
    · have e : p ++ c :: t = (ws ++ 0x7B :: body) ++ 0x7D :: ws' := by rw [hs]; simp
      obtain ⟨rfl, _, _⟩ := last_nonspace_unique ht h2 hcs (by decide) e
      exact ⟨_, by simp, object_unterminated h1 hb⟩

/-- Witness for C16: the object with the member `a: 1` without its closing
brace fails at line 1, column 7. -/
theorem C16_unterminated_container_witness :
    ∃ msg, msg ∈ ["entrada vacía o solo espacios en blanco",
          "se esperaba \x27,\x27 entre elementos del arreglo", "se esperaba una clave string",
          "se esperaba \x27,\x27 entre pares clave-valor"]
      ∧ ParseJSON (bytes "\x7b\"a\":1") = .failure ⟨msg, 1, 7⟩ :=
  C16_unterminated_container (bytes "\x7b\"a\":1") 0x7D [] (.object [(bytes "a", .number ⟨false, 1, 0⟩)])
    (Or.inr rfl) (by simp) rfl (by rfl)

/-- C17: a cursor reached from the start of the input by calls of `advance`
stays within the input and carries the line and column of its offset; on a
well-formed UTF-8 input the bytes before it encode a prefix of the characters,
its line is one more than the number of line feeds in that prefix and its
column one more than the number of characters after the last of them;
`advance`, `skipWhitespace` and every grammar rule (the keyword rules
included) lead to such cursors only; and every error of `ParseJSON` carries
the line and column of such a cursor. -/
theorem C17_cursor_position :
    (∀ (input : List Nat) (q : JSONParser), Reach (NewJSONParser input) q →
      q.pos ≤ input.length ∧ lineColAt input q.pos = (q.line, q.col))
    ∧ (∀ (cs : List Char) (q : JSONParser), Reach (NewJSONParser (utf8 cs)) q →
      ∃ pre post, cs = pre ++ post ∧ (utf8 cs).take q.pos = utf8 pre
        ∧ q.line = 1 + pre.count (Char.ofNat 0x0A)
        ∧ q.col = 1 + (pre.reverse.takeWhile (fun c => c != Char.ofNat 0x0A)).length)
    ∧ (∀ (p : JSONParser), Reach p (advance p).2 ∧ Reach p (skipWhitespace p)
      ∧ (∀ f v p', parse f p = .ok v p' → Reach p p')
      ∧ (∀ s p', parseString p = .ok s p' → Reach p p')
      ∧ (∀ x p', parseNumber p = .ok x p' → Reach p p')
      ∧ (∀ b p', parseBoolean p = .ok b p' → Reach p p')
      ∧ (∀ v p', parseNull p = .ok v p' → Reach p p'))
    ∧ (∀ (input : List Nat) (e : JSONError), ParseJSON input = .failure e →
      ∃ q, Reach (NewJSONParser input) q ∧ q.pos ≤ input.length
        ∧ (e.Line, e.Column) = lineColAt input q.pos) := by
  refine ⟨?_, ?_, ?_, ?_⟩
  · intro input q h
    exact ⟨reach_new_pos_le h, reach_lineColAt h⟩
  · intro cs q h
    exact reach_lineOf_colOf h
  · intro p
    refine ⟨Reach.single p, skipWhitespace_reach p, fun f v p' h => (parse_progress h).1,
      fun s p' h => parseString_reach h, fun x p' h => parseNumber_reach h, ?_, ?_⟩
    · intro b p' h
      have := parseBoolean_landed p
      rw [h] at this
      exact this
    · intro v p' h
      have := parseNull_landed p
      rw [h] at this
      exact this
  · intro input e h
    obtain ⟨q, h1, h2, h3⟩ := ParseJSON_failure_reach h
    refine ⟨q, h1, reach_new_pos_le h1, ?_⟩
    rw [reach_lineColAt h1, h2, h3]

/-- Witness for C17: after the two characters `é` and line feed (three bytes)
the cursor is at line 2, column 1. -/
theorem C17_cursor_position_witness :
    ∃ pre post, [Char.ofNat 0xE9, Char.ofNat 0x0A, Char.ofNat 0x61] = pre ++ post
      ∧ (utf8 [Char.ofNat 0xE9, Char.ofNat 0x0A, Char.ofNat 0x61]).take 3 = utf8 pre
      ∧ 2 = 1 + pre.count (Char.ofNat 0x0A)
      ∧ 1 = 1 + (pre.reverse.takeWhile (fun c => c != Char.ofNat 0x0A)).length :=
  C17_cursor_position.2.1 [Char.ofNat 0xE9, Char.ofNat 0x0A, Char.ofNat 0x61]
    (advance (advance (NewJSONParser (utf8 [Char.ofNat 0xE9, Char.ofNat 0x0A, Char.ofNat 0x61]))).2).2
    ((Reach.single _).trans (Reach.single _))

/-- C18: the text of an error is `JSON parsing error at line `, the decimal
digits of the line, `, column `, the decimal digits of the column, `: ` and
the message; the digits are ASCII digits without a leading zero that read back
as the number. -/
theorem C18_error_text (m : String) (L C : Nat) :
    (JSONError.mk m L C).Error
        = "JSON parsing error at line " ++ decimalText L ++ ", column " ++ decimalText C ++ ": "
          ++ m
    ∧ (∀ n, readDigits (decimal n) = n ∧ (∀ b ∈ decimal n, 0x30 ≤ b ∧ b ≤ 0x39) ∧ decimal n ≠ []
        ∧ (n ≠ 0 → (decimal n).head? ≠ some 0x30))
    ∧ (JSONError.mk "x" 12 305).Error = "JSON parsing error at line 12, column 305: x" := by
  refine ⟨?_, ?_, by rfl⟩
  · simp only [JSONError.Error, repr_eq_decimalText]
  · intro n
    obtain ⟨e1, e2, e3, e4⟩ := decimal_spec n
    refine ⟨e1, ?_, e3, e4⟩
    intro b hb
    have := e2 b hb
    simpa [isAsciiDigit] using this

/-- C19: when `s` is accepted as a string, an array or an object, every proper
prefix `p` of `s` without its trailing whitespace (the empty prefix included)
is rejected with an error. -/
theorem C19_prefix_rejection (s p u : List Nat) (v : JSONValue)
    (hs : ParseJSON s = .value v)
    (hv : (∃ str, v = .string str) ∨ (∃ xs, v = .array xs) ∨ (∃ m, v = .object m))
    (hp : trimRight s = p ++ u) (hu : u ≠ []) :
    ∃ e, ParseJSON p = .failure e := by
  have hnn : v.isNumber = false := by
    rcases hv with ⟨_, rfl⟩ | ⟨_, rfl⟩ | ⟨_, rfl⟩ <;> rfl
  exact prefix_rejected hs hnn hp hu

/-- Witness for C19: the array `[1, 2]` followed by a space, cut before its
closing bracket. -/
theorem C19_prefix_rejection_witness :
    ∃ e, ParseJSON (bytes "[1, 2") = .failure e :=
  C19_prefix_rejection (bytes "[1, 2] ") (bytes "[1, 2") (bytes "]")
    (.array [.number ⟨false, 1, 0⟩, .number ⟨false, 1, 1⟩]) (by rfl)
    (Or.inr (Or.inl ⟨_, rfl⟩)) (by decide) (by decide)

/-- C20: `ParseJSON` returns on every input (a value or an error, never an
exhausted step budget); from a cursor within the input, `advance` and
`skipWhitespace` stay within the input and never move back, `advance` moves
strictly forward before the end of input and returns the sentinel 0 and the
unchanged cursor at the end; every grammar rule that succeeds ends within the
input strictly after its start, so a turn of the array, object or string loop
that goes on hands a strictly larger offset to the next turn; and the cursor
at which `ParseJSON` raises an error is within the input. -/
theorem C20_progress_and_termination :
    (∀ input : List Nat, ParseJSON input ≠ .outOfFuel
      ∧ ((∃ v, ParseJSON input = .value v) ∨ (∃ e, ParseJSON input = .failure e)))
    ∧ (∀ p : JSONParser, p.pos ≤ p.input.length →
        (p.pos ≤ (advance p).2.pos ∧ (advance p).2.pos ≤ p.input.length)
        ∧ (p.pos < p.input.length → p.pos < (advance p).2.pos)
        ∧ (p.pos = p.input.length → advance p = (0, p))
        ∧ (p.pos ≤ (skipWhitespace p).pos ∧ (skipWhitespace p).pos ≤ p.input.length))
    ∧ (∀ (p p' : JSONParser), p.pos ≤ p.input.length →
        (∀ f v, parse f p = .ok v p' → p.pos < p'.pos ∧ p'.pos ≤ p.input.length)
        ∧ (∀ s, parseString p = .ok s p' → p.pos < p'.pos ∧ p'.pos ≤ p.input.length)
        ∧ (∀ x, parseNumber p = .ok x p' → p.pos < p'.pos ∧ p'.pos ≤ p.input.length)
        ∧ (∀ b, parseBoolean p = .ok b p' → p.pos < p'.pos ∧ p'.pos ≤ p.input.length)
        ∧ (∀ v, parseNull p = .ok v p' → p.pos < p'.pos ∧ p'.pos ≤ p.input.length))
    ∧ (∀ (f k : Nat) (p p2 : JSONParser) (acc : List JSONValue) (val : JSONValue),
        parse f (skipWhitespace p) = .ok val p2 → peek (skipWhitespace p2) = 0x2C →
        parseArrayLoop (parse f) (k + 1) p acc
            = parseArrayLoop (parse f) k (advance (skipWhitespace p2)).2 (acc ++ [val])
        ∧ p.pos < (advance (skipWhitespace p2)).2.pos)
    ∧ (∀ (f k : Nat) (p p2 p5 : JSONParser) (obj : List (List Nat × JSONValue)) (key : List Nat)
        (val : JSONValue),
        peek (skipWhitespace p) = 0x22 → parseString (skipWhitespace p) = .ok key p2 →
        peek (skipWhitespace p2) = 0x3A →
        parse f (skipWhitespace (advance (skipWhitespace p2)).2) = .ok val p5 →
        peek (skipWhitespace p5) = 0x2C →
        parseObjectLoop (parse f) (k + 1) p obj
            = parseObjectLoop (parse f) k (advance (skipWhitespace p5)).2 (mapInsert obj key val)
        ∧ p.pos < (advance (skipWhitespace p5)).2.pos)
    ∧ (∀ (f : Nat) (p : JSONParser) (res : List Nat),
        (∃ s p', parseStringLoop (f + 1) p res = .ok s p')
        ∨ (∃ e, parseStringLoop (f + 1) p res = .error e)
        ∨ (∃ q res', parseStringLoop (f + 1) p res = parseStringLoop f q res'
            ∧ p.pos < q.pos))
    ∧ (∀ (input : List Nat) (e : JSONError), ParseJSON input = .failure e →
        ∃ q, Reach (NewJSONParser input) q ∧ q.pos ≤ input.length ∧ e.Line = q.line
          ∧ e.Column = q.col) := by
  refine ⟨fun input => ⟨ParseJSON_total input, ParseJSON_cases input⟩, ?_, ?_,
    fun f k p p2 acc val h1 h2 => parseArrayLoop_turn h1 h2,
    fun f k p p2 p5 obj key val h0 h1 h2 h3 h4 => parseObjectLoop_turn h0 h1 h2 h3 h4,
    parseStringLoop_turn, ?_⟩
  · intro p hp
    refine ⟨⟨advance_pos_ge p, advance_pos_le_len p hp⟩, advance_pos_lt p,
      fun h => advance_eof p (by omega), skipWhitespace_pos_ge p, ?_⟩
    have := (skipWhitespace_reach p).pos_le_len hp
    rw [skipWhitespace_input] at this
    exact this
  · intro p p' hp
    have bound : Reach p p' → p'.pos ≤ p.input.length := by
      intro h
      have := h.pos_le_len hp
      rw [h.input_eq] at this
      exact this
    refine ⟨fun f v h => ⟨(parse_progress h).2, bound (parse_progress h).1⟩,
      fun s h => ⟨parseString_progress h, bound (parseString_reach h)⟩,
      fun x h => ⟨parseNumber_progress h, bound (parseNumber_reach h)⟩, ?_, ?_⟩
    · intro b h
      refine ⟨parseBoolean_progress h, bound ?_⟩
      have := parseBoolean_landed p
      rw [h] at this
      exact this
    · intro v h
      refine ⟨parseNull_progress h, bound ?_⟩
      have := parseNull_landed p
      rw [h] at this
      exact this
  · intro input e h
    obtain ⟨q, h1, h2, h3⟩ := ParseJSON_failure_reach h
    exact ⟨q, h1, reach_new_pos_le h1, h2, h3⟩

/-- Witness for C20: the call of `parse` on the input `[1]` that reads the
whole array ends at offset 3, strictly after its start and within the
input. -/
theorem C20_progress_and_termination_witness :
    (NewJSONParser (bytes "[1]")).pos < (JSONParser.mk (bytes "[1]") 3 1 4).pos
      ∧ (JSONParser.mk (bytes "[1]") 3 1 4).pos ≤ (NewJSONParser (bytes "[1]")).input.length :=
  (C20_progress_and_termination.2.2.1 (NewJSONParser (bytes "[1]")) ⟨bytes "[1]", 3, 1, 4⟩
    (by decide)).1 4 (.array [.number ⟨false, 1, 0⟩]) (by rfl)

end JSONParserGo
